import Mathlib

/-!
# porkbun: the JSON encoding layer of `types.go`

A shallow embedding of `authRequest.MarshalJSON` and `Domain.UnmarshalJSON`
together with the parts of the Go standard library they call
(`encoding/json`, `strconv.Atoi`, `time.Parse`, `time.Unix`), followed by
theorems about them.

Conventions of the embedding:

* Go `string` and `[]byte` values are Lean `String`s (sequences of code
  points); the scanners work on `List Char`.
* A JSON text is read by `parseJSON` into a `JVal`; number tokens keep their
  literal spelling, because `json.Unmarshal` into an `int` depends on it.
* `int` is the 64-bit Go `int`.
* A `*Domain` receiver is passed in and handed back explicitly, together with
  what was written to standard output (`Machine`); a nil-pointer dereference
  is the outcome `panic`.
-/

namespace Porkbun

/-! ## JSON values and the `encoding/json` scanner -/

/-- A decoded JSON text. Numbers keep the literal of their token. -/
inductive JVal where
  | null
  | bool (b : Bool)
  | num (lit : String)
  | str (s : String)
  | arr (items : List JVal)
  | obj (members : List (String × JVal))
deriving Repr, Inhabited

/-- The four whitespace bytes of the JSON grammar (`isSpace` in scanner.go). -/
def isSpace (c : Char) : Bool :=
  c = ' ' || c = '\t' || c = '\r' || c = '\n'

/-- Drop leading JSON whitespace. -/
def skipSpace : List Char → List Char
  | [] => []
  | c :: cs => if isSpace c then skipSpace cs else c :: cs

/-- ASCII decimal digit. -/
def isDigit (c : Char) : Bool := 0x30 ≤ c.toNat && c.toNat ≤ 0x39

/-- Value of a hexadecimal digit, either case. -/
def hexValue (c : Char) : Option Nat :=
  if 0x30 ≤ c.toNat ∧ c.toNat ≤ 0x39 then some (c.toNat - 0x30)
  else if 0x61 ≤ c.toNat ∧ c.toNat ≤ 0x66 then some (c.toNat - 0x61 + 10)
  else if 0x41 ≤ c.toNat ∧ c.toNat ≤ 0x46 then some (c.toNat - 0x41 + 10)
  else none

/-- The function `getu4` of decode.go: the code unit of a leading `\uXXXX`. -/
def getu4 : List Char → Option Nat
  | b :: u :: h1 :: h2 :: h3 :: h4 :: _ =>
    if b = '\\' ∧ u = 'u' then
      match hexValue h1, hexValue h2, hexValue h3, hexValue h4 with
      | some x, some y, some z, some w => some (((x * 16 + y) * 16 + z) * 16 + w)
      | _, _, _, _ => none
    else none
  | _ => none

/-- The function `utf16.IsSurrogate`. -/
def isSurrogate (r : Nat) : Bool := 0xd800 ≤ r && r < 0xe000

/-- The function `utf16.DecodeRune`, with `none` for the replacement character. -/
def decodeRune (r1 r2 : Nat) : Option Nat :=
  if 0xd800 ≤ r1 ∧ r1 < 0xdc00 ∧ 0xdc00 ≤ r2 ∧ r2 < 0xe000 then
    some ((r1 - 0xd800) * 1024 + (r2 - 0xdc00) + 0x10000)
  else none

/-- Put the rune `r` in front of an unquoted tail. -/
def putRune (r : Nat) (res : Option (List Char × List Char)) :
    Option (List Char × List Char) :=
  res.map fun p => (Char.ofNat r :: p.1, p.2)

/-- Read a string token after its opening quote: the unquoted content and the
text after the closing quote (scanner states `stateInString…` and `unquote`
of decode.go). Control characters must be escaped; a lone surrogate escape
becomes U+FFFD. The first argument bounds the number of steps. -/
def unquoteAux : Nat → List Char → Option (List Char × List Char)
  | 0, _ => none
  | _ + 1, [] => none
  | fuel + 1, c :: rest =>
    if c = '"' then some ([], rest)
    else if c = '\\' then
      match rest with
      | [] => none
      | e :: rest1 =>
        if e = 'u' then
          match getu4 (c :: rest) with
          | none => none
          | some rr =>
            if isSurrogate rr then
              match (getu4 (rest1.drop 4)).bind (decodeRune rr) with
              | some dec => putRune dec (unquoteAux fuel (rest1.drop 10))
              | none => putRune 0xfffd (unquoteAux fuel (rest1.drop 4))
            else putRune rr (unquoteAux fuel (rest1.drop 4))
        else if e = '"' then putRune 0x22 (unquoteAux fuel rest1)
        else if e = '\\' then putRune 0x5c (unquoteAux fuel rest1)
        else if e = '/' then putRune 0x2f (unquoteAux fuel rest1)
        else if e = 'b' then putRune 0x08 (unquoteAux fuel rest1)
        else if e = 'f' then putRune 0x0c (unquoteAux fuel rest1)
        else if e = 'n' then putRune 0x0a (unquoteAux fuel rest1)
        else if e = 'r' then putRune 0x0d (unquoteAux fuel rest1)
        else if e = 't' then putRune 0x09 (unquoteAux fuel rest1)
        else none
    else if c.toNat < 0x20 then none
    else (unquoteAux fuel rest).map fun p => (c :: p.1, p.2)

/-- Read a string token after its opening quote. -/
def unquoteBody (cs : List Char) : Option (List Char × List Char) :=
  unquoteAux cs.length cs

/-- Longest run of leading digits, and the rest. -/
def spanDigits : List Char → List Char × List Char
  | [] => ([], [])
  | c :: cs =>
    if isDigit c then ((c :: (spanDigits cs).1), (spanDigits cs).2) else ([], c :: cs)

/-- Integer part of a number token: `0`, or a nonzero digit and more digits. -/
def scanInt : List Char → Option (List Char × List Char)
  | [] => none
  | c :: cs =>
    if c = '0' then some ([c], cs)
    else if isDigit c then some (c :: (spanDigits cs).1, (spanDigits cs).2)
    else none

/-- A run of at least one digit. -/
def scanDigits1 (cs : List Char) : Option (List Char × List Char) :=
  match spanDigits cs with
  | ([], _) => none
  | (d :: ds, rest) => some (d :: ds, rest)

/-- Optional fraction of a number token. -/
def scanFrac : List Char → Option (List Char × List Char)
  | [] => some ([], [])
  | c :: cs =>
    if c = '.' then (scanDigits1 cs).map fun p => (c :: p.1, p.2)
    else some ([], c :: cs)

/-- Optional sign of an exponent. -/
def scanSign : List Char → List Char × List Char
  | [] => ([], [])
  | c :: cs => if c = '+' ∨ c = '-' then ([c], cs) else ([], c :: cs)

/-- Optional exponent of a number token. -/
def scanExp : List Char → Option (List Char × List Char)
  | [] => some ([], [])
  | c :: cs =>
    if c = 'e' ∨ c = 'E' then
      (scanDigits1 (scanSign cs).2).map fun p => (c :: ((scanSign cs).1 ++ p.1), p.2)
    else some ([], c :: cs)

/-- A number token by the JSON grammar: its literal and the rest. -/
def scanNumber (cs : List Char) : Option (List Char × List Char) :=
  let signed : List Char × List Char :=
    match cs with
    | [] => ([], [])
    | c :: r => if c = '-' then ([c], r) else ([], c :: r)
  match scanInt signed.2 with
  | none => none
  | some (ip, r1) =>
    match scanFrac r1 with
    | none => none
    | some (fp, r2) =>
      match scanExp r2 with
      | none => none
      | some (ep, r3) => some (signed.1 ++ ip ++ fp ++ ep, r3)

/-- Remove the keyword `lit` from the front of `cs`. -/
def stripWord : List Char → List Char → Option (List Char)
  | [], cs => some cs
  | _ :: _, [] => none
  | l :: ls, c :: cs => if l = c then stripWord ls cs else none

/-- The constant `maxNestingDepth` of scanner.go. -/
def maxNestingDepth : Nat := 10000

mutual
/-- One JSON value at the front of the text (leading whitespace allowed) and
the text after it. `depth` counts the enclosing arrays and objects. -/
def parseValue : Nat → Nat → List Char → Option (JVal × List Char)
  | 0, _, _ => none
  | fuel + 1, depth, cs =>
    match skipSpace cs with
    | [] => none
    | c :: rest =>
      if c = '"' then
        (unquoteBody rest).map fun p => (JVal.str (String.mk p.1), p.2)
      else if c = '[' then
        if maxNestingDepth ≤ depth then none
        else
          match skipSpace rest with
          | [] => none
          | c1 :: rest1 =>
            if c1 = ']' then some (JVal.arr [], rest1)
            else (parseItems fuel (depth + 1) rest).map fun p => (JVal.arr p.1, p.2)
      else if c = '{' then
        if maxNestingDepth ≤ depth then none
        else
          match skipSpace rest with
          | [] => none
          | c1 :: rest1 =>
            if c1 = '}' then some (JVal.obj [], rest1)
            else (parseMembers fuel (depth + 1) rest).map fun p => (JVal.obj p.1, p.2)
      else if c = 't' then
        (stripWord ['r', 'u', 'e'] rest).map fun r => (JVal.bool true, r)
      else if c = 'f' then
        (stripWord ['a', 'l', 's', 'e'] rest).map fun r => (JVal.bool false, r)
      else if c = 'n' then
        (stripWord ['u', 'l', 'l'] rest).map fun r => (JVal.null, r)
      else
        (scanNumber (c :: rest)).map fun p => (JVal.num (String.mk p.1), p.2)
/-- The elements of an array after `[`, up to and including `]`. -/
def parseItems : Nat → Nat → List Char → Option (List JVal × List Char)
  | 0, _, _ => none
  | fuel + 1, depth, cs =>
    match parseValue fuel depth cs with
    | none => none
    | some (v, rest) =>
      match skipSpace rest with
      | [] => none
      | c :: rest1 =>
        if c = ',' then (parseItems fuel depth rest1).map fun p => (v :: p.1, p.2)
        else if c = ']' then some ([v], rest1)
        else none
/-- The members of an object after `{` or `,`, up to and including `}`. -/
def parseMembers : Nat → Nat → List Char → Option (List (String × JVal) × List Char)
  | 0, _, _ => none
  | fuel + 1, depth, cs =>
    match skipSpace cs with
    | [] => none
    | q :: r0 =>
      if q = '"' then
        match unquoteBody r0 with
        | none => none
        | some (k, r1) =>
          match skipSpace r1 with
          | [] => none
          | colon :: r2 =>
            if colon = ':' then
              match parseValue fuel depth r2 with
              | none => none
              | some (v, r3) =>
                match skipSpace r3 with
                | [] => none
                | c :: r4 =>
                  if c = ',' then
                    (parseMembers fuel depth r4).map fun p => ((String.mk k, v) :: p.1, p.2)
                  else if c = '}' then some ([(String.mk k, v)], r4)
                  else none
            else none
      else none
end

/-- A whole JSON text: one value with optional whitespace around it
(`checkValid` followed by decoding). The recursion budget grows with the text
and never cuts a parse short (`parseJSON_of_parseValue`). -/
def parseJSON (b : String) : Option JVal :=
  match parseValue (2 * b.length + 2) 0 b.toList with
  | none => none
  | some (v, rest) => if skipSpace rest = [] then some v else none

/-! ## Go error values -/

/-- The error values that reach the callers of this file. -/
inductive GoError where
  /-- A `*json.SyntaxError`; the scanner's message text is not reproduced. -/
  | jsonSyntaxError
  /-- A `*json.UnmarshalTypeError` with its `Value`, `Type`, `Struct`, `Field`. -/
  | unmarshalTypeError (value goType strct field : String)
  /-- A `*strconv.NumError` with its `Func`, `Num` and the text of `Err`. -/
  | numError (func num err : String)
  /-- A `*time.ParseError` with its five fields. -/
  | parseError (layout value layoutElem valueElem message : String)
  /-- The result of `errors.New`. -/
  | errorString (msg : String)
  /-- The error `json.Marshal` returns for a payload it cannot encode. -/
  | marshalError (msg : String)
deriving DecidableEq, Repr, Inhabited

/-- Lower-case hexadecimal digit of a value below 16. -/
def lowerhex (n : Nat) : Char :=
  if n < 10 then Char.ofNat (0x30 + n) else Char.ofNat (0x61 + (n - 10))

/-- The two hexadecimal digits of a byte. -/
def hexByte (n : Nat) : List Char := [lowerhex (n / 16 % 16), lowerhex (n % 16)]

/-- The function `quote` of time/format.go. -/
def timeQuote (s : String) : String :=
  let body := s.toList.flatMap fun c =>
    if 0x80 ≤ c.toNat ∨ c.toNat < 0x20 then
      (String.utf8EncodeChar c).flatMap fun b => '\\' :: 'x' :: hexByte b.toNat
    else if c = '"' ∨ c = '\\' then ['\\', c]
    else [c]
  String.mk ('"' :: body ++ ['"'])

/-- The function `strconv.Quote` on ASCII text, where it is exact. From U+0080
on `strconv.IsPrint` decides by tables which characters are escaped; they are
not reproduced, and the result is `none` for a text that holds such a
character. -/
def strconvQuote (s : String) : Option String :=
  if s.toList.all (fun c => c.toNat < 0x80) then
    let body := s.toList.flatMap fun c =>
      if c = '"' ∨ c = '\\' then ['\\', c]
      else if 0x20 ≤ c.toNat ∧ c.toNat < 0x7f then [c]
      else if c.toNat = 0x07 then ['\\', 'a']
      else if c.toNat = 0x08 then ['\\', 'b']
      else if c.toNat = 0x0c then ['\\', 'f']
      else if c.toNat = 0x0a then ['\\', 'n']
      else if c.toNat = 0x0d then ['\\', 'r']
      else if c.toNat = 0x09 then ['\\', 't']
      else if c.toNat = 0x0b then ['\\', 'v']
      else '\\' :: 'x' :: hexByte c.toNat
    some (String.mk ('"' :: body ++ ['"']))
  else none

/-- The method `Error()`. `none` stands for a text that is not reproduced
here: that of a `*json.SyntaxError`, which quotes at most one input character,
and that of a `*strconv.NumError` whose `Num` is not ASCII. -/
def GoError.Error : GoError → Option String
  | .jsonSyntaxError => none
  | .unmarshalTypeError value goType strct field =>
    if strct ≠ "" ∨ field ≠ "" then
      some ("json: cannot unmarshal " ++ value ++ " into Go struct field " ++ strct ++ "."
        ++ field ++ " of type " ++ goType)
    else some ("json: cannot unmarshal " ++ value ++ " into Go value of type " ++ goType)
  | .numError func num err =>
    (strconvQuote num).map fun quoted =>
      "strconv." ++ func ++ ": parsing " ++ quoted ++ ": " ++ err
  | .parseError layout value layoutElem valueElem message =>
    if message = "" then
      some ("parsing time " ++ timeQuote value ++ " as " ++ timeQuote layout
        ++ ": cannot parse " ++ timeQuote valueElem ++ " as " ++ timeQuote layoutElem)
    else some ("parsing time " ++ timeQuote value ++ message)
  | .errorString msg => some msg
  | .marshalError msg => some msg

/-- ASCII lower-casing. -/
def lowerAscii (c : Char) : Char :=
  if 0x41 ≤ c.toNat ∧ c.toNat ≤ 0x5a then Char.ofNat (c.toNat + 0x20) else c

/-- Whether `needle` starts `hay`. -/
def startsWith : List Char → List Char → Bool
  | _, [] => true
  | [], _ :: _ => false
  | h :: hs, n :: ns => h = n && startsWith hs ns

/-- Whether `needle` occurs somewhere in `hay`. -/
def occursIn : List Char → List Char → Bool
  | [], needle => startsWith [] needle
  | h :: hs, needle => startsWith (h :: hs) needle || occursIn hs needle

/-- An error names a field when its message contains the field's JSON key,
letter case aside (the source spells the keys `securityLock`, `whoisPrivacy`
as `SecurityLock`, `WhoisPrivacy` in its messages). -/
def GoError.names (e : GoError) (key : String) : Bool :=
  match e.Error with
  | none => false
  | some msg => occursIn (msg.toList.map lowerAscii) (key.toList.map lowerAscii)

/-! ## `strconv` -/

/-- Why a number failed to parse. -/
inductive NumFault where
  | badSyntax
  | outOfRange
deriving DecidableEq, Repr

/-- The digit loop of `strconv.ParseUint(s, 10, 64)`: digits are folded in from
the left, and an overflow is reported as soon as it happens. -/
def parseUintLoop : Nat → List Char → Except NumFault Nat
  | n, [] => .ok n
  | n, c :: cs =>
    if isDigit c then
      if 1844674407370955162 ≤ n then .error .outOfRange
      else if 18446744073709551615 < n * 10 + (c.toNat - 0x30) then .error .outOfRange
      else parseUintLoop (n * 10 + (c.toNat - 0x30)) cs
    else .error .badSyntax

/-- The function `strconv.ParseInt(s, 10, 64)`, without the error wrapper. -/
def parseInt64 (s : List Char) : Except NumFault Int :=
  match s with
  | [] => .error .badSyntax
  | c :: cs =>
    let neg : Bool := c = '-'
    let digits : List Char := if c = '+' ∨ c = '-' then cs else c :: cs
    match digits with
    | [] => .error .badSyntax
    | _ :: _ =>
      match parseUintLoop 0 digits with
      | .error f => .error f
      | .ok un =>
        if neg = false ∧ 9223372036854775808 ≤ un then .error .outOfRange
        else if neg = true ∧ 9223372036854775808 < un then .error .outOfRange
        else if neg then .ok (-(un : Int)) else .ok (un : Int)

/-- The function `strconv.Atoi` for the 64-bit `int`. -/
def Atoi (s : String) : Except GoError Int :=
  match parseInt64 s.toList with
  | .ok n => .ok n
  | .error .badSyntax => .error (.numError "Atoi" s "invalid syntax")
  | .error .outOfRange => .error (.numError "Atoi" s "value out of range")

/-! ## `time` -/

/-- The two locations a `time.Time` of this file can carry. -/
inductive Location where
  | UTC
  | Local
deriving DecidableEq, Repr

/-- A `time.Time`: seconds since the Unix epoch, nanoseconds within the second,
and the location it is presented in. -/
structure Time where
  unix : Int
  nsec : Nat
  loc : Location
deriving DecidableEq, Repr

/-- The zero value `time.Time{}`: January 1 of year 1, 00:00:00 UTC. -/
def Time.zero : Time := ⟨-62135596800, 0, .UTC⟩

instance : Inhabited Time := ⟨Time.zero⟩

/-- The function `time.Unix`. -/
def Unix (sec nsec : Int) : Time :=
  ⟨sec + nsec / 1000000000, (nsec % 1000000000).toNat, .Local⟩

/-- The function `isLeap` of the `time` package. -/
def isLeap (year : Nat) : Bool :=
  year % 4 = 0 && (year % 100 ≠ 0 || year % 400 = 0)

/-- The table `daysBefore`: days of a non-leap year before month `m + 1`. -/
def daysBefore (m : Nat) : Nat :=
  [0, 31, 59, 90, 120, 151, 181, 212, 243, 273, 304, 334, 365].getD m 0

/-- The function `daysIn`, for a month number from 1 to 12. -/
def daysIn (month year : Nat) : Nat :=
  if month = 2 ∧ isLeap year = true then 29 else daysBefore month - daysBefore (month - 1)

/-- Days from January 1 of year 0 to January 1 of `year` (proleptic Gregorian). -/
def daysBeforeYear (year : Nat) : Nat :=
  365 * year + (year + 3) / 4 - (year + 99) / 100 + (year + 399) / 400

/-- The function `time.Date` in UTC, for the in-range fields `time.Parse` hands
it (no normalisation is needed then). -/
def Date (year month day hour min sec nsec : Nat) : Time :=
  let days : Nat :=
    daysBeforeYear year + daysBefore (month - 1)
      + (if isLeap year = true ∧ 3 ≤ month then 1 else 0) + (day - 1)
  ⟨((days : Int) - 719528) * 86400 + (hour * 3600 + min * 60 + sec : Nat), nsec, .UTC⟩

/-- The layout constant both calls of `time.Parse` in `types.go` pass. -/
def layout : String := "2006-01-02 15:04:05"

/-- The value `newParseError(layout, value, layoutElem, valueElem, message)`. -/
def newParseError (value : String) (layoutElem : String) (valueElem : List Char)
    (message : String) : GoError :=
  .parseError layout value layoutElem (String.mk valueElem) message

/-- The function `getnum` of time/format.go. -/
def getnum (s : List Char) (fixed : Bool) : Option (Nat × List Char) :=
  match s with
  | [] => none
  | c0 :: s1 =>
    if isDigit c0 then
      match s1 with
      | [] => if fixed then none else some (c0.toNat - 0x30, s1)
      | c1 :: s2 =>
        if isDigit c1 then some ((c0.toNat - 0x30) * 10 + (c1.toNat - 0x30), s2)
        else if fixed then none else some (c0.toNat - 0x30, s1)
    else none

/-- The function `cutspace`. -/
def cutspace : List Char → List Char
  | [] => []
  | c :: cs => if c = ' ' then cutspace cs else c :: cs

/-- The function `skip` for a layout chunk of one literal character. On failure
the value reached is handed back, as the caller reports it. -/
def skipLit (value : List Char) (lit : Char) : Except (List Char) (List Char) :=
  if lit = ' ' then
    match value with
    | [] => .ok []
    | c :: cs => if c ≠ ' ' then .error (c :: cs) else .ok (cutspace (c :: cs))
  else
    match value with
    | [] => .error []
    | c :: cs => if c = lit then .ok cs else .error (c :: cs)

/-- Value of a run of decimal digits. -/
def digitsValue (ds : List Char) : Nat :=
  ds.foldl (fun n c => n * 10 + (c.toNat - 0x30)) 0

/-- The function `parseNanoseconds` on a value that starts with a period or
comma followed by `nbytes - 1` digits: at most nine of them count. -/
def parseNanoseconds (value : List Char) (nbytes : Nat) : Nat :=
  let n := min nbytes 10
  digitsValue ((value.take n).drop 1) * 10 ^ (10 - n)

/-- The seconds element `05` of the layout: two digits, a range check, and the
special case of a fractional second that the layout does not mention. Yields
seconds, nanoseconds and the rest. -/
def parseSeconds (whole : String) (value : List Char) :
    Except GoError (Nat × Nat × List Char) :=
  match getnum value true with
  | none => .error (newParseError whole "05" value "")
  | some (sec, v) =>
    if 60 ≤ sec then .error (newParseError whole "05" v ": second out of range")
    else
      match v with
      | p :: d :: _ =>
        if (p = '.' ∨ p = ',') ∧ isDigit d = true then
          let n := 1 + (spanDigits (v.drop 1)).1.length
          .ok (sec, parseNanoseconds v n, v.drop n)
        else .ok (sec, 0, v)
      | _ => .ok (sec, 0, v)

/-- The function `time.Parse` at the layout `2006-01-02 15:04:05`: the loop of
`parse` over the layout elements, unrolled. -/
def timeParse (whole : String) : Except GoError Time :=
  let v0 := whole.toList
  -- 2006
  if v0.length < 4 ∨ (v0.take 4).all isDigit = false then
    .error (newParseError whole "2006" v0 "")
  else
    let year := digitsValue (v0.take 4)
    match skipLit (v0.drop 4) '-' with
    | .error v => .error (newParseError whole "-" v "")
    | .ok v1 =>
      -- 01
      match getnum v1 true with
      | none => .error (newParseError whole "01" v1 "")
      | some (month, v2) =>
        if month = 0 ∨ 12 < month then
          .error (newParseError whole "01" v2 ": month out of range")
        else
          match skipLit v2 '-' with
          | .error v => .error (newParseError whole "-" v "")
          | .ok v3 =>
            -- 02
            match getnum v3 true with
            | none => .error (newParseError whole "02" v3 "")
            | some (day, v4) =>
              match skipLit v4 ' ' with
              | .error v => .error (newParseError whole " " v "")
              | .ok v5 =>
                -- 15
                match getnum v5 false with
                | none => .error (newParseError whole "15" v5 "")
                | some (hour, v6) =>
                  if 24 ≤ hour then
                    .error (newParseError whole "15" v6 ": hour out of range")
                  else
                    match skipLit v6 ':' with
                    | .error v => .error (newParseError whole ":" v "")
                    | .ok v7 =>
                      -- 04
                      match getnum v7 true with
                      | none => .error (newParseError whole "04" v7 "")
                      | some (min, v8) =>
                        if 60 ≤ min then
                          .error (newParseError whole "04" v8 ": minute out of range")
                        else
                          match skipLit v8 ':' with
                          | .error v => .error (newParseError whole ":" v "")
                          | .ok v9 =>
                            -- 05
                            match parseSeconds whole v9 with
                            | .error e => .error e
                            | .ok (sec, nsec, v10) =>
                              if v10 ≠ [] then
                                .error (newParseError whole "" v10
                                  (": extra text: " ++ timeQuote (String.mk v10)))
                              else if day < 1 ∨ daysIn month year < day then
                                .error (newParseError whole "" v10 ": day out of range")
                              else .ok (Date year month day hour min sec nsec)

/-! ## `json.Unmarshal` into the targets `types.go` uses -/

/-- The word `encoding/json` uses for the kind of a JSON value in an
`UnmarshalTypeError` whose target is not numeric. -/
def kindName : JVal → String
  | .null => "null"
  | .bool _ => "bool"
  | .num _ => "number"
  | .str _ => "string"
  | .arr _ => "array"
  | .obj _ => "object"

/-- The call `json.Unmarshal(raw, &s)` for a `string` variable holding `cur`:
the new content of the variable, or the error (the variable is then unchanged). -/
def jsonUnmarshalString (raw : JVal) (cur : String) : Except GoError String :=
  match raw with
  | .str s => .ok s
  | .null => .ok cur
  | v => .error (.unmarshalTypeError (kindName v) "string" "" "")

/-- The call `json.Unmarshal(raw, &n)` for an `int` variable holding `cur`. -/
def jsonUnmarshalInt (raw : JVal) (cur : Int) : Except GoError Int :=
  match raw with
  | .num lit =>
    match parseInt64 lit.toList with
    | .ok n => .ok n
    | .error _ => .error (.unmarshalTypeError ("number " ++ lit) "int" "" "")
  | .null => .ok cur
  | v => .error (.unmarshalTypeError (kindName v) "int" "" "")

/-- A label of a domain. -/
structure DomainLabel where
  ID : String
  Title : String
  Color : String
deriving DecidableEq, Repr

/-- The zero value of `DomainLabel`. -/
def DomainLabel.zero : DomainLabel := ⟨"", "", ""⟩

instance : Inhabited DomainLabel := ⟨DomainLabel.zero⟩

/-- The three JSON field names of `DomainLabel`. -/
inductive LabelField where
  | id
  | title
  | color
deriving DecidableEq, Repr

/-- The JSON name of a field, from its struct tag. -/
def LabelField.name : LabelField → String
  | .id => "id"
  | .title => "title"
  | .color => "color"

/-- The field a JSON key selects: an exact match, else a match up to letter
case (the three names hold no letter with a non-ASCII case variant). -/
def labelFieldOf (key : String) : Option LabelField :=
  let folded := key.toList.map lowerAscii
  if folded = "id".toList then some .id
  else if folded = "title".toList then some .title
  else if folded = "color".toList then some .color
  else none

/-- Store a string into one field of a label. -/
def DomainLabel.set (l : DomainLabel) (f : LabelField) (s : String) : DomainLabel :=
  match f with
  | .id => { l with ID := s }
  | .title => { l with Title := s }
  | .color => { l with Color := s }

/-- Keep the first error, as `decodeState.saveError` does. -/
def saveError (saved : Option GoError) (e : GoError) : Option GoError :=
  match saved with
  | none => some e
  | some e0 => some e0

/-- Decode one `key: value` member into a label. An unknown key is skipped, a
`null` leaves the field alone, a value that is not a string is recorded as a
type error and decoding goes on. -/
def decodeLabelMember (acc : DomainLabel × Option GoError) (m : String × JVal) :
    DomainLabel × Option GoError :=
  match labelFieldOf m.1 with
  | none => acc
  | some f =>
    match m.2 with
    | .str s => (acc.1.set f s, acc.2)
    | .null => acc
    | v => (acc.1, saveError acc.2 (.unmarshalTypeError (kindName v) "string" "DomainLabel" f.name))

/-- Decode a JSON value into a slice element that currently holds `cur`. -/
def decodeLabel (cur : DomainLabel) (saved : Option GoError) (v : JVal) :
    DomainLabel × Option GoError :=
  match v with
  | .obj members => members.foldl decodeLabelMember (cur, saved)
  | .null => (cur, saved)
  | w => (cur, saveError saved (.unmarshalTypeError (kindName w) "porkbun.DomainLabel" "" ""))

/-- Decode the elements of a JSON array into a slice: element `i` is decoded
into what the slice held at `i`, or into a zero label beyond its length. -/
def decodeLabels : List JVal → List DomainLabel → Option GoError →
    List DomainLabel × Option GoError
  | [], _, saved => ([], saved)
  | v :: vs, old, saved =>
    let r := decodeLabel (old.headD DomainLabel.zero) saved v
    let rs := decodeLabels vs old.tail r.2
    (r.1 :: rs.1, rs.2)

/-- The call `json.Unmarshal(raw, &labels)` for a `[]DomainLabel` variable:
its new content (`none` is the nil slice) and the error, if any. The slice is
taken with no spare capacity beyond its length. -/
def jsonUnmarshalLabels (raw : JVal) (cur : Option (List DomainLabel)) :
    Option (List DomainLabel) × Option GoError :=
  match raw with
  | .arr items =>
    let r := decodeLabels items (cur.getD []) none
    (some r.1, r.2)
  | .null => (none, none)
  | v => (cur, some (.unmarshalTypeError (kindName v) "[]porkbun.DomainLabel" "" ""))

/-- The call `json.Unmarshal(b, &objMap)` for the fresh
`map[string]*json.RawMessage`: the members of the object, in order. -/
def jsonUnmarshalObjMap (b : String) : Except GoError (List (String × JVal)) :=
  match parseJSON b with
  | none => .error .jsonSyntaxError
  | some (.obj members) => .ok members
  | some .null => .ok []
  | some v => .error (.unmarshalTypeError (kindName v) "map[string]*json.RawMessage" "" "")

/-- The last value stored under `key`, if any. -/
def lastValue (members : List (String × JVal)) (key : String) : Option JVal :=
  (members.reverse.find? fun m => m.1 = key).map Prod.snd

/-- The map lookup `objMap[key]`: the raw message of the last member with that
key; `none` is the nil pointer, which is what a missing key and a JSON `null`
both give. -/
def objMapIndex (members : List (String × JVal)) (key : String) : Option JVal :=
  match lastValue members key with
  | none => none
  | some .null => none
  | some v => some v

/-! ## `types.go`: `Domain` -/

set_option linter.dupNamespace false in
/-- A Domain. -/
structure Domain where
  Domain : String
  Status : String
  TLD : String
  CreateDate : Time
  ExpireDate : Time
  SecurityLock : Bool
  WHOISPrivacy : Bool
  AutoRenew : Bool
  NotLocal : Bool
  Labels : Option (List DomainLabel)
deriving DecidableEq, Repr, Inhabited

/-- What a call works on: the receiver `*d` and standard output. -/
structure Machine where
  d : Domain
  stdout : String
deriving DecidableEq, Repr, Inhabited

/-- How a call ends: it returns `nil`, returns an error, or panics on a nil
pointer. Each carries the receiver and standard output as the call left them. -/
inductive Outcome where
  | ok (m : Machine)
  | error (e : GoError) (m : Machine)
  | panic (m : Machine)
deriving DecidableEq, Repr, Inhabited

/-- Sequencing of statements: go on only after a normal completion. -/
def Outcome.andThen (o : Outcome) (next : Machine → Outcome) : Outcome :=
  match o with
  | .ok m => next m
  | .error e m => .error e m
  | .panic m => .panic m

/-- Lines 176-195 of `types.go` up to the assignment of the field, and the
three copies that follow: decode as `int`, else as `string` through
`strconv.Atoi`, then switch on the value. `msg` is the text for `errors.New`. -/
def quasiBool (raw : JVal) (msg : String) : Except GoError Bool :=
  let asInt : Except GoError Int :=
    match jsonUnmarshalInt raw 0 with
    | .ok n => .ok n
    | .error _ =>
      match jsonUnmarshalString raw "" with
      | .error e => .error e
      | .ok str => Atoi str
  match asInt with
  | .error e => .error e
  | .ok n =>
    if n = 0 then .ok false
    else if n = 1 then .ok true
    else .error (.errorString msg)

/-- Lines 127-131: `domain`, and the `fmt.Println(d.Domain)` after it. -/
def decodeDomainField (objMap : List (String × JVal)) (m : Machine) : Outcome :=
  match objMapIndex objMap "domain" with
  | none => .panic m
  | some raw =>
    match jsonUnmarshalString raw m.d.Domain with
    | .error e => .error e m
    | .ok s => .ok { d := { m.d with Domain := s }, stdout := m.stdout ++ s ++ "\n" }

/-- Lines 133-136: `status`. -/
def decodeStatus (objMap : List (String × JVal)) (m : Machine) : Outcome :=
  match objMapIndex objMap "status" with
  | none => .panic m
  | some raw =>
    match jsonUnmarshalString raw m.d.Status with
    | .error e => .error e m
    | .ok s => .ok { m with d := { m.d with Status := s } }

/-- Lines 138-141: `tld`. -/
def decodeTLD (objMap : List (String × JVal)) (m : Machine) : Outcome :=
  match objMapIndex objMap "tld" with
  | none => .panic m
  | some raw =>
    match jsonUnmarshalString raw m.d.TLD with
    | .error e => .error e m
    | .ok s => .ok { m with d := { m.d with TLD := s } }

/-- Lines 144-156: `createDate`, optional. A failed `time.Parse` still assigns
its zero `Time` result to the field before the error is returned. -/
def decodeCreateDate (objMap : List (String × JVal)) (m : Machine) : Outcome :=
  match objMapIndex objMap "createDate" with
  | some raw =>
    match jsonUnmarshalString raw "" with
    | .error e => .error e m
    | .ok createDateStr =>
      match timeParse createDateStr with
      | .error e => .error e { m with d := { m.d with CreateDate := Time.zero } }
      | .ok t => .ok { m with d := { m.d with CreateDate := t } }
  | none => .ok { m with d := { m.d with CreateDate := Unix 0 0 } }

/-- Lines 158-165: `expireDate`, required. -/
def decodeExpireDate (objMap : List (String × JVal)) (m : Machine) : Outcome :=
  match objMapIndex objMap "expireDate" with
  | none => .panic m
  | some raw =>
    match jsonUnmarshalString raw "" with
    | .error e => .error e m
    | .ok expireDateStr =>
      match timeParse expireDateStr with
      | .error e => .error e { m with d := { m.d with ExpireDate := Time.zero } }
      | .ok t => .ok { m with d := { m.d with ExpireDate := t } }

/-- Lines 176-195: `securityLock`. -/
def decodeSecurityLock (objMap : List (String × JVal)) (m : Machine) : Outcome :=
  match objMapIndex objMap "securityLock" with
  | none => .panic m
  | some raw =>
    match quasiBool raw "SecurityLock response not a boolean" with
    | .error e => .error e m
    | .ok v => .ok { m with d := { m.d with SecurityLock := v } }

/-- Lines 197-216: `whoisPrivacy`. -/
def decodeWHOISPrivacy (objMap : List (String × JVal)) (m : Machine) : Outcome :=
  match objMapIndex objMap "whoisPrivacy" with
  | none => .panic m
  | some raw =>
    match quasiBool raw "WhoisPrivacy response not a boolean" with
    | .error e => .error e m
    | .ok v => .ok { m with d := { m.d with WHOISPrivacy := v } }

/-- Lines 218-237: `autoRenew`. -/
def decodeAutoRenew (objMap : List (String × JVal)) (m : Machine) : Outcome :=
  match objMapIndex objMap "autoRenew" with
  | none => .panic m
  | some raw =>
    match quasiBool raw "AutoRenew response not a boolean" with
    | .error e => .error e m
    | .ok v => .ok { m with d := { m.d with AutoRenew := v } }

/-- Lines 239-258: `notLocal`. -/
def decodeNotLocal (objMap : List (String × JVal)) (m : Machine) : Outcome :=
  match objMapIndex objMap "notLocal" with
  | none => .panic m
  | some raw =>
    match quasiBool raw "NotLocal response not a boolean" with
    | .error e => .error e m
    | .ok v => .ok { m with d := { m.d with NotLocal := v } }

/-- Lines 260-267: `labels`, optional. -/
def decodeLabelsField (objMap : List (String × JVal)) (m : Machine) : Outcome :=
  match objMapIndex objMap "labels" with
  | some raw =>
    match jsonUnmarshalLabels raw m.d.Labels with
    | (labels, some e) => .error e { m with d := { m.d with Labels := labels } }
    | (labels, none) => .ok { m with d := { m.d with Labels := labels } }
  | none => .ok { m with d := { m.d with Labels := none } }

/-- The statements of `UnmarshalJSON` after the object map has been built. -/
def decodeFields (objMap : List (String × JVal)) (m : Machine) : Outcome :=
  (((((((((decodeDomainField objMap m).andThen
    (decodeStatus objMap)).andThen
    (decodeTLD objMap)).andThen
    (decodeCreateDate objMap)).andThen
    (decodeExpireDate objMap)).andThen
    (decodeSecurityLock objMap)).andThen
    (decodeWHOISPrivacy objMap)).andThen
    (decodeAutoRenew objMap)).andThen
    (decodeNotLocal objMap)).andThen
    (decodeLabelsField objMap)

/-- The method `func (d *Domain) UnmarshalJSON(b []byte) error`. -/
def Domain.UnmarshalJSON (m : Machine) (b : String) : Outcome :=
  match jsonUnmarshalObjMap b with
  | .error e => .error e m
  | .ok objMap => decodeFields objMap m

/-! ## `types.go`: `authRequest` -/

/-- The interface value `apiRequest interface{}`. The source only ever passes
it to `json.Marshal`, so a payload is given by what that call returns for it:
the encoded bytes, or an error. -/
structure apiRequest where
  marshal : Except GoError String
deriving Repr

/-- The struct `authRequest`; `none` is the nil interface. -/
structure authRequest where
  APIKey : String
  SecretAPIKey : String
  apiRequest : Option apiRequest
deriving Repr

/-- How `encoding/json` writes one character of a string (HTML escaping on). -/
def escapeChar (c : Char) : List Char :=
  if c = '"' ∨ c = '\\' then ['\\', c]
  else if c.toNat = 0x08 then ['\\', 'b']
  else if c.toNat = 0x0c then ['\\', 'f']
  else if c.toNat = 0x0a then ['\\', 'n']
  else if c.toNat = 0x0d then ['\\', 'r']
  else if c.toNat = 0x09 then ['\\', 't']
  else if c.toNat < 0x20 ∨ c = '<' ∨ c = '>' ∨ c = '&' then
    '\\' :: 'u' :: '0' :: '0' :: hexByte c.toNat
  else if c.toNat = 0x2028 ∨ c.toNat = 0x2029 then
    ['\\', 'u', '2', '0', '2', lowerhex (c.toNat % 16)]
  else [c]

/-- The call `json.Marshal(s)` for a string: the quoted, escaped text. -/
def jsonMarshalString (s : String) : List Char :=
  '"' :: s.toList.flatMap escapeChar ++ ['"']

/-- The call `json.Marshal(c)` for the local type `clone`: the two tagged string
fields. The embedded field is of an unexported non-struct type, which
`encoding/json` leaves out. -/
def jsonMarshalClone (apiKey secretAPIKey : String) : String :=
  String.mk ("\x7b\"apikey\":".toList ++ jsonMarshalString apiKey
    ++ ",\"secretapikey\":".toList ++ jsonMarshalString secretAPIKey ++ "\x7d".toList)

/-- How a call of `MarshalJSON` ends. Slicing below index 0 or beyond the
length panics. -/
inductive MarshalOutcome where
  | ok (bytes : String)
  | error (e : GoError)
  | panic
deriving DecidableEq, Repr

/-- The method `func (f authRequest) MarshalJSON() ([]byte, error)`. Encoding
the `clone` of two strings cannot fail. -/
def authRequest.MarshalJSON (f : authRequest) : MarshalOutcome :=
  let root := jsonMarshalClone f.APIKey f.SecretAPIKey
  match f.apiRequest with
  | none => .ok root
  | some payload =>
    match payload.marshal with
    | .error e => .error e
    | .ok embedded =>
      if embedded.length < 1 then .panic
      else
        .ok (String.mk (root.toList.dropLast) ++ ",   " ++ String.mk (embedded.toList.drop 1))

/-- A JSON text decoded "as a generic object" (`map[string]interface{}`): the
value under each key, a later duplicate replacing an earlier one. -/
def genericObject (b : String) : Option (String → Option JVal) :=
  match parseJSON b with
  | some (.obj members) => some (lastValue members)
  | _ => none

/-! ## Vocabulary of the statements -/

/-- The zero value of `Domain`, and nothing written to standard output yet. -/
def freshMachine : Machine :=
  ⟨⟨"", "", "", Time.zero, Time.zero, false, false, false, false, none⟩, ""⟩

/-- The receiver and standard output at the end of a call. -/
def Outcome.machine : Outcome → Machine
  | .ok m => m
  | .error _ m => m
  | .panic m => m

/-- The wire forms of a quasi-boolean `v`: the JSON integer `0`/`1`, or the
JSON string `"0"`/`"1"` when `asString` is set. -/
def quasiEncoding (v : Bool) (asString : Bool) : JVal :=
  if asString then JVal.str (if v then "1" else "0") else JVal.num (if v then "1" else "0")

/-- The integer a raw value denotes for a quasi-boolean field: a JSON number
whose literal is an `int`, or a JSON string that `strconv.Atoi` accepts. -/
def intValue : JVal → Option Int
  | .num lit => (parseInt64 lit.toList).toOption
  | .str s => (parseInt64 s.toList).toOption
  | _ => none

/-- The required plain fields of a resource object: `domain`, `status` and
`tld` are JSON strings, `expireDate` is a JSON string that `time.Parse` reads
as `expire`. -/
structure PlainFields (ms : List (String × JVal)) (dom st tld : String) (expire : Time) :
    Prop where
  domain : objMapIndex ms "domain" = some (.str dom)
  status : objMapIndex ms "status" = some (.str st)
  tld : objMapIndex ms "tld" = some (.str tld)
  expireDate : ∃ s, objMapIndex ms "expireDate" = some (.str s) ∧ timeParse s = .ok expire

/-- The optional `createDate` of a resource object decodes to `create`: the
key is missing (or `null`) and `create` is the epoch, or it is a JSON string
that `time.Parse` reads as `create`. -/
def CreateDateIs (ms : List (String × JVal)) (create : Time) : Prop :=
  (objMapIndex ms "createDate" = none ∧ create = Unix 0 0) ∨
    ∃ s, objMapIndex ms "createDate" = some (.str s) ∧ timeParse s = .ok create

/-- The optional `labels` of a resource object decode to `labels` without
error, into a receiver whose `Labels` hold `cur`. -/
def LabelsAre (ms : List (String × JVal)) (cur labels : Option (List DomainLabel)) : Prop :=
  (objMapIndex ms "labels" = none ∧ labels = none) ∨
    ∃ raw, objMapIndex ms "labels" = some raw ∧ jsonUnmarshalLabels raw cur = (labels, none)

/-- A quasi-boolean field of a resource object is valid and stands for `v`: the
key holds a value other than `null` that denotes the integer 0 or 1. -/
def QuasiIs (ms : List (String × JVal)) (key : String) (v : Bool) : Prop :=
  ∃ raw, objMapIndex ms key = some raw ∧ intValue raw = some (if v then 1 else 0)

/-- The four quasi-boolean fields of a resource object are valid. -/
structure QuasiFields (ms : List (String × JVal)) (v1 v2 v3 v4 : Bool) : Prop where
  securityLock : QuasiIs ms "securityLock" v1
  whoisPrivacy : QuasiIs ms "whoisPrivacy" v2
  autoRenew : QuasiIs ms "autoRenew" v3
  notLocal : QuasiIs ms "notLocal" v4

/-- The four quasi-boolean fields, in the order the source decodes them. -/
inductive QuasiField where
  | securityLock
  | whoisPrivacy
  | autoRenew
  | notLocal
deriving DecidableEq, Repr

/-- The JSON key the source looks a quasi-boolean field up under. -/
def QuasiField.key : QuasiField → String
  | .securityLock => "securityLock"
  | .whoisPrivacy => "whoisPrivacy"
  | .autoRenew => "autoRenew"
  | .notLocal => "notLocal"

/-- The text the source passes to `errors.New` for a quasi-boolean field. -/
def QuasiField.message : QuasiField → String
  | .securityLock => "SecurityLock response not a boolean"
  | .whoisPrivacy => "WhoisPrivacy response not a boolean"
  | .autoRenew => "AutoRenew response not a boolean"
  | .notLocal => "NotLocal response not a boolean"

/-- Position of a quasi-boolean field in the decoding order. -/
def QuasiField.index : QuasiField → Nat
  | .securityLock => 0
  | .whoisPrivacy => 1
  | .autoRenew => 2
  | .notLocal => 3

/-- The ten fields of a resource object, in the order the source decodes them. -/
inductive Field where
  | domain
  | status
  | tld
  | createDate
  | expireDate
  | securityLock
  | whoisPrivacy
  | autoRenew
  | notLocal
  | labels
deriving DecidableEq, Repr

/-- The JSON key of a field. -/
def Field.key : Field → String
  | .domain => "domain"
  | .status => "status"
  | .tld => "tld"
  | .createDate => "createDate"
  | .expireDate => "expireDate"
  | .securityLock => "securityLock"
  | .whoisPrivacy => "whoisPrivacy"
  | .autoRenew => "autoRenew"
  | .notLocal => "notLocal"
  | .labels => "labels"

/-- Position of a field in the decoding order. -/
def Field.index : Field → Nat
  | .domain => 0
  | .status => 1
  | .tld => 2
  | .createDate => 3
  | .expireDate => 4
  | .securityLock => 5
  | .whoisPrivacy => 6
  | .autoRenew => 7
  | .notLocal => 8
  | .labels => 9

/-- The fields the source dereferences without a nil check: all but
`createDate` and `labels`. -/
def Field.required : Field → Bool
  | .createDate => false
  | .labels => false
  | _ => true

/-- The members hold a value the field's statement accepts: a string for
`domain`, `status`, `tld`; a date string or nothing for `createDate`; a date
string for `expireDate`; an encoding of 0 or 1 for a quasi-boolean; for
`labels` nothing, or a value that decodes into a fresh slice without error. -/
def Field.Valid (ms : List (String × JVal)) : Field → Prop
  | .domain => ∃ s, objMapIndex ms "domain" = some (.str s)
  | .status => ∃ s, objMapIndex ms "status" = some (.str s)
  | .tld => ∃ s, objMapIndex ms "tld" = some (.str s)
  | .createDate => ∃ t, CreateDateIs ms t
  | .expireDate => ∃ s t, objMapIndex ms "expireDate" = some (.str s) ∧ timeParse s = .ok t
  | .securityLock => ∃ v, QuasiIs ms "securityLock" v
  | .whoisPrivacy => ∃ v, QuasiIs ms "whoisPrivacy" v
  | .autoRenew => ∃ v, QuasiIs ms "autoRenew" v
  | .notLocal => ∃ v, QuasiIs ms "notLocal" v
  | .labels => ∃ labels, LabelsAre ms none labels

/-- A JSON object that spells the label `l`: exactly three members, among them
`id`, `title` and `color` with the three strings of `l`, in any order. -/
def IsLabelObject (v : JVal) (l : DomainLabel) : Prop :=
  ∃ members, v = .obj members ∧ members.length = 3 ∧
    ("id", JVal.str l.ID) ∈ members ∧ ("title", JVal.str l.Title) ∈ members ∧
    ("color", JVal.str l.Color) ∈ members

/-- The character of a decimal digit. -/
def digitChar (k : Nat) : Char := Char.ofNat (0x30 + k)

/-- A number below 100 in two digits. -/
def twoDigits (n : Nat) : List Char := [digitChar (n / 10), digitChar (n % 10)]

/-- A number below 10000 in four digits. -/
def fourDigits (n : Nat) : List Char :=
  [digitChar (n / 1000), digitChar (n / 100 % 10), digitChar (n / 10 % 10), digitChar (n % 10)]

/-- The text `YYYY-MM-DD HH:MM:SS` that denotes a date-time. -/
def formatDateTime (year month day hour min sec : Nat) : String :=
  String.mk (fourDigits year ++ ('-' :: (twoDigits month ++ ('-' :: (twoDigits day ++ (' '
    :: (twoDigits hour ++ (':' :: (twoDigits min ++ (':' :: twoDigits sec))))))))))

/-- The fields of a calendar date-time are in range. -/
structure ValidDateTime (year month day hour min sec : Nat) : Prop where
  yearFour : year < 10000
  monthRange : 1 ≤ month ∧ month ≤ 12
  dayRange : 1 ≤ day ∧ day ≤ daysIn month year
  hourRange : hour < 24
  minRange : min < 60
  secRange : sec < 60

/-- A statement that writes neither `d.Domain` nor standard output. -/
def KeepsDomain (step : Machine → Outcome) : Prop :=
  ∀ m, (step m).machine.d.Domain = m.d.Domain ∧ (step m).machine.stdout = m.stdout

/-- The text `MarshalJSON` builds from a payload encoding whose bytes after the
first are `rest`. -/
def splicedText (apiKey secretAPIKey : String) (rest : List Char) : List Char :=
  '\x7b' :: '"' :: ("apikey".data ++ '"' :: ':' :: (jsonMarshalString apiKey ++ ','
    :: '"' :: ("secretapikey".data ++ '"' :: ':' :: (jsonMarshalString secretAPIKey ++ ','
    :: ' ' :: ' ' :: ' ' :: rest))))

/-- The statement of `UnmarshalJSON` that decodes a field. -/
def Field.step : Field → List (String × JVal) → Machine → Outcome
  | .domain => decodeDomainField
  | .status => decodeStatus
  | .tld => decodeTLD
  | .createDate => decodeCreateDate
  | .expireDate => decodeExpireDate
  | .securityLock => decodeSecurityLock
  | .whoisPrivacy => decodeWHOISPrivacy
  | .autoRenew => decodeAutoRenew
  | .notLocal => decodeNotLocal
  | .labels => decodeLabelsField

/-- The ten fields in the order of their statements. -/
def Field.all : List Field :=
  [.domain, .status, .tld, .createDate, .expireDate, .securityLock, .whoisPrivacy, .autoRenew,
    .notLocal, .labels]

/-- Run the statements of the listed fields one after the other. -/
def runSteps (ms : List (String × JVal)) (fs : List Field) (o : Outcome) : Outcome :=
  fs.foldl (fun acc g => acc.andThen (g.step ms)) o

/-- Two objects agree on a key: both lack it, or both hold the same value
under it. -/
def AgreeOn (ms1 ms2 : List (String × JVal)) (key : String) : Prop :=
  lastValue ms1 key = lastValue ms2 key

/-- A fractional second as `time.Parse` reads it behind the seconds: a period
or a comma, then one or more digits. -/
def IsFraction (frac : List Char) : Prop :=
  ∃ p ds, frac = p :: ds ∧ (p = '.' ∨ p = ',') ∧ ds ≠ [] ∧ ds.all isDigit = true

/-- The hour of a date-time text: two digits, or a single digit for an hour
below 10. -/
def IsHourText (hour : Nat) (text : List Char) : Prop :=
  text = twoDigits hour ∨ (hour < 10 ∧ text = [digitChar hour])

/-- A date-time text: `YYYY-MM-DD`, then `spaces + 1` spaces, the hour as
written, `:MM:SS`, and what follows the seconds. -/
def dateTimeText (year month day spaces : Nat) (hourText : List Char) (min sec : Nat)
    (frac : List Char) : String :=
  String.mk (fourDigits year ++ ('-' :: (twoDigits month ++ ('-' :: (twoDigits day ++
    (List.replicate (spaces + 1) ' ' ++ (hourText ++ (':' :: (twoDigits min ++ (':' ::
    (twoDigits sec ++ frac)))))))))))

/-- The date strings of the lenient layout, each with the instant it denotes:
the calendar fields are in range, date and time are separated by one or more
spaces, the hour has one or two digits, and a fractional second may follow. -/
def AcceptedDateText (s : String) (t : Time) : Prop :=
  ∃ year month day hour min sec spaces hourText frac,
    ValidDateTime year month day hour min sec ∧ IsHourText hour hourText ∧
    (frac = [] ∨ IsFraction frac) ∧
    s = dateTimeText year month day spaces hourText min sec frac ∧
    t = Date year month day hour min sec (parseNanoseconds frac frac.length)

/-- The map-merge reference of the specification: decode the credential
encoding and the payload encoding into generic mappings and merge them, the
payload's value winning where both hold a key. -/
def mapMergeReference (root embedded : String) : Option (String → Option JVal) :=
  match genericObject root, genericObject embedded with
  | some creds, some payload => some fun key => (payload key).or (creds key)
  | _, _ => none

/-! ## Sample inputs -/

/-- A complete resource object with mixed quasi-boolean encodings. -/
def sampleMixed : String :=
  "\x7b\"domain\":\"example.com\",\"status\":\"ACTIVE\",\"tld\":\"com\"," ++
  "\"createDate\":\"2021-01-02 03:04:05\",\"expireDate\":\"2022-01-02 03:04:05\"," ++
  "\"securityLock\":\"1\",\"whoisPrivacy\":1,\"autoRenew\":0,\"notLocal\":\"0\"," ++
  "\"labels\":[\x7b\"id\":\"1\",\"title\":\"prod\",\"color\":\"#ff0000\"\x7d]\x7d"

/-- The members of `sampleMixed`. -/
def sampleMixedMembers : List (String × JVal) :=
  [("domain", .str "example.com"), ("status", .str "ACTIVE"), ("tld", .str "com"),
   ("createDate", .str "2021-01-02 03:04:05"), ("expireDate", .str "2022-01-02 03:04:05"),
   ("securityLock", .str "1"), ("whoisPrivacy", .num "1"), ("autoRenew", .num "0"),
   ("notLocal", .str "0"),
   ("labels", .arr [.obj [("id", .str "1"), ("title", .str "prod"), ("color", .str "#ff0000")]])]

/-- A complete resource object whose `securityLock` is the string `"true"`. -/
def sampleLockTrue : String :=
  "\x7b\"domain\":\"example.com\",\"status\":\"ACTIVE\",\"tld\":\"com\"," ++
  "\"createDate\":\"2021-01-02 03:04:05\",\"expireDate\":\"2022-01-02 03:04:05\"," ++
  "\"securityLock\":\"true\",\"whoisPrivacy\":1,\"autoRenew\":0,\"notLocal\":0,\"labels\":[]\x7d"

/-- A complete resource object whose `autoRenew` is the string `"2"`. -/
def sampleRenewTwo : String :=
  "\x7b\"domain\":\"example.com\",\"status\":\"ACTIVE\",\"tld\":\"com\"," ++
  "\"createDate\":\"2021-01-02 03:04:05\",\"expireDate\":\"2022-01-02 03:04:05\"," ++
  "\"securityLock\":1,\"whoisPrivacy\":\"0\",\"autoRenew\":\"2\",\"notLocal\":0,\"labels\":[]\x7d"

/-- The members of `sampleRenewTwo`. -/
def sampleRenewTwoMembers : List (String × JVal) :=
  [("domain", .str "example.com"), ("status", .str "ACTIVE"), ("tld", .str "com"),
   ("createDate", .str "2021-01-02 03:04:05"), ("expireDate", .str "2022-01-02 03:04:05"),
   ("securityLock", .num "1"), ("whoisPrivacy", .str "0"), ("autoRenew", .str "2"),
   ("notLocal", .num "0"), ("labels", .arr [])]

/-- A resource object with neither `createDate` nor `labels`. -/
def sampleMinimal : String :=
  "\x7b\"domain\":\"example.com\",\"status\":\"ACTIVE\",\"tld\":\"com\"," ++
  "\"expireDate\":\"2022-01-02 03:04:05\"," ++
  "\"securityLock\":1,\"whoisPrivacy\":\"1\",\"autoRenew\":0,\"notLocal\":0\x7d"

/-- The members of `sampleMinimal`. -/
def sampleMinimalMembers : List (String × JVal) :=
  [("domain", .str "example.com"), ("status", .str "ACTIVE"), ("tld", .str "com"),
   ("expireDate", .str "2022-01-02 03:04:05"),
   ("securityLock", .num "1"), ("whoisPrivacy", .str "1"), ("autoRenew", .num "0"),
   ("notLocal", .num "0")]

/-- A resource object without `createDate` and with two labels, the second
with its members in another order. -/
def sampleTwoLabels : String :=
  "\x7b\"domain\":\"example.org\",\"status\":\"ACTIVE\",\"tld\":\"org\"," ++
  "\"expireDate\":\"2022-01-02 03:04:05\"," ++
  "\"securityLock\":0,\"whoisPrivacy\":1,\"autoRenew\":1,\"notLocal\":0," ++
  "\"labels\":[\x7b\"id\":\"1\",\"title\":\"prod\",\"color\":\"#ff0000\"\x7d," ++
  "\x7b\"color\":\"#00ff00\",\"id\":\"2\",\"title\":\"dev\"\x7d]\x7d"

/-- The two label objects of `sampleTwoLabels`. -/
def sampleTwoLabelsObjects : List JVal :=
  [.obj [("id", .str "1"), ("title", .str "prod"), ("color", .str "#ff0000")],
   .obj [("color", .str "#00ff00"), ("id", .str "2"), ("title", .str "dev")]]

/-- The members of `sampleTwoLabels`. -/
def sampleTwoLabelsMembers : List (String × JVal) :=
  [("domain", .str "example.org"), ("status", .str "ACTIVE"), ("tld", .str "org"),
   ("expireDate", .str "2022-01-02 03:04:05"),
   ("securityLock", .num "0"), ("whoisPrivacy", .num "1"), ("autoRenew", .num "1"),
   ("notLocal", .num "0"), ("labels", .arr sampleTwoLabelsObjects)]

/-- A complete resource object: both dates, the four quasi-booleans as
integers, two labels. -/
def sampleComplete : String :=
  "\x7b\"domain\":\"example.com\",\"status\":\"ACTIVE\",\"tld\":\"com\"," ++
  "\"createDate\":\"2021-01-02 03:04:05\",\"expireDate\":\"2024-02-29 23:59:59\"," ++
  "\"securityLock\":1,\"whoisPrivacy\":0,\"autoRenew\":1,\"notLocal\":0," ++
  "\"labels\":[\x7b\"id\":\"1\",\"title\":\"prod\",\"color\":\"#ff0000\"\x7d," ++
  "\x7b\"id\":\"2\",\"title\":\"dev\",\"color\":\"#00ff00\"\x7d]\x7d"

/-- The two label objects of `sampleComplete`. -/
def sampleCompleteObjects : List JVal :=
  [.obj [("id", .str "1"), ("title", .str "prod"), ("color", .str "#ff0000")],
   .obj [("id", .str "2"), ("title", .str "dev"), ("color", .str "#00ff00")]]

/-- The members of `sampleComplete`. -/
def sampleCompleteMembers : List (String × JVal) :=
  [("domain", .str "example.com"), ("status", .str "ACTIVE"), ("tld", .str "com"),
   ("createDate", .str "2021-01-02 03:04:05"), ("expireDate", .str "2024-02-29 23:59:59"),
   ("securityLock", .num "1"), ("whoisPrivacy", .num "0"), ("autoRenew", .num "1"),
   ("notLocal", .num "0"), ("labels", .arr sampleCompleteObjects)]

/-- A resource object whose `tld` is a number. -/
def sampleBadTLD : String :=
  "\x7b\"domain\":\"example.com\",\"status\":\"ACTIVE\",\"tld\":5," ++
  "\"expireDate\":\"2022-01-02 03:04:05\"," ++
  "\"securityLock\":1,\"whoisPrivacy\":1,\"autoRenew\":0,\"notLocal\":0\x7d"

/-- What `sampleBadTLD` leaves of the zero receiver. -/
def sampleBadTLDAfter : Machine :=
  ⟨⟨"example.com", "ACTIVE", "", Time.zero, Time.zero, false, false, false, false, none⟩,
    "example.com\n"⟩

/-- The members of `sampleBadTLD`. -/
def sampleBadTLDMembers : List (String × JVal) :=
  [("domain", .str "example.com"), ("status", .str "ACTIVE"), ("tld", .num "5"),
   ("expireDate", .str "2022-01-02 03:04:05"),
   ("securityLock", .num "1"), ("whoisPrivacy", .num "1"), ("autoRenew", .num "0"),
   ("notLocal", .num "0")]

/-- A payload encoding with a member under the credential key `apikey`. -/
def sampleColliding : String :=
  "\x7b\"name\":\"www\",\"apikey\":\"override\"\x7d"

/-- A resource object that is complete except for the key `expireDate`. -/
def sampleNoExpireDate : String :=
  "\x7b\"domain\":\"example.com\",\"status\":\"ACTIVE\",\"tld\":\"com\"," ++
  "\"createDate\":\"2021-01-02 03:04:05\"," ++
  "\"securityLock\":1,\"whoisPrivacy\":1,\"autoRenew\":0,\"notLocal\":0,\"labels\":[]\x7d"

/-- The members of `sampleNoExpireDate`. -/
def sampleNoExpireDateMembers : List (String × JVal) :=
  [("domain", .str "example.com"), ("status", .str "ACTIVE"), ("tld", .str "com"),
   ("createDate", .str "2021-01-02 03:04:05"),
   ("securityLock", .num "1"), ("whoisPrivacy", .num "1"), ("autoRenew", .num "0"),
   ("notLocal", .num "0"), ("labels", .arr [])]

/-- A resource object that is complete except for the key `domain`. -/
def sampleNoDomain : String :=
  "\x7b\"status\":\"ACTIVE\",\"tld\":\"com\"," ++
  "\"createDate\":\"2021-01-02 03:04:05\",\"expireDate\":\"2022-01-02 03:04:05\"," ++
  "\"securityLock\":1,\"whoisPrivacy\":1,\"autoRenew\":0,\"notLocal\":0,\"labels\":[]\x7d"

/-- The members of `sampleNoDomain`. -/
def sampleNoDomainMembers : List (String × JVal) :=
  [("status", .str "ACTIVE"), ("tld", .str "com"),
   ("createDate", .str "2021-01-02 03:04:05"), ("expireDate", .str "2022-01-02 03:04:05"),
   ("securityLock", .num "1"), ("whoisPrivacy", .num "1"), ("autoRenew", .num "0"),
   ("notLocal", .num "0"), ("labels", .arr [])]

/-- A resource object whose `createDate` is `"2021-13-40 99:99:99"`. -/
def sampleBadCreateDate : String :=
  "\x7b\"domain\":\"example.com\",\"status\":\"ACTIVE\",\"tld\":\"com\"," ++
  "\"createDate\":\"2021-13-40 99:99:99\",\"expireDate\":\"2022-01-02 03:04:05\"," ++
  "\"securityLock\":1,\"whoisPrivacy\":1,\"autoRenew\":0,\"notLocal\":0,\"labels\":[]\x7d"

/-- A resource object whose `expireDate` is `"2021-13-40 99:99:99"`. -/
def sampleBadExpireDate : String :=
  "\x7b\"domain\":\"example.com\",\"status\":\"ACTIVE\",\"tld\":\"com\"," ++
  "\"createDate\":\"2021-01-02 03:04:05\",\"expireDate\":\"2021-13-40 99:99:99\"," ++
  "\"securityLock\":1,\"whoisPrivacy\":1,\"autoRenew\":0,\"notLocal\":0,\"labels\":[]\x7d"

/-- The members of `sampleBadExpireDate`. -/
def sampleBadExpireDateMembers : List (String × JVal) :=
  [("domain", .str "example.com"), ("status", .str "ACTIVE"), ("tld", .str "com"),
   ("createDate", .str "2021-01-02 03:04:05"), ("expireDate", .str "2021-13-40 99:99:99"),
   ("securityLock", .num "1"), ("whoisPrivacy", .num "1"), ("autoRenew", .num "0"),
   ("notLocal", .num "0"), ("labels", .arr [])]

/-- The error `time.Parse` returns for `"2021-13-40 99:99:99"`. -/
def sampleBadDateError : GoError :=
  .parseError "2006-01-02 15:04:05" "2021-13-40 99:99:99" "01" "-40 99:99:99"
    ": month out of range"

/-- A resource object whose `createDate` carries a fractional second and whose
`expireDate` has two spaces, a one-digit hour and a fraction behind a comma. -/
def sampleFraction : String :=
  "\x7b\"domain\":\"example.com\",\"status\":\"ACTIVE\",\"tld\":\"com\"," ++
  "\"createDate\":\"2021-01-02 03:04:05.123\",\"expireDate\":\"2022-01-02  3:04:05,5\"," ++
  "\"securityLock\":1,\"whoisPrivacy\":1,\"autoRenew\":0,\"notLocal\":0\x7d"

/-- The members of `sampleFraction`. -/
def sampleFractionMembers : List (String × JVal) :=
  [("domain", .str "example.com"), ("status", .str "ACTIVE"), ("tld", .str "com"),
   ("createDate", .str "2021-01-02 03:04:05.123"), ("expireDate", .str "2022-01-02  3:04:05,5"),
   ("securityLock", .num "1"), ("whoisPrivacy", .num "1"), ("autoRenew", .num "0"),
   ("notLocal", .num "0")]

/-- A resource object whose `expireDate` ends in the zone designator `Z`. -/
def sampleZone : String :=
  "\x7b\"domain\":\"example.com\",\"status\":\"ACTIVE\",\"tld\":\"com\"," ++
  "\"expireDate\":\"2022-01-02 03:04:05Z\"," ++
  "\"securityLock\":1,\"whoisPrivacy\":1,\"autoRenew\":0,\"notLocal\":0\x7d"

/-- The members of `sampleZone`. -/
def sampleZoneMembers : List (String × JVal) :=
  [("domain", .str "example.com"), ("status", .str "ACTIVE"), ("tld", .str "com"),
   ("expireDate", .str "2022-01-02 03:04:05Z"),
   ("securityLock", .num "1"), ("whoisPrivacy", .num "1"), ("autoRenew", .num "0"),
   ("notLocal", .num "0")]

/-- A payload encoding with two members of its own. -/
def samplePayload : String :=
  "\x7b\"domain\":\"example.com\",\"ttl\":600\x7d"

/-- `sampleComplete` with its members in another order and three members under
keys the source does not know. -/
def sampleCompleteExtra : String :=
  "\x7b\"note\":null,\"labels\":[\x7b\"id\":\"1\",\"title\":\"prod\",\"color\":\"#ff0000\"\x7d," ++
  "\x7b\"id\":\"2\",\"title\":\"dev\",\"color\":\"#00ff00\"\x7d]," ++
  "\"notLocal\":0,\"autoRenew\":1,\"whoisPrivacy\":0,\"securityLock\":1," ++
  "\"expireDate\":\"2024-02-29 23:59:59\",\"createDate\":\"2021-01-02 03:04:05\"," ++
  "\"extra\":[1,\x7b\"domain\":\"other.net\"\x7d],\"tld\":\"com\",\"status\":\"ACTIVE\"," ++
  "\"domain\":\"example.com\",\"Domain\":\"shadow.org\"\x7d"

/-- The members of `sampleCompleteExtra`. -/
def sampleCompleteExtraMembers : List (String × JVal) :=
  [("note", .null), ("labels", .arr sampleCompleteObjects), ("notLocal", .num "0"),
   ("autoRenew", .num "1"), ("whoisPrivacy", .num "0"), ("securityLock", .num "1"),
   ("expireDate", .str "2024-02-29 23:59:59"), ("createDate", .str "2021-01-02 03:04:05"),
   ("extra", .arr [.num "1", .obj [("domain", .str "other.net")]]), ("tld", .str "com"),
   ("status", .str "ACTIVE"), ("domain", .str "example.com"), ("Domain", .str "shadow.org")]

/-- A resource object whose `securityLock` and `autoRenew` are both 2. -/
def sampleTwoInvalid : String :=
  "\x7b\"domain\":\"example.com\",\"status\":\"ACTIVE\",\"tld\":\"com\"," ++
  "\"createDate\":\"2021-01-02 03:04:05\",\"expireDate\":\"2022-01-02 03:04:05\"," ++
  "\"securityLock\":2,\"whoisPrivacy\":1,\"autoRenew\":2,\"notLocal\":0,\"labels\":[]\x7d"

/-- The members of `sampleTwoInvalid`. -/
def sampleTwoInvalidMembers : List (String × JVal) :=
  [("domain", .str "example.com"), ("status", .str "ACTIVE"), ("tld", .str "com"),
   ("createDate", .str "2021-01-02 03:04:05"), ("expireDate", .str "2022-01-02 03:04:05"),
   ("securityLock", .num "2"), ("whoisPrivacy", .num "1"), ("autoRenew", .num "2"),
   ("notLocal", .num "0"), ("labels", .arr [])]

/-- The fields of `sampleTwoInvalid` up to `securityLock`, followed by other
later fields: `whoisPrivacy` a word, `autoRenew` a boolean, no `notLocal`,
`labels` a number. -/
def sampleTwoInvalidLater : String :=
  "\x7b\"domain\":\"example.com\",\"status\":\"ACTIVE\",\"tld\":\"com\"," ++
  "\"createDate\":\"2021-01-02 03:04:05\",\"expireDate\":\"2022-01-02 03:04:05\"," ++
  "\"securityLock\":2,\"whoisPrivacy\":\"yes\",\"autoRenew\":true,\"labels\":5\x7d"

/-- The members of `sampleTwoInvalidLater`. -/
def sampleTwoInvalidLaterMembers : List (String × JVal) :=
  [("domain", .str "example.com"), ("status", .str "ACTIVE"), ("tld", .str "com"),
   ("createDate", .str "2021-01-02 03:04:05"), ("expireDate", .str "2022-01-02 03:04:05"),
   ("securityLock", .num "2"), ("whoisPrivacy", .str "yes"), ("autoRenew", .bool true),
   ("labels", .num "5")]

/-- A resource object whose `securityLock` is `null` and whose `autoRenew` is 2. -/
def sampleNullLock : String :=
  "\x7b\"domain\":\"example.com\",\"status\":\"ACTIVE\",\"tld\":\"com\"," ++
  "\"createDate\":\"2021-01-02 03:04:05\",\"expireDate\":\"2022-01-02 03:04:05\"," ++
  "\"securityLock\":null,\"whoisPrivacy\":1,\"autoRenew\":2,\"notLocal\":0,\"labels\":[]\x7d"

/-- The members of `sampleNullLock`. -/
def sampleNullLockMembers : List (String × JVal) :=
  [("domain", .str "example.com"), ("status", .str "ACTIVE"), ("tld", .str "com"),
   ("createDate", .str "2021-01-02 03:04:05"), ("expireDate", .str "2022-01-02 03:04:05"),
   ("securityLock", .null), ("whoisPrivacy", .num "1"), ("autoRenew", .num "2"),
   ("notLocal", .num "0"), ("labels", .arr [])]

/-- What the five statements before `securityLock` leave of the zero receiver
on the samples above. -/
def sampleBeforeLock : Machine :=
  ⟨⟨"example.com", "ACTIVE", "com", ⟨1609556645, 0, .UTC⟩, ⟨1641092645, 0, .UTC⟩, false, false,
    false, false, none⟩, "example.com\n"⟩

/-- A resource object whose only label has an `id` and nothing else. -/
def sampleLabelID : String :=
  "\x7b\"domain\":\"example.com\",\"status\":\"ACTIVE\",\"tld\":\"com\"," ++
  "\"expireDate\":\"2022-01-02 03:04:05\"," ++
  "\"securityLock\":1,\"whoisPrivacy\":1,\"autoRenew\":0,\"notLocal\":0," ++
  "\"labels\":[\x7b\"id\":\"1\"\x7d]\x7d"

/-- A receiver that holds one label from an earlier decode. -/
def usedMachine : Machine :=
  ⟨⟨"old.net", "PENDING", "net", ⟨5, 0, .UTC⟩, ⟨6, 0, .UTC⟩, false, false, true, true,
    some [⟨"9", "old", "#000"⟩]⟩, ""⟩

/-- A resource object with valid required fields and quasi-booleans, whose
optional `labels` is a number. -/
def sampleLabelsNumber : String :=
  "\x7b\"domain\":\"example.com\",\"status\":\"ACTIVE\",\"tld\":\"com\"," ++
  "\"expireDate\":\"2022-01-02 03:04:05\"," ++
  "\"securityLock\":\"1\",\"whoisPrivacy\":1,\"autoRenew\":0,\"notLocal\":\"0\"," ++
  "\"labels\":5\x7d"

/-- The members of `sampleLabelsNumber`. -/
def sampleLabelsNumberMembers : List (String × JVal) :=
  [("domain", .str "example.com"), ("status", .str "ACTIVE"), ("tld", .str "com"),
   ("expireDate", .str "2022-01-02 03:04:05"),
   ("securityLock", .str "1"), ("whoisPrivacy", .num "1"), ("autoRenew", .num "0"),
   ("notLocal", .str "0"), ("labels", .num "5")]

/-- A resource object with valid required fields and quasi-booleans, whose
optional `createDate` is a number. -/
def sampleCreateDateNumber : String :=
  "\x7b\"domain\":\"example.com\",\"status\":\"ACTIVE\",\"tld\":\"com\"," ++
  "\"createDate\":5,\"expireDate\":\"2022-01-02 03:04:05\"," ++
  "\"securityLock\":\"1\",\"whoisPrivacy\":1,\"autoRenew\":0,\"notLocal\":\"0\"\x7d"

/-- The members of `sampleCreateDateNumber`. -/
def sampleCreateDateNumberMembers : List (String × JVal) :=
  [("domain", .str "example.com"), ("status", .str "ACTIVE"), ("tld", .str "com"),
   ("createDate", .num "5"), ("expireDate", .str "2022-01-02 03:04:05"),
   ("securityLock", .str "1"), ("whoisPrivacy", .num "1"), ("autoRenew", .num "0"),
   ("notLocal", .str "0")]

/-! ## Lemmas on the scanner and on `MarshalJSON` -/

theorem map_some_of_imp {α β : Type} {g : α → β} {x y : Option α} {r : β}
    (hxy : ∀ p, x = some p → y = some p) (h : Option.map g x = some r) :
    Option.map g y = some r := by
  cases x with
  | none => simp at h
  | some p => rw [hxy p rfl]; exact h

theorem parse_fuel_succ (f : Nat) :
    (∀ d cs r, parseValue f d cs = some r → parseValue (f + 1) d cs = some r) ∧
    (∀ d cs r, parseItems f d cs = some r → parseItems (f + 1) d cs = some r) ∧
    (∀ d cs r, parseMembers f d cs = some r → parseMembers (f + 1) d cs = some r) := by
  induction f with
  | zero =>
    refine ⟨?_, ?_, ?_⟩ <;> intro d cs r h <;> simp [parseValue, parseItems, parseMembers] at h
  | succ f ih =>
    obtain ⟨ihv, ihi, ihm⟩ := ih
    refine ⟨?_, ?_, ?_⟩
    · intro d cs r h
      rw [parseValue] at h ⊢
      cases hs : skipSpace cs with
      | nil => simp [hs] at h
      | cons c rest =>
        simp only [hs] at h ⊢
        by_cases hq : c = '"'
        · simpa only [hq, if_true] using h
        · simp only [hq, if_false] at h ⊢
          by_cases hb : c = '['
          · simp only [hb, if_true] at h ⊢
            by_cases hd : maxNestingDepth ≤ d
            · simp [hd] at h
            · simp only [hd, if_false] at h ⊢
              cases hs1 : skipSpace rest with
              | nil => simp [hs1] at h
              | cons c1 rest1 =>
                simp only [hs1] at h ⊢
                by_cases hc1 : c1 = ']'
                · simpa only [hc1, if_true] using h
                · simp only [hc1, if_false] at h ⊢
                  exact map_some_of_imp (ihi _ _) h
          · simp only [hb, if_false] at h ⊢
            by_cases ho : c = '{'
            · simp only [ho, if_true] at h ⊢
              by_cases hd : maxNestingDepth ≤ d
              · simp [hd] at h
              · simp only [hd, if_false] at h ⊢
                cases hs1 : skipSpace rest with
                | nil => simp [hs1] at h
                | cons c1 rest1 =>
                  simp only [hs1] at h ⊢
                  by_cases hc1 : c1 = '}'
                  · simpa only [hc1, if_true] using h
                  · simp only [hc1, if_false] at h ⊢
                    exact map_some_of_imp (ihm _ _) h
            · simpa only [ho, if_false] using h
    · intro d cs r h
      rw [parseItems] at h ⊢
      cases hv : parseValue f d cs with
      | none => simp [hv] at h
      | some p =>
        obtain ⟨v, rest⟩ := p
        rw [ihv _ _ _ hv]
        simp only [hv] at h ⊢
        cases hs : skipSpace rest with
        | nil => simp [hs] at h
        | cons c rest1 =>
          simp only [hs] at h ⊢
          by_cases hc : c = ','
          · simp only [hc, if_true] at h ⊢
            exact map_some_of_imp (ihi _ _) h
          · simpa only [hc, if_false] using h
    · intro d cs r h
      rw [parseMembers] at h ⊢
      cases hs : skipSpace cs with
      | nil => simp [hs] at h
      | cons q r0 =>
        simp only [hs] at h ⊢
        by_cases hq : q = '"'
        · simp only [hq, if_true] at h ⊢
          cases hk : unquoteBody r0 with
          | none => simp [hk] at h
          | some p =>
            obtain ⟨k, r1⟩ := p
            simp only [hk] at h ⊢
            cases hs1 : skipSpace r1 with
            | nil => simp [hs1] at h
            | cons colon r2 =>
              simp only [hs1] at h ⊢
              by_cases hcolon : colon = ':'
              · simp only [hcolon, if_true] at h ⊢
                cases hv : parseValue f d r2 with
                | none => simp [hv] at h
                | some p =>
                  obtain ⟨v, r3⟩ := p
                  rw [ihv _ _ _ hv]
                  simp only [hv] at h ⊢
                  cases hs2 : skipSpace r3 with
                  | nil => simp [hs2] at h
                  | cons c r4 =>
                    simp only [hs2] at h ⊢
                    by_cases hc : c = ','
                    · simp only [hc, if_true] at h ⊢
                      exact map_some_of_imp (ihm _ _) h
                    · simpa only [hc, if_false] using h
              · simp [hcolon] at h
        · simp [hq] at h

theorem parse_fuel_le {f g : Nat} (hfg : f ≤ g) :
    (∀ d cs r, parseValue f d cs = some r → parseValue g d cs = some r) ∧
    (∀ d cs r, parseItems f d cs = some r → parseItems g d cs = some r) ∧
    (∀ d cs r, parseMembers f d cs = some r → parseMembers g d cs = some r) := by
  induction hfg with
  | refl => exact ⟨fun _ _ _ h => h, fun _ _ _ h => h, fun _ _ _ h => h⟩
  | step _ ih =>
    obtain ⟨h1, h2, h3⟩ := ih
    obtain ⟨s1, s2, s3⟩ := parse_fuel_succ _
    exact ⟨fun d cs r h => s1 d cs r (h1 d cs r h), fun d cs r h => s2 d cs r (h2 d cs r h),
      fun d cs r h => s3 d cs r (h3 d cs r h)⟩

theorem skipSpace_length_le (cs : List Char) : (skipSpace cs).length ≤ cs.length := by
  induction cs with
  | nil => simp [skipSpace]
  | cons c cs ih =>
    unfold skipSpace
    split
    · simp only [List.length_cons]; omega
    · exact Nat.le_refl _

theorem length_of_skipSpace_eq_cons {cs rest : List Char} {c : Char}
    (h : skipSpace cs = c :: rest) : rest.length + 1 ≤ cs.length := by
  have := skipSpace_length_le cs
  rw [h] at this
  simpa using this

theorem putRune_length {x : Option (List Char × List Char)} {r : Nat}
    {p : List Char × List Char} (h : putRune r x = some p) :
    ∃ q, x = some q ∧ p.2 = q.2 := by
  cases x with
  | none => simp [putRune] at h
  | some q =>
    simp only [putRune, Option.map_some', Option.some.injEq] at h
    exact ⟨q, rfl, by rw [← h]⟩

theorem unquoteAux_length (fuel : Nat) :
    ∀ (cs : List Char) (p : List Char × List Char), unquoteAux fuel cs = some p →
      p.2.length < cs.length := by
  induction fuel with
  | zero => intro cs p h; simp [unquoteAux] at h
  | succ fuel ih =>
    intro cs p h
    cases cs with
    | nil => simp [unquoteAux] at h
    | cons c rest =>
      have step : ∀ (r : Nat) (l : List Char), l.length ≤ rest.length →
          putRune r (unquoteAux fuel l) = some p → p.2.length < (c :: rest).length := by
        intro r l hl hp
        obtain ⟨q, hq, hpq⟩ := putRune_length hp
        have := ih l q hq
        rw [hpq, List.length_cons]
        omega
      simp only [unquoteAux] at h
      by_cases hq : c = '"'
      · simp only [hq, if_true, Option.some.injEq] at h
        subst h
        exact Nat.lt_succ_self _
      · simp only [hq, if_false] at h
        by_cases hb : c = '\\'
        · simp only [hb, if_true] at h
          cases rest with
          | nil => cases h
          | cons e rest1 =>
            have h1 : rest1.length ≤ (e :: rest1).length := Nat.le_succ _
            have h4 : (rest1.drop 4).length ≤ (e :: rest1).length := by
              simp only [List.length_drop, List.length_cons]; omega
            have h10 : (rest1.drop 10).length ≤ (e :: rest1).length := by
              simp only [List.length_drop, List.length_cons]; omega
            simp only at h
            by_cases hu : e = 'u'
            · simp only [hu, if_true] at h
              cases hg : getu4 ('\\' :: 'u' :: rest1) with
              | none => simp only [hg] at h; cases h
              | some rr =>
                simp only [hg] at h
                by_cases hs : isSurrogate rr = true
                · simp only [hs, if_true] at h
                  cases hd : (getu4 (rest1.drop 4)).bind (decodeRune rr) with
                  | none => simp only [hd] at h; exact step _ _ h4 h
                  | some dec => simp only [hd] at h; exact step _ _ h10 h
                · simp only [hs, Bool.false_eq_true, if_false] at h
                  exact step _ _ h4 h
            · simp only [hu, if_false] at h
              by_cases e1 : e = '"'
              · simp only [e1, if_true] at h; exact step _ _ h1 h
              · simp only [e1, if_false] at h
                by_cases e2 : e = '\\'
                · simp only [e2, if_true] at h; exact step _ _ h1 h
                · simp only [e2, if_false] at h
                  by_cases e3 : e = '/'
                  · simp only [e3, if_true] at h; exact step _ _ h1 h
                  · simp only [e3, if_false] at h
                    by_cases e4 : e = 'b'
                    · simp only [e4, if_true] at h; exact step _ _ h1 h
                    · simp only [e4, if_false] at h
                      by_cases e5 : e = 'f'
                      · simp only [e5, if_true] at h; exact step _ _ h1 h
                      · simp only [e5, if_false] at h
                        by_cases e6 : e = 'n'
                        · simp only [e6, if_true] at h; exact step _ _ h1 h
                        · simp only [e6, if_false] at h
                          by_cases e7 : e = 'r'
                          · simp only [e7, if_true] at h; exact step _ _ h1 h
                          · simp only [e7, if_false] at h
                            by_cases e8 : e = 't'
                            · simp only [e8, if_true] at h; exact step _ _ h1 h
                            · simp only [e8, if_false] at h; cases h
        · simp only [hb, if_false] at h
          by_cases hc : c.toNat < 32
          · simp only [hc, if_true] at h; cases h
          · simp only [hc, if_false] at h
            cases hx : unquoteAux fuel rest with
            | none => rw [hx] at h; cases h
            | some q =>
              rw [hx] at h
              injection h with h
              have := ih rest q hx
              subst h
              show q.2.length < rest.length + 1
              omega

theorem stripWord_length (w : List Char) :
    ∀ (cs r : List Char), stripWord w cs = some r → r.length ≤ cs.length := by
  induction w with
  | nil => intro cs r h; simp only [stripWord, Option.some.injEq] at h; rw [h]
  | cons l ls ih =>
    intro cs r h
    cases cs with
    | nil => simp [stripWord] at h
    | cons c cs =>
      simp only [stripWord] at h
      by_cases hl : l = c
      · simp only [hl, if_true] at h
        have := ih cs r h
        simp only [List.length_cons]
        omega
      · simp only [hl, if_false] at h
        cases h

theorem spanDigits_length (cs : List Char) : (spanDigits cs).2.length ≤ cs.length := by
  induction cs with
  | nil => simp [spanDigits]
  | cons c cs ih =>
    unfold spanDigits
    by_cases hc : isDigit c = true
    · simp only [hc, if_true, List.length_cons]; omega
    · simp only [hc, Bool.false_eq_true, if_false, List.length_cons, Nat.le_refl]

theorem scanDigits1_length {cs : List Char} {p : List Char × List Char}
    (h : scanDigits1 cs = some p) : p.2.length ≤ cs.length := by
  have hs := spanDigits_length cs
  unfold scanDigits1 at h
  cases hsp : spanDigits cs with
  | mk ds rest =>
    rw [hsp] at h hs
    cases ds with
    | nil => simp at h
    | cons d ds =>
      simp only [Option.some.injEq] at h
      rw [← h]
      exact hs

theorem scanInt_length {cs : List Char} {p : List Char × List Char}
    (h : scanInt cs = some p) : p.2.length < cs.length := by
  cases cs with
  | nil => simp [scanInt] at h
  | cons c cs =>
    have hs := spanDigits_length cs
    simp only [scanInt] at h
    by_cases h0 : c = '0'
    · simp only [h0, if_true, Option.some.injEq] at h
      rw [← h]
      exact Nat.lt_succ_self _
    · simp only [h0, if_false] at h
      by_cases hd : isDigit c = true
      · simp only [hd, if_true, Option.some.injEq] at h
        rw [← h, List.length_cons]
        dsimp only
        omega
      · simp only [hd, Bool.false_eq_true, if_false] at h
        cases h

theorem scanFrac_length {cs : List Char} {p : List Char × List Char}
    (h : scanFrac cs = some p) : p.2.length ≤ cs.length := by
  cases cs with
  | nil => simp only [scanFrac, Option.some.injEq] at h; rw [← h]
  | cons c cs =>
    simp only [scanFrac] at h
    by_cases hc : c = '.'
    · simp only [hc, if_true] at h
      cases hd : scanDigits1 cs with
      | none => rw [hd] at h; cases h
      | some q =>
        rw [hd] at h
        simp only [Option.map_some', Option.some.injEq] at h
        have := scanDigits1_length hd
        rw [← h, List.length_cons]
        dsimp only
        omega
    · simp only [hc, if_false, Option.some.injEq] at h
      rw [← h]

theorem scanSign_length (cs : List Char) : (scanSign cs).2.length ≤ cs.length := by
  cases cs with
  | nil => simp [scanSign]
  | cons c cs =>
    simp only [scanSign]
    split
    · exact Nat.le_succ _
    · exact Nat.le_refl _

theorem scanExp_length {cs : List Char} {p : List Char × List Char}
    (h : scanExp cs = some p) : p.2.length ≤ cs.length := by
  cases cs with
  | nil => simp only [scanExp, Option.some.injEq] at h; rw [← h]
  | cons c cs =>
    simp only [scanExp] at h
    by_cases hc : c = 'e' ∨ c = 'E'
    · simp only [hc, if_true] at h
      cases hd : scanDigits1 (scanSign cs).2 with
      | none => rw [hd] at h; cases h
      | some q =>
        rw [hd] at h
        simp only [Option.map_some', Option.some.injEq] at h
        have h1 := scanDigits1_length hd
        have h2 := scanSign_length cs
        rw [← h, List.length_cons]
        dsimp only
        omega
    · simp only [hc, if_false, Option.some.injEq] at h
      rw [← h]

theorem scanNumber_tail {cs r0 : List Char} {p : List Char × List Char} {sign : List Char}
    (hr0 : r0.length ≤ cs.length)
    (h : (match scanInt r0 with
      | none => none
      | some (ip, r1) =>
        match scanFrac r1 with
        | none => none
        | some (fp, r2) =>
          match scanExp r2 with
          | none => none
          | some (ep, r3) => some (sign ++ ip ++ fp ++ ep, r3)) = some p) :
    p.2.length < cs.length := by
  cases hi : scanInt r0 with
  | none => rw [hi] at h; cases h
  | some pi =>
    rw [hi] at h
    have h1 := scanInt_length hi
    obtain ⟨ip, r1⟩ := pi
    dsimp only at h h1
    cases hf : scanFrac r1 with
    | none => rw [hf] at h; cases h
    | some pf =>
      rw [hf] at h
      have h2 := scanFrac_length hf
      obtain ⟨fp, r2⟩ := pf
      dsimp only at h h2
      cases he : scanExp r2 with
      | none => rw [he] at h; cases h
      | some pe =>
        rw [he] at h
        have h3 := scanExp_length he
        obtain ⟨ep, r3⟩ := pe
        dsimp only at h h3
        simp only [Option.some.injEq] at h
        rw [← h]
        dsimp only
        omega

theorem scanNumber_length {cs : List Char} {p : List Char × List Char}
    (h : scanNumber cs = some p) : p.2.length < cs.length := by
  unfold scanNumber at h
  cases cs with
  | nil => simp [scanInt] at h
  | cons c r =>
    dsimp only at h
    by_cases hc : c = '-'
    · simp only [hc, if_true] at h
      exact scanNumber_tail (Nat.le_succ _) h
    · simp only [hc, if_false] at h
      exact scanNumber_tail (Nat.le_refl _) h

theorem exists_succ_of_sub_le {a b g : Nat} (hlt : b < a) (hg : a - b ≤ g) :
    ∃ g', g = g' + 1 := ⟨g - 1, by omega⟩

/-- A successful parse consumes text, and succeeds again with any budget that
is at least the number of characters it consumed. -/
theorem parse_adequate (f : Nat) :
    (∀ d cs r, parseValue f d cs = some r →
      r.2.length < cs.length ∧ ∀ g, cs.length - r.2.length ≤ g → parseValue g d cs = some r) ∧
    (∀ d cs r, parseItems f d cs = some r →
      r.2.length < cs.length ∧ ∀ g, cs.length - r.2.length ≤ g → parseItems g d cs = some r) ∧
    (∀ d cs r, parseMembers f d cs = some r →
      r.2.length < cs.length ∧
        ∀ g, cs.length - r.2.length ≤ g → parseMembers g d cs = some r) := by
  induction f with
  | zero =>
    refine ⟨?_, ?_, ?_⟩ <;> intro d cs r h <;> simp [parseValue, parseItems, parseMembers] at h
  | succ f ih =>
    obtain ⟨ihv, ihi, ihm⟩ := ih
    refine ⟨?_, ?_, ?_⟩
    · intro d cs r h
      rw [parseValue] at h
      cases hs : skipSpace cs with
      | nil => simp [hs] at h
      | cons c rest =>
        have hcs := length_of_skipSpace_eq_cons hs
        simp only [hs] at h
        -- a leaf that makes no recursive call
        have leaf : ∀ (rest' : List Char), rest'.length ≤ rest.length → r.2 = rest' →
            (∀ g', parseValue (g' + 1) d cs = some r) →
            r.2.length < cs.length ∧
              ∀ g, cs.length - r.2.length ≤ g → parseValue g d cs = some r := by
          intro rest' hle hr hall
          have hlt : r.2.length < cs.length := by rw [hr]; omega
          refine ⟨hlt, fun g hg => ?_⟩
          obtain ⟨g', rfl⟩ := exists_succ_of_sub_le hlt hg
          exact hall g'
        by_cases hq : c = '"'
        · simp only [hq, if_true] at h
          cases hx : unquoteBody rest with
          | none => simp [hx] at h
          | some q =>
            simp only [hx, Option.map_some', Option.some.injEq] at h
            have hlen := unquoteAux_length _ _ _ hx
            refine leaf _ (Nat.le_of_lt hlen) (by rw [← h]) (fun g' => ?_)
            rw [parseValue]
            simp only [Char.reduceEq, hs, hq, if_true, hx, Option.map_some', h]
        · simp only [hq, if_false] at h
          by_cases hb : c = '['
          · simp only [hb, if_true] at h
            by_cases hd : maxNestingDepth ≤ d
            · simp [hd] at h
            · simp only [hd, if_false] at h
              cases hs1 : skipSpace rest with
              | nil => simp [hs1] at h
              | cons c1 rest1 =>
                have hrest := length_of_skipSpace_eq_cons hs1
                simp only [hs1] at h
                by_cases hc1 : c1 = ']'
                · simp only [hc1, if_true, Option.some.injEq] at h
                  refine leaf rest1 (by omega) (by rw [← h]) (fun g' => ?_)
                  rw [parseValue]
                  simp only [Char.reduceEq, hs, hq, hb, hd, hs1, hc1, if_true, if_false, h]
                · simp only [hc1, if_false] at h
                  cases hx : parseItems f (d + 1) rest with
                  | none => simp [hx] at h
                  | some p =>
                    simp only [hx, Option.map_some', Option.some.injEq] at h
                    obtain ⟨hpl, hpg⟩ := ihi _ _ _ hx
                    have hr : r.2 = p.2 := by rw [← h]
                    have hlt : r.2.length < cs.length := by rw [hr]; omega
                    refine ⟨hlt, fun g hg => ?_⟩
                    obtain ⟨g', rfl⟩ := exists_succ_of_sub_le hlt hg
                    rw [parseValue]
                    simp only [Char.reduceEq, hs, hq, hb, hd, hs1, hc1, if_true, if_false,
                      hpg g' (by rw [hr] at hg; omega), Option.map_some', h]
          · simp only [hb, if_false] at h
            by_cases ho : c = '\x7b'
            · simp only [ho, if_true] at h
              by_cases hd : maxNestingDepth ≤ d
              · simp [hd] at h
              · simp only [hd, if_false] at h
                cases hs1 : skipSpace rest with
                | nil => simp [hs1] at h
                | cons c1 rest1 =>
                  have hrest := length_of_skipSpace_eq_cons hs1
                  simp only [hs1] at h
                  by_cases hc1 : c1 = '\x7d'
                  · simp only [hc1, if_true, Option.some.injEq] at h
                    refine leaf rest1 (by omega) (by rw [← h]) (fun g' => ?_)
                    rw [parseValue]
                    simp only [Char.reduceEq, hs, hq, hb, ho, hd, hs1, hc1, if_true, if_false, h]
                  · simp only [hc1, if_false] at h
                    cases hx : parseMembers f (d + 1) rest with
                    | none => simp [hx] at h
                    | some p =>
                      simp only [hx, Option.map_some', Option.some.injEq] at h
                      obtain ⟨hpl, hpg⟩ := ihm _ _ _ hx
                      have hr : r.2 = p.2 := by rw [← h]
                      have hlt : r.2.length < cs.length := by rw [hr]; omega
                      refine ⟨hlt, fun g hg => ?_⟩
                      obtain ⟨g', rfl⟩ := exists_succ_of_sub_le hlt hg
                      rw [parseValue]
                      simp only [Char.reduceEq, hs, hq, hb, ho, hd, hs1, hc1, if_true, if_false,
                        hpg g' (by rw [hr] at hg; omega), Option.map_some', h]
            · simp only [ho, if_false] at h
              by_cases ht : c = 't'
              · simp only [ht, if_true] at h
                cases hx : stripWord ['r', 'u', 'e'] rest with
                | none => simp [hx] at h
                | some q =>
                  simp only [hx, Option.map_some', Option.some.injEq] at h
                  refine leaf _ (stripWord_length _ _ _ hx) (by rw [← h]) (fun g' => ?_)
                  rw [parseValue]
                  simp only [Char.reduceEq, hs, hq, hb, ho, ht, if_true, if_false, hx, Option.map_some', h]
              · simp only [ht, if_false] at h
                by_cases hf : c = 'f'
                · simp only [hf, if_true] at h
                  cases hx : stripWord ['a', 'l', 's', 'e'] rest with
                  | none => simp [hx] at h
                  | some q =>
                    simp only [hx, Option.map_some', Option.some.injEq] at h
                    refine leaf _ (stripWord_length _ _ _ hx) (by rw [← h]) (fun g' => ?_)
                    rw [parseValue]
                    simp only [Char.reduceEq, hs, hq, hb, ho, ht, hf, if_true, if_false, hx,
                      Option.map_some', h]
                · simp only [hf, if_false] at h
                  by_cases hn : c = 'n'
                  · simp only [hn, if_true] at h
                    cases hx : stripWord ['u', 'l', 'l'] rest with
                    | none => simp [hx] at h
                    | some q =>
                      simp only [hx, Option.map_some', Option.some.injEq] at h
                      refine leaf _ (stripWord_length _ _ _ hx) (by rw [← h]) (fun g' => ?_)
                      rw [parseValue]
                      simp only [Char.reduceEq, hs, hq, hb, ho, ht, hf, hn, if_true, if_false, hx,
                        Option.map_some', h]
                  · simp only [hn, if_false] at h
                    cases hx : scanNumber (c :: rest) with
                    | none => simp [hx] at h
                    | some q =>
                      simp only [hx, Option.map_some', Option.some.injEq] at h
                      have hlen := scanNumber_length hx
                      simp only [List.length_cons] at hlen
                      refine leaf q.2 (by omega) (by rw [← h]) (fun g' => ?_)
                      rw [parseValue]
                      simp only [Char.reduceEq, hs, hq, hb, ho, ht, hf, hn, if_false, hx,
                        Option.map_some', h]
    · intro d cs r h
      rw [parseItems] at h
      cases hv : parseValue f d cs with
      | none => simp [hv] at h
      | some pv =>
        obtain ⟨v, rest⟩ := pv
        obtain ⟨hvl, hvg⟩ := ihv _ _ _ hv
        dsimp only at hvl hvg
        simp only [hv] at h
        cases hs : skipSpace rest with
        | nil => simp [hs] at h
        | cons c rest1 =>
          have hrest := length_of_skipSpace_eq_cons hs
          simp only [hs] at h
          by_cases hc : c = ','
          · simp only [hc, if_true] at h
            cases hx : parseItems f d rest1 with
            | none => simp [hx] at h
            | some p =>
              simp only [hx, Option.map_some', Option.some.injEq] at h
              obtain ⟨hpl, hpg⟩ := ihi _ _ _ hx
              have hr : r.2 = p.2 := by rw [← h]
              have hlt : r.2.length < cs.length := by rw [hr]; omega
              refine ⟨hlt, fun g hg => ?_⟩
              obtain ⟨g', rfl⟩ := exists_succ_of_sub_le hlt hg
              rw [hr] at hg
              rw [parseItems]
              simp only [hvg g' (by omega), hs, hc, if_true, hpg g' (by omega),
                Option.map_some', h]
          · simp only [hc, if_false] at h
            by_cases hc2 : c = ']'
            · simp only [hc2, if_true, Option.some.injEq] at h
              have hr : r.2 = rest1 := by rw [← h]
              have hlt : r.2.length < cs.length := by rw [hr]; omega
              refine ⟨hlt, fun g hg => ?_⟩
              obtain ⟨g', rfl⟩ := exists_succ_of_sub_le hlt hg
              rw [hr] at hg
              rw [parseItems]
              simp only [Char.reduceEq, hvg g' (by omega), hs, hc2, if_true, if_false, h]
            · simp [hc2] at h
    · intro d cs r h
      rw [parseMembers] at h
      cases hs : skipSpace cs with
      | nil => simp [hs] at h
      | cons q r0 =>
        have hcs := length_of_skipSpace_eq_cons hs
        simp only [hs] at h
        by_cases hq : q = '"'
        · simp only [hq, if_true] at h
          cases hk : unquoteBody r0 with
          | none => simp [hk] at h
          | some pk =>
            obtain ⟨k, r1⟩ := pk
            have hkl := unquoteAux_length _ _ _ hk
            dsimp only at hkl
            simp only [hk] at h
            cases hs1 : skipSpace r1 with
            | nil => simp [hs1] at h
            | cons colon r2 =>
              have hr1 := length_of_skipSpace_eq_cons hs1
              simp only [hs1] at h
              by_cases hcolon : colon = ':'
              · simp only [hcolon, if_true] at h
                cases hv : parseValue f d r2 with
                | none => simp [hv] at h
                | some pv =>
                  obtain ⟨v, r3⟩ := pv
                  obtain ⟨hvl, hvg⟩ := ihv _ _ _ hv
                  dsimp only at hvl hvg
                  simp only [hv] at h
                  cases hs2 : skipSpace r3 with
                  | nil => simp [hs2] at h
                  | cons c r4 =>
                    have hr3 := length_of_skipSpace_eq_cons hs2
                    simp only [hs2] at h
                    by_cases hc : c = ','
                    · simp only [hc, if_true] at h
                      cases hx : parseMembers f d r4 with
                      | none => simp [hx] at h
                      | some p =>
                        simp only [hx, Option.map_some', Option.some.injEq] at h
                        obtain ⟨hpl, hpg⟩ := ihm _ _ _ hx
                        have hr : r.2 = p.2 := by rw [← h]
                        have hlt : r.2.length < cs.length := by rw [hr]; omega
                        refine ⟨hlt, fun g hg => ?_⟩
                        obtain ⟨g', rfl⟩ := exists_succ_of_sub_le hlt hg
                        rw [hr] at hg
                        rw [parseMembers]
                        simp only [hs, hq, if_true, hk, hs1, hcolon, hvg g' (by omega), hs2,
                          hc, hpg g' (by omega), Option.map_some', h]
                    · simp only [hc, if_false] at h
                      by_cases hc2 : c = '\x7d'
                      · simp only [hc2, if_true, Option.some.injEq] at h
                        have hr : r.2 = r4 := by rw [← h]
                        have hlt : r.2.length < cs.length := by rw [hr]; omega
                        refine ⟨hlt, fun g hg => ?_⟩
                        obtain ⟨g', rfl⟩ := exists_succ_of_sub_le hlt hg
                        rw [hr] at hg
                        rw [parseMembers]
                        simp only [Char.reduceEq, hs, hq, if_true, if_false, hk, hs1, hcolon,
                          hvg g' (by omega), hs2, hc2, h]
                      · simp [hc2] at h
              · simp [hcolon] at h
        · simp [hq] at h

/-- Whatever budget reads a whole text, `parseJSON` reads it too: its budget
never cuts a parse short. -/
theorem parseJSON_of_parseValue {f : Nat} {b : String} {v : JVal} {rest : List Char}
    (h : parseValue f 0 b.toList = some (v, rest)) (hrest : skipSpace rest = []) :
    parseJSON b = some v := by
  obtain ⟨hl, hg⟩ := (parse_adequate f).1 _ _ _ h
  have := hg (2 * b.length + 2) (by simp only [String.length, String.toList]; omega)
  simp only [parseJSON, this, hrest, if_true]

theorem hexValue_lowerhex {k : Nat} (h : k < 16) : hexValue (lowerhex k) = some k := by
  interval_cases k <;> rfl

theorem char_eq_ofNat_of_toNat {c : Char} {n : Nat} (h : c.toNat = n) : c = Char.ofNat n := by
  rw [← h, Char.ofNat_toNat]

theorem getu4_byte {c : Char} (h : c.toNat < 256) (t : List Char) :
    getu4 ('\\' :: 'u' :: '0' :: '0' :: (hexByte c.toNat ++ t)) = some c.toNat := by
  have h1 : c.toNat / 16 % 16 < 16 := by omega
  have h2 : c.toNat % 16 < 16 := by omega
  have h0 : hexValue '0' = some 0 := rfl
  simp only [hexByte, List.cons_append, List.nil_append, getu4, and_self, if_true, h0,
    hexValue_lowerhex h1, hexValue_lowerhex h2]
  congr 1
  omega

/-- One character written by `encoding/json` is read back as itself. -/
theorem unquoteAux_escapeChar (c : Char) (fuel : Nat) (t : List Char) :
    unquoteAux (fuel + 1) (escapeChar c ++ t)
      = (unquoteAux fuel t).map fun p => (c :: p.1, p.2) := by
  unfold escapeChar
  split
  · rename_i h
    rcases h with rfl | rfl <;> simp [unquoteAux, putRune]
  · split
    · rename_i h
      have := char_eq_ofNat_of_toNat h
      subst this
      simp [unquoteAux, putRune]
    · split
      · rename_i h
        have := char_eq_ofNat_of_toNat h
        subst this
        simp [unquoteAux, putRune]
      · split
        · rename_i h
          have := char_eq_ofNat_of_toNat h
          subst this
          simp [unquoteAux, putRune]
        · split
          · rename_i h
            have := char_eq_ofNat_of_toNat h
            subst this
            simp [unquoteAux, putRune]
          · split
            · rename_i h
              have := char_eq_ofNat_of_toNat h
              subst this
              simp [unquoteAux, putRune]
            · split
              · rename_i h
                have hlt : c.toNat < 256 := by
                  rcases h with h | rfl | rfl | rfl
                  · omega
                  all_goals decide
                have hns : isSurrogate c.toNat = false := by
                  simp only [isSurrogate, Bool.and_eq_false_imp, decide_eq_true_eq,
                    decide_eq_false_iff_not]
                  omega
                have hg := getu4_byte hlt t
                simp only [List.cons_append] at hg ⊢
                rw [unquoteAux]
                simp only [hg, hns, putRune, Char.ofNat_toNat]
                simp [hexByte]
              · split
                · rename_i h
                  rcases h with h | h
                  · have hc := char_eq_ofNat_of_toNat h
                    subst hc
                    simp [unquoteAux, putRune, getu4, hexValue, lowerhex, isSurrogate]
                  · have hc := char_eq_ofNat_of_toNat h
                    subst hc
                    simp [unquoteAux, putRune, getu4, hexValue, lowerhex, isSurrogate]
                · rename_i h1 h2 h3 h4 h5 h6 h7 h8
                  have hq : c ≠ '"' := fun h => h1 (Or.inl h)
                  have hb : c ≠ '\\' := fun h => h1 (Or.inr h)
                  have hc : ¬ c.toNat < 32 := fun h => h7 (Or.inl h)
                  show unquoteAux (fuel + 1) (c :: t) = _
                  simp only [unquoteAux, hq, hb, hc, if_false]

/-- A string body written by `encoding/json`, up to its closing quote, is
read back as the string. -/
theorem unquoteAux_escape (s : List Char) (rest : List Char) :
    ∀ fuel, s.length < fuel →
      unquoteAux fuel (s.flatMap escapeChar ++ '"' :: rest) = some (s, rest) := by
  induction s with
  | nil =>
    intro fuel h
    obtain ⟨f, rfl⟩ : ∃ f, fuel = f + 1 := ⟨fuel - 1, by simp at h; omega⟩
    simp [unquoteAux]
  | cons c s ih =>
    intro fuel h
    obtain ⟨f, rfl⟩ : ∃ f, fuel = f + 1 := ⟨fuel - 1, by omega⟩
    have hf : s.length < f := by simp at h; omega
    rw [List.flatMap_cons, List.append_assoc, unquoteAux_escapeChar, ih f hf]
    rfl

theorem escapeChar_length_pos (c : Char) : 1 ≤ (escapeChar c).length := by
  unfold escapeChar
  repeat' split
  all_goals simp [hexByte]

theorem length_le_flatMap_escapeChar (s : List Char) :
    s.length ≤ (s.flatMap escapeChar).length := by
  induction s with
  | nil => simp
  | cons c s ih =>
    have := escapeChar_length_pos c
    simp only [List.flatMap_cons, List.length_append, List.length_cons]
    omega

theorem unquoteBody_escape (s rest : List Char) :
    unquoteBody (s.flatMap escapeChar ++ '"' :: rest) = some (s, rest) := by
  unfold unquoteBody
  apply unquoteAux_escape
  have := length_le_flatMap_escapeChar s
  simp only [List.length_append, List.length_cons]
  omega

/-- A string value written by `json.Marshal` is parsed as that string. -/
theorem parseValue_jsonMarshalString (fuel depth : Nat) (s : String) (rest : List Char) :
    parseValue (fuel + 1) depth (jsonMarshalString s ++ rest) = some (.str s, rest) := by
  have h : jsonMarshalString s ++ rest
      = '"' :: (s.data.flatMap escapeChar ++ '"' :: rest) := by
    simp [jsonMarshalString]
  rw [h, parseValue]
  simp [skipSpace, isSpace, unquoteBody_escape]

theorem skipSpace_of_not_isSpace {c : Char} (h : isSpace c = false) (cs : List Char) :
    skipSpace (c :: cs) = c :: cs := by
  simp [skipSpace, h]

/-- One `"key":"value",` member written by `json.Marshal` is parsed as the
member, and parsing goes on behind the comma. -/
theorem parseMembers_stringMember (f d : Nat) (k : List Char)
    (hk : k.flatMap escapeChar = k) (s : String) (rest : List Char) :
    parseMembers (f + 2) d ('"' :: (k ++ '"' :: ':' :: (jsonMarshalString s ++ ',' :: rest)))
      = (parseMembers (f + 1) d rest).map fun p => ((String.mk k, JVal.str s) :: p.1, p.2) := by
  have hkey := unquoteBody_escape k (':' :: (jsonMarshalString s ++ ',' :: rest))
  rw [hk] at hkey
  rw [parseMembers, skipSpace_of_not_isSpace (by rfl)]
  simp only [if_true, hkey]
  rw [skipSpace_of_not_isSpace (by rfl)]
  simp only [if_true, parseValue_jsonMarshalString]
  rw [skipSpace_of_not_isSpace (by rfl)]
  simp only [if_true]

theorem parseMembers_space (f d : Nat) (cs : List Char) :
    parseMembers f d (' ' :: cs) = parseMembers f d cs := by
  cases f with
  | zero => simp [parseMembers]
  | succ f =>
    rw [parseMembers, parseMembers]
    have : skipSpace (' ' :: cs) = skipSpace cs := by simp [skipSpace, isSpace]
    rw [this]

/-- Parsing the spliced text: the two credential members, then whatever the
payload's bytes after its first give as further members. -/
theorem parseValue_splicedText (f : Nat) (apiKey secretAPIKey : String) (rest : List Char) :
    parseValue (f + 4) 0 (splicedText apiKey secretAPIKey rest)
      = (parseMembers (f + 1) 1 rest).map fun p =>
          (JVal.obj (("apikey", .str apiKey) :: ("secretapikey", .str secretAPIKey) :: p.1),
            p.2) := by
  have hmax : ¬ maxNestingDepth ≤ 0 := by decide
  rw [splicedText, parseValue, skipSpace_of_not_isSpace (by rfl)]
  simp only [Char.reduceEq, if_false, if_true, hmax]
  rw [skipSpace_of_not_isSpace (by rfl)]
  simp only [Char.reduceEq, if_false]
  rw [parseMembers_stringMember (f + 1) 1 "apikey".data rfl,
    parseMembers_stringMember f 1 "secretapikey".data rfl,
    parseMembers_space, parseMembers_space, parseMembers_space]
  cases parseMembers (f + 1) 1 rest <;> rfl

/-- What `MarshalJSON` returns for a payload whose encoding is one byte
followed by `rest`. -/
theorem marshalJSON_splice (apiKey secretAPIKey embedded : String) (c0 : Char)
    (rest : List Char) (h : embedded.data = c0 :: rest) :
    authRequest.MarshalJSON ⟨apiKey, secretAPIKey, some ⟨.ok embedded⟩⟩
      = .ok (String.mk (splicedText apiKey secretAPIKey rest)) := by
  have hlen : ¬ embedded.length < 1 := by
    simp [String.length, h]
  have hroot : (jsonMarshalClone apiKey secretAPIKey).data.dropLast
      = '\x7b' :: '"' :: ("apikey".data ++ '"' :: ':' :: (jsonMarshalString apiKey ++ ','
          :: '"' :: ("secretapikey".data ++ '"' :: ':' :: jsonMarshalString secretAPIKey))) := by
    have : (jsonMarshalClone apiKey secretAPIKey).data
        = ('\x7b' :: '"' :: ("apikey".data ++ '"' :: ':' :: (jsonMarshalString apiKey ++ ','
          :: '"' :: ("secretapikey".data ++ '"' :: ':' :: jsonMarshalString secretAPIKey))))
          ++ ['\x7d'] := by
      simp [jsonMarshalClone]
    rw [this, List.dropLast_concat]
  simp only [authRequest.MarshalJSON, hlen, if_false, String.toList, h, List.drop_one,
    List.tail_cons, hroot]
  congr 1
  apply String.ext
  simp [splicedText]

theorem splicedText_length (apiKey secretAPIKey : String) (rest : List Char) :
    (splicedText apiKey secretAPIKey rest).length
      = (jsonMarshalClone apiKey secretAPIKey).length + 3 + rest.length := by
  simp [splicedText, jsonMarshalClone, String.length]
  omega

/-- What a payload encoding that starts with the brace and parses to an object
with members says about the bytes after the brace. -/
theorem parseMembers_of_parseJSON {embedded : String} {rest : List Char}
    {ms : List (String × JVal)} (hdata : embedded.data = '\x7b' :: rest)
    (hparse : parseJSON embedded = some (.obj ms)) (hne : ms ≠ []) :
    ∃ tail, parseMembers (2 * embedded.length + 1) 1 rest = some (ms, tail) ∧
      skipSpace tail = [] := by
  have hmax : ¬ maxNestingDepth ≤ 0 := by decide
  unfold parseJSON at hparse
  simp only [String.toList, hdata] at hparse
  rw [parseValue, skipSpace_of_not_isSpace (by rfl)] at hparse
  simp only [Char.reduceEq, if_false, if_true, hmax] at hparse
  cases hs : skipSpace rest with
  | nil => simp [hs] at hparse
  | cons c1 rest1 =>
    simp only [hs] at hparse
    by_cases hc : c1 = '\x7d'
    · simp only [hc, if_true] at hparse
      split at hparse
      · simp at hparse
        exact absurd hparse hne
      · simp at hparse
    · simp only [hc, if_false] at hparse
      cases hm : parseMembers (2 * embedded.length + 1) 1 rest with
      | none => simp [hm] at hparse
      | some p =>
        obtain ⟨ms', tail⟩ := p
        simp only [hm, Option.map_some'] at hparse
        split at hparse
        · rename_i htail
          simp only [Option.some.injEq, JVal.obj.injEq] at hparse
          exact ⟨tail, by rw [hparse], htail⟩
        · simp at hparse

/-- The splice of the credential encoding with a non-empty object encoding
parses as one object: the two credential members, then the payload's. -/
theorem parseJSON_splicedText (apiKey secretAPIKey embedded : String) (rest : List Char)
    (ms : List (String × JVal)) (hdata : embedded.data = '\x7b' :: rest)
    (hparse : parseJSON embedded = some (.obj ms)) (hne : ms ≠ []) :
    parseJSON (String.mk (splicedText apiKey secretAPIKey rest))
      = some (.obj (("apikey", .str apiKey) :: ("secretapikey", .str secretAPIKey) :: ms)) := by
  obtain ⟨tail, hm, htail⟩ := parseMembers_of_parseJSON hdata hparse hne
  have hL : embedded.length = rest.length + 1 := by simp [String.length, hdata]
  have hlen := splicedText_length apiKey secretAPIKey rest
  obtain ⟨f, hf⟩ : ∃ f, 2 * (splicedText apiKey secretAPIKey rest).length + 2 = f + 4 :=
    ⟨2 * (splicedText apiKey secretAPIKey rest).length - 2, by omega⟩
  have hfuel : 2 * embedded.length + 1 ≤ f + 1 := by omega
  have hm' := (parse_fuel_le hfuel).2.2 _ _ _ hm
  unfold parseJSON
  simp only [String.length, String.toList, hf, parseValue_splicedText, hm', Option.map_some',
    htail, if_true]

theorem lastValue_cons_of_some {ms : List (String × JVal)} {key : String} {v : JVal}
    (x : String × JVal) (h : lastValue ms key = some v) : lastValue (x :: ms) key = some v := by
  unfold lastValue at h ⊢
  cases hf : ms.reverse.find? (fun m => m.1 = key) with
  | none => simp [hf] at h
  | some y =>
    rw [hf] at h
    simp only [List.reverse_cons, List.find?_append, hf, Option.or_some]
    exact h

/-- The last `"key":"value"` member of an object written by `json.Marshal`,
with the closing brace behind it. -/
theorem parseMembers_lastStringMember (f d : Nat) (k : List Char)
    (hk : k.flatMap escapeChar = k) (s : String) (rest : List Char) :
    parseMembers (f + 2) d ('"' :: (k ++ '"' :: ':' :: (jsonMarshalString s ++ '\x7d' :: rest)))
      = some ([(String.mk k, JVal.str s)], rest) := by
  have hkey := unquoteBody_escape k (':' :: (jsonMarshalString s ++ '\x7d' :: rest))
  rw [hk] at hkey
  rw [parseMembers, skipSpace_of_not_isSpace (by rfl)]
  simp only [if_true, hkey]
  rw [skipSpace_of_not_isSpace (by rfl)]
  simp only [if_true, parseValue_jsonMarshalString]
  rw [skipSpace_of_not_isSpace (by rfl)]
  simp only [Char.reduceEq, if_false, if_true]

/-- The credential encoding parses as the object of its two members. -/
theorem parseJSON_jsonMarshalClone (apiKey secretAPIKey : String) :
    parseJSON (jsonMarshalClone apiKey secretAPIKey)
      = some (.obj [("apikey", .str apiKey), ("secretapikey", .str secretAPIKey)]) := by
  have hmax : ¬ maxNestingDepth ≤ 0 := by decide
  have hdata : (jsonMarshalClone apiKey secretAPIKey).data
      = '\x7b' :: '"' :: ("apikey".data ++ '"' :: ':' :: (jsonMarshalString apiKey ++ ','
        :: '"' :: ("secretapikey".data ++ '"' :: ':' :: (jsonMarshalString secretAPIKey
        ++ '\x7d' :: [])))) := by
    simp [jsonMarshalClone]
  have hlen : 11 ≤ (jsonMarshalClone apiKey secretAPIKey).data.length := by
    rw [hdata]
    simp only [List.length_cons, List.length_append]
    omega
  obtain ⟨f, hf⟩ : ∃ f, 2 * (jsonMarshalClone apiKey secretAPIKey).data.length + 2 = f + 4 :=
    ⟨2 * (jsonMarshalClone apiKey secretAPIKey).data.length - 2, by omega⟩
  unfold parseJSON
  simp only [String.length, String.toList, hf]
  rw [hdata, parseValue, skipSpace_of_not_isSpace (by rfl)]
  simp only [Char.reduceEq, if_false, if_true, hmax]
  rw [skipSpace_of_not_isSpace (by rfl)]
  simp only [Char.reduceEq, if_false]
  rw [parseMembers_stringMember (f + 1) 1 "apikey".data rfl,
    parseMembers_lastStringMember f 1 "secretapikey".data rfl]
  rfl

theorem lastValue_append (xs ys : List (String × JVal)) (key : String) :
    lastValue (xs ++ ys) key = (lastValue ys key).or (lastValue xs key) := by
  unfold lastValue
  rw [List.reverse_append, List.find?_append]
  cases List.find? (fun m => decide (m.1 = key)) ys.reverse <;> rfl

/-- The spliced text of the empty object encoding does not parse. -/
theorem parseJSON_splicedText_empty (apiKey secretAPIKey : String) :
    parseJSON (String.mk (splicedText apiKey secretAPIKey ['\x7d'])) = none := by
  have hlen := splicedText_length apiKey secretAPIKey ['\x7d']
  obtain ⟨f, hf⟩ : ∃ f, 2 * (splicedText apiKey secretAPIKey ['\x7d']).length + 2 = f + 4 :=
    ⟨2 * (splicedText apiKey secretAPIKey ['\x7d']).length - 2, by omega⟩
  have hm : parseMembers (f + 1) 1 ['\x7d'] = none := by
    rw [parseMembers, skipSpace_of_not_isSpace (by rfl)]
    rfl
  unfold parseJSON
  simp only [String.length, String.toList, hf, parseValue_splicedText, hm, Option.map_none']

/-! ## Lemmas on the decoding steps -/

theorem quasiBool_encoding (v asString : Bool) (msg : String) :
    quasiBool (quasiEncoding v asString) msg = .ok v := by
  cases v <;> cases asString <;> rfl

theorem decodeDomainField_str {ms : List (String × JVal)} {s : String} (m : Machine)
    (h : objMapIndex ms "domain" = some (.str s)) :
    decodeDomainField ms m
      = .ok { d := { m.d with Domain := s }, stdout := m.stdout ++ s ++ "\n" } := by
  simp [decodeDomainField, h, jsonUnmarshalString]

theorem decodeStatus_str {ms : List (String × JVal)} {s : String} (m : Machine)
    (h : objMapIndex ms "status" = some (.str s)) :
    decodeStatus ms m = .ok { m with d := { m.d with Status := s } } := by
  simp [decodeStatus, h, jsonUnmarshalString]

theorem decodeTLD_str {ms : List (String × JVal)} {s : String} (m : Machine)
    (h : objMapIndex ms "tld" = some (.str s)) :
    decodeTLD ms m = .ok { m with d := { m.d with TLD := s } } := by
  simp [decodeTLD, h, jsonUnmarshalString]

theorem decodeCreateDate_is {ms : List (String × JVal)} {t : Time} (m : Machine)
    (h : CreateDateIs ms t) :
    decodeCreateDate ms m = .ok { m with d := { m.d with CreateDate := t } } := by
  rcases h with ⟨h, rfl⟩ | ⟨s, h, ht⟩
  · simp [decodeCreateDate, h]
  · simp [decodeCreateDate, h, jsonUnmarshalString, ht]

theorem decodeExpireDate_is {ms : List (String × JVal)} {t : Time} (m : Machine)
    (h : ∃ s, objMapIndex ms "expireDate" = some (.str s) ∧ timeParse s = .ok t) :
    decodeExpireDate ms m = .ok { m with d := { m.d with ExpireDate := t } } := by
  obtain ⟨s, h, ht⟩ := h
  simp [decodeExpireDate, h, jsonUnmarshalString, ht]

theorem decodeLabelsField_are {ms : List (String × JVal)} {labels : Option (List DomainLabel)}
    (m : Machine) (h : LabelsAre ms m.d.Labels labels) :
    decodeLabelsField ms m = .ok { m with d := { m.d with Labels := labels } } := by
  rcases h with ⟨h, rfl⟩ | ⟨raw, h, hl⟩
  · simp [decodeLabelsField, h]
  · simp [decodeLabelsField, h, hl]

/-- On a JSON object the call runs the field statements on its members. -/
theorem unmarshal_of_object {b : String} {ms : List (String × JVal)} (m : Machine)
    (hb : parseJSON b = some (.obj ms)) : Domain.UnmarshalJSON m b = decodeFields ms m := by
  simp only [Domain.UnmarshalJSON, jsonUnmarshalObjMap, hb]

/-- The record a successful call leaves when every field decodes. -/
theorem decodeFields_ok {ms : List (String × JVal)} {dom st tld : String}
    {create expire : Time} {labels : Option (List DomainLabel)} {r1 r2 r3 r4 : JVal}
    {v1 v2 v3 v4 : Bool} (m : Machine)
    (hp : PlainFields ms dom st tld expire) (hc : CreateDateIs ms create)
    (h1 : objMapIndex ms "securityLock" = some r1)
    (q1 : quasiBool r1 "SecurityLock response not a boolean" = .ok v1)
    (h2 : objMapIndex ms "whoisPrivacy" = some r2)
    (q2 : quasiBool r2 "WhoisPrivacy response not a boolean" = .ok v2)
    (h3 : objMapIndex ms "autoRenew" = some r3)
    (q3 : quasiBool r3 "AutoRenew response not a boolean" = .ok v3)
    (h4 : objMapIndex ms "notLocal" = some r4)
    (q4 : quasiBool r4 "NotLocal response not a boolean" = .ok v4)
    (hl : LabelsAre ms m.d.Labels labels) :
    decodeFields ms m = .ok
      { d := { Domain := dom, Status := st, TLD := tld, CreateDate := create,
               ExpireDate := expire, SecurityLock := v1, WHOISPrivacy := v2,
               AutoRenew := v3, NotLocal := v4, Labels := labels },
        stdout := m.stdout ++ dom ++ "\n" } := by
  simp only [decodeFields, decodeDomainField_str m hp.domain, Outcome.andThen,
    decodeStatus_str _ hp.status, decodeTLD_str _ hp.tld, decodeCreateDate_is _ hc,
    decodeExpireDate_is _ hp.expireDate, decodeSecurityLock, h1, q1, decodeWHOISPrivacy, h2, q2,
    decodeAutoRenew, h3, q3, decodeNotLocal, h4, q4]
  exact decodeLabelsField_are _ hl

/-- The quasi-boolean routine on a JSON number. -/
theorem quasiBool_num (lit msg : String) :
    quasiBool (.num lit) msg =
      match parseInt64 lit.data with
      | .ok n =>
        if n = 0 then .ok false else if n = 1 then .ok true else .error (.errorString msg)
      | .error _ => .error (.unmarshalTypeError "number" "string" "" "") := by
  cases hp : parseInt64 lit.data <;>
    simp [quasiBool, jsonUnmarshalInt, jsonUnmarshalString, kindName, hp]

/-- The quasi-boolean routine on a JSON string. -/
theorem quasiBool_str (s msg : String) :
    quasiBool (.str s) msg =
      match parseInt64 s.data with
      | .ok n =>
        if n = 0 then .ok false else if n = 1 then .ok true else .error (.errorString msg)
      | .error .badSyntax => .error (.numError "Atoi" s "invalid syntax")
      | .error .outOfRange => .error (.numError "Atoi" s "value out of range") := by
  cases hp : parseInt64 s.data with
  | ok n => simp [quasiBool, jsonUnmarshalInt, jsonUnmarshalString, kindName, Atoi, hp]
  | error f =>
    cases f <;> simp [quasiBool, jsonUnmarshalInt, jsonUnmarshalString, kindName, Atoi, hp]

/-- What the quasi-boolean routine does with a value that denotes an integer. -/
theorem quasiBool_of_intValue {raw : JVal} {n : Int} (msg : String)
    (h : intValue raw = some n) :
    quasiBool raw msg
      = if n = 0 then .ok false else if n = 1 then .ok true else .error (.errorString msg) := by
  cases raw with
  | num lit =>
    rw [quasiBool_num]
    simp only [intValue, String.toList] at h
    cases hp : parseInt64 lit.data with
    | error f => simp [hp, Except.toOption] at h
    | ok k =>
      simp only [hp, Except.toOption, Option.some.injEq] at h
      subst h
      rfl
  | str s =>
    rw [quasiBool_str]
    simp only [intValue, String.toList] at h
    cases hp : parseInt64 s.data with
    | error f => simp [hp, Except.toOption] at h
    | ok k =>
      simp only [hp, Except.toOption, Option.some.injEq] at h
      subst h
      rfl
  | null => simp [intValue] at h
  | bool b => simp [intValue] at h
  | arr xs => simp [intValue] at h
  | obj ms => simp [intValue] at h

/-- The map lookup never hands out a `null`. -/
theorem objMapIndex_ne_null {ms : List (String × JVal)} {key : String} {raw : JVal}
    (h : objMapIndex ms key = some raw) : raw ≠ .null := by
  unfold objMapIndex at h
  intro hn
  subst hn
  split at h <;> simp_all

/-- A rejected quasi-boolean value: the error of the routine. It is the
field's own `errors.New` text when the value denotes an integer, the error of
`strconv.Atoi` for another string, and the type error of the second
`json.Unmarshal` for a value that is neither. -/
theorem quasiBool_rejects {raw : JVal} (msg : String) (hnull : raw ≠ .null)
    (h0 : intValue raw ≠ some 0) (h1 : intValue raw ≠ some 1) :
    ∃ e, quasiBool raw msg = .error e ∧
      (∀ n, intValue raw = some n → e = .errorString msg) ∧
      (intValue raw = none →
        (∀ s, raw = .str s →
          e = .numError "Atoi" s "invalid syntax" ∨
            e = .numError "Atoi" s "value out of range") ∧
        ((∀ s, raw ≠ .str s) → e = .unmarshalTypeError (kindName raw) "string" "" "")) := by
  cases hv : intValue raw with
  | some n =>
    have hn0 : n ≠ 0 := fun h => h0 (by rw [hv, h])
    have hn1 : n ≠ 1 := fun h => h1 (by rw [hv, h])
    refine ⟨.errorString msg, ?_, fun _ _ => rfl, fun h => by simp at h⟩
    rw [quasiBool_of_intValue msg hv]
    simp [hn0, hn1]
  | none =>
    cases raw with
    | null => exact absurd rfl hnull
    | num lit =>
      simp only [intValue, String.toList] at hv
      refine ⟨.unmarshalTypeError "number" "string" "" "", ?_, fun n hn => by simp at hn,
        fun _ => ⟨fun s hs => by simp at hs, fun _ => rfl⟩⟩
      rw [quasiBool_num]
      cases hp : parseInt64 lit.data with
      | ok k => simp [hp, Except.toOption] at hv
      | error f => rfl
    | str s =>
      simp only [intValue, String.toList] at hv
      cases hp : parseInt64 s.data with
      | ok k => simp [hp, Except.toOption] at hv
      | error f =>
        cases f with
        | badSyntax =>
          refine ⟨.numError "Atoi" s "invalid syntax", ?_, fun n hn => by simp at hn,
            fun _ => ⟨fun t ht => ?_, fun hne => absurd rfl (hne s)⟩⟩
          · rw [quasiBool_str, hp]
          · simp only [JVal.str.injEq] at ht
            subst ht
            exact Or.inl rfl
        | outOfRange =>
          refine ⟨.numError "Atoi" s "value out of range", ?_, fun n hn => by simp at hn,
            fun _ => ⟨fun t ht => ?_, fun hne => absurd rfl (hne s)⟩⟩
          · rw [quasiBool_str, hp]
          · simp only [JVal.str.injEq] at ht
            subst ht
            exact Or.inr rfl
    | bool v =>
      exact ⟨.unmarshalTypeError "bool" "string" "" "", rfl, fun n hn => by simp at hn,
        fun _ => ⟨fun s hs => by simp at hs, fun _ => rfl⟩⟩
    | arr xs =>
      exact ⟨.unmarshalTypeError "array" "string" "" "", rfl, fun n hn => by simp at hn,
        fun _ => ⟨fun s hs => by simp at hs, fun _ => rfl⟩⟩
    | obj xs =>
      exact ⟨.unmarshalTypeError "object" "string" "" "", rfl, fun n hn => by simp at hn,
        fun _ => ⟨fun s hs => by simp at hs, fun _ => rfl⟩⟩

/-- An accepted quasi-boolean value decodes. -/
theorem quasiBool_accepts {raw : JVal} (msg : String)
    (h : intValue raw = some 0 ∨ intValue raw = some 1) : ∃ v, quasiBool raw msg = .ok v := by
  rcases h with h | h
  · exact ⟨false, by rw [quasiBool_of_intValue msg h]; simp⟩
  · exact ⟨true, by rw [quasiBool_of_intValue msg h]; simp⟩

/-- A key that no member carries is looked up as the nil pointer. -/
theorem objMapIndex_absent {ms : List (String × JVal)} {key : String}
    (h : ∀ v, (key, v) ∉ ms) : objMapIndex ms key = none := by
  have hfind : lastValue ms key = none := by
    simp only [lastValue, Option.map_eq_none', List.find?_eq_none, List.mem_reverse,
      decide_eq_true_eq]
    intro x hx hk
    exact h x.2 (by rw [← hk]; exact hx)
  simp [objMapIndex, hfind]

/-- A valid quasi-boolean field decodes to the value it stands for. -/
theorem quasiBool_of_quasiIs {ms : List (String × JVal)} {key : String} {v : Bool}
    (msg : String) (h : QuasiIs ms key v) :
    ∃ raw, objMapIndex ms key = some raw ∧ quasiBool raw msg = .ok v := by
  obtain ⟨raw, hraw, hv⟩ := h
  refine ⟨raw, hraw, ?_⟩
  rw [quasiBool_of_intValue msg hv]
  cases v <;> simp

/-- The record a successful call leaves on a valid resource object. -/
theorem decodeFields_valid {ms : List (String × JVal)} {dom st tld : String}
    {create expire : Time} {labels : Option (List DomainLabel)} {v1 v2 v3 v4 : Bool}
    (m : Machine) (hp : PlainFields ms dom st tld expire) (hc : CreateDateIs ms create)
    (hq : QuasiFields ms v1 v2 v3 v4) (hl : LabelsAre ms m.d.Labels labels) :
    decodeFields ms m = .ok
      { d := { Domain := dom, Status := st, TLD := tld, CreateDate := create,
               ExpireDate := expire, SecurityLock := v1, WHOISPrivacy := v2,
               AutoRenew := v3, NotLocal := v4, Labels := labels },
        stdout := m.stdout ++ dom ++ "\n" } := by
  obtain ⟨r1, h1, q1⟩ := quasiBool_of_quasiIs "SecurityLock response not a boolean" hq.securityLock
  obtain ⟨r2, h2, q2⟩ := quasiBool_of_quasiIs "WhoisPrivacy response not a boolean" hq.whoisPrivacy
  obtain ⟨r3, h3, q3⟩ := quasiBool_of_quasiIs "AutoRenew response not a boolean" hq.autoRenew
  obtain ⟨r4, h4, q4⟩ := quasiBool_of_quasiIs "NotLocal response not a boolean" hq.notLocal
  exact decodeFields_ok m hp hc h1 q1 h2 q2 h3 q3 h4 q4 hl

theorem labelFieldOf_id : labelFieldOf "id" = some .id := rfl

theorem labelFieldOf_title : labelFieldOf "title" = some .title := rfl

theorem labelFieldOf_color : labelFieldOf "color" = some .color := rfl

/-- A label object overwrites all three fields of the element it is decoded
into, and records no error. -/
theorem decodeLabel_of_isLabelObject {v : JVal} {l : DomainLabel} (cur : DomainLabel)
    (saved : Option GoError) (h : IsLabelObject v l) : decodeLabel cur saved v = (l, saved) := by
  obtain ⟨members, rfl, hlen, hid, htitle, hcolor⟩ := h
  match members, hlen with
  | [a, b, c], _ =>
    simp only [List.mem_cons, List.mem_singleton, List.not_mem_nil, or_false] at hid htitle hcolor
    rcases hid with rfl | rfl | rfl <;> rcases htitle with h2 | h2 | h2 <;>
      first
      | (exact absurd h2 (by simp))
      | (subst h2
         rcases hcolor with h3 | h3 | h3 <;>
          first
          | (exact absurd h3 (by simp))
          | (subst h3
             simp [decodeLabel, decodeLabelMember, labelFieldOf_id, labelFieldOf_title,
               labelFieldOf_color, DomainLabel.set]))

/-- An array of label objects decodes to the labels they spell, in order,
whatever the slice held before. -/
theorem decodeLabels_of_forall₂ {objs : List JVal} {ls : List DomainLabel}
    (h : List.Forall₂ IsLabelObject objs ls) (old : List DomainLabel) (saved : Option GoError) :
    decodeLabels objs old saved = (ls, saved) := by
  induction h generalizing old saved with
  | nil => rfl
  | cons hv _ ih =>
    simp only [decodeLabels, decodeLabel_of_isLabelObject _ _ hv, ih]

/-- The `labels` field of an object that carries an array of label objects. -/
theorem labelsAre_of_forall₂ {ms : List (String × JVal)} {objs : List JVal}
    {ls : List DomainLabel} (cur : Option (List DomainLabel))
    (hraw : objMapIndex ms "labels" = some (.arr objs))
    (h : List.Forall₂ IsLabelObject objs ls) : LabelsAre ms cur (some ls) :=
  Or.inr ⟨_, hraw, by simp only [jsonUnmarshalLabels, decodeLabels_of_forall₂ h]⟩

theorem isDigit_digitChar {k : Nat} (h : k < 10) : isDigit (digitChar k) = true := by
  interval_cases k <;> rfl

theorem toNat_digitChar {k : Nat} (h : k < 10) : (digitChar k).toNat - 0x30 = k := by
  interval_cases k <;> rfl

theorem digitChar_ne_space {k : Nat} (h : k < 10) : digitChar k ≠ ' ' := by
  interval_cases k <;> decide

theorem getnum_two {a b : Nat} (ha : a < 10) (hb : b < 10) (rest : List Char) (fixed : Bool) :
    getnum (digitChar a :: digitChar b :: rest) fixed = some (a * 10 + b, rest) := by
  simp [getnum, isDigit_digitChar ha, isDigit_digitChar hb, toNat_digitChar ha,
    toNat_digitChar hb]

theorem getnum_twoDigits {n : Nat} (h : n < 100) (rest : List Char) (fixed : Bool) :
    getnum (twoDigits n ++ rest) fixed = some (n, rest) := by
  have h1 : n / 10 < 10 := by omega
  have h2 : n % 10 < 10 := by omega
  simp only [twoDigits, List.cons_append, List.nil_append, getnum_two h1 h2]
  congr 2
  omega

theorem digitsValue_fourDigits {n : Nat} (h : n < 10000) : digitsValue (fourDigits n) = n := by
  have h1 : n / 1000 < 10 := by omega
  have h2 : n / 100 % 10 < 10 := by omega
  have h3 : n / 10 % 10 < 10 := by omega
  have h4 : n % 10 < 10 := by omega
  simp only [digitsValue, fourDigits, List.foldl, toNat_digitChar h1, toNat_digitChar h2,
    toNat_digitChar h3, toNat_digitChar h4]
  omega

theorem all_isDigit_fourDigits {n : Nat} (h : n < 10000) :
    (fourDigits n).all isDigit = true := by
  have h1 : n / 1000 < 10 := by omega
  have h2 : n / 100 % 10 < 10 := by omega
  have h3 : n / 10 % 10 < 10 := by omega
  have h4 : n % 10 < 10 := by omega
  simp [fourDigits, isDigit_digitChar h1, isDigit_digitChar h2, isDigit_digitChar h3,
    isDigit_digitChar h4]

theorem skipLit_space_twoDigits (n : Nat) (h : n < 100) (rest : List Char) :
    skipLit (' ' :: (twoDigits n ++ rest)) ' ' = .ok (twoDigits n ++ rest) := by
  have h1 : n / 10 < 10 := by omega
  simp [skipLit, cutspace, twoDigits, digitChar_ne_space h1]

theorem parseSeconds_twoDigits (whole : String) {n : Nat} (h : n < 60) :
    parseSeconds whole (twoDigits n) = .ok (n, 0, []) := by
  have h' := getnum_twoDigits (show n < 100 by omega) [] true
  rw [List.append_nil] at h'
  simp [parseSeconds, h', Nat.not_le.mpr h]

/-- `time.Parse` reads back a date-time written in the layout. -/
theorem timeParse_formatDateTime {year month day hour min sec : Nat}
    (h : ValidDateTime year month day hour min sec) :
    timeParse (formatDateTime year month day hour min sec)
      = .ok (Date year month day hour min sec 0) := by
  obtain ⟨hy, ⟨hm1, hm2⟩, ⟨hd1, hd2⟩, hh, hmi, hs⟩ := h
  have hd3 : day < 100 := by
    have : daysIn month year ≤ 31 := by
      unfold daysIn
      split
      · omega
      · interval_cases month <;> simp [daysBefore]
    omega
  have hlen : (fourDigits year).length = 4 := rfl
  have htake : ∀ rest : List Char, (fourDigits year ++ rest).take 4 = fourDigits year := by
    intro rest; rfl
  have hdrop : ∀ rest : List Char, (fourDigits year ++ rest).drop 4 = rest := by
    intro rest; rfl
  have hskipDash : ∀ rest : List Char, skipLit ('-' :: rest) '-' = .ok rest := by
    intro rest; rfl
  have hskipColon : ∀ rest : List Char, skipLit (':' :: rest) ':' = .ok rest := by
    intro rest; rfl
  have hlen2 : ∀ n : Nat, (twoDigits n).length = 2 := fun _ => rfl
  have hmonth : ¬ (month = 0 ∨ 12 < month) := by omega
  have hday : ¬ (day < 1 ∨ daysIn month year < day) := by omega
  simp only [timeParse, formatDateTime, String.toList, htake, hdrop,
    all_isDigit_fourDigits hy, digitsValue_fourDigits hy, List.length_append, hlen, hlen2,
    List.length_cons, hskipDash, hskipColon, getnum_twoDigits (show month < 100 by omega),
    getnum_twoDigits hd3, getnum_twoDigits (show hour < 100 by omega),
    getnum_twoDigits (show min < 100 by omega), skipLit_space_twoDigits hour (by omega),
    parseSeconds_twoDigits _ hs, hmonth, hday, Nat.not_le.mpr hh, Nat.not_le.mpr hmi,
    if_false, ne_eq, not_true_eq_false]
  simp

theorem andThen_keepsDomain {step : Machine → Outcome} (h : KeepsDomain step) (o : Outcome) :
    (o.andThen step).machine.d.Domain = o.machine.d.Domain ∧
      (o.andThen step).machine.stdout = o.machine.stdout := by
  cases o with
  | ok m => exact h m
  | error e m => exact ⟨rfl, rfl⟩
  | panic m => exact ⟨rfl, rfl⟩

theorem keepsDomain_decodeStatus (ms : List (String × JVal)) :
    KeepsDomain (decodeStatus ms) := by
  intro m
  unfold decodeStatus
  split
  · exact ⟨rfl, rfl⟩
  · split <;> exact ⟨rfl, rfl⟩

theorem keepsDomain_decodeTLD (ms : List (String × JVal)) : KeepsDomain (decodeTLD ms) := by
  intro m
  unfold decodeTLD
  split
  · exact ⟨rfl, rfl⟩
  · split <;> exact ⟨rfl, rfl⟩

theorem keepsDomain_decodeCreateDate (ms : List (String × JVal)) :
    KeepsDomain (decodeCreateDate ms) := by
  intro m
  unfold decodeCreateDate
  split
  · split
    · exact ⟨rfl, rfl⟩
    · split <;> exact ⟨rfl, rfl⟩
  · exact ⟨rfl, rfl⟩

theorem keepsDomain_decodeExpireDate (ms : List (String × JVal)) :
    KeepsDomain (decodeExpireDate ms) := by
  intro m
  unfold decodeExpireDate
  split
  · exact ⟨rfl, rfl⟩
  · split
    · exact ⟨rfl, rfl⟩
    · split <;> exact ⟨rfl, rfl⟩

theorem keepsDomain_decodeSecurityLock (ms : List (String × JVal)) :
    KeepsDomain (decodeSecurityLock ms) := by
  intro m
  unfold decodeSecurityLock
  split
  · exact ⟨rfl, rfl⟩
  · split <;> exact ⟨rfl, rfl⟩

theorem keepsDomain_decodeWHOISPrivacy (ms : List (String × JVal)) :
    KeepsDomain (decodeWHOISPrivacy ms) := by
  intro m
  unfold decodeWHOISPrivacy
  split
  · exact ⟨rfl, rfl⟩
  · split <;> exact ⟨rfl, rfl⟩

theorem keepsDomain_decodeAutoRenew (ms : List (String × JVal)) :
    KeepsDomain (decodeAutoRenew ms) := by
  intro m
  unfold decodeAutoRenew
  split
  · exact ⟨rfl, rfl⟩
  · split <;> exact ⟨rfl, rfl⟩

theorem keepsDomain_decodeNotLocal (ms : List (String × JVal)) :
    KeepsDomain (decodeNotLocal ms) := by
  intro m
  unfold decodeNotLocal
  split
  · exact ⟨rfl, rfl⟩
  · split <;> exact ⟨rfl, rfl⟩

theorem keepsDomain_decodeLabelsField (ms : List (String × JVal)) :
    KeepsDomain (decodeLabelsField ms) := by
  intro m
  unfold decodeLabelsField
  split
  · split <;> exact ⟨rfl, rfl⟩
  · exact ⟨rfl, rfl⟩

/-- After the `domain` statement nothing writes `d.Domain` or standard output:
the call ends with what that statement left in them. -/
theorem decodeFields_domain (ms : List (String × JVal)) (m : Machine) :
    (decodeFields ms m).machine.d.Domain = (decodeDomainField ms m).machine.d.Domain ∧
      (decodeFields ms m).machine.stdout = (decodeDomainField ms m).machine.stdout := by
  unfold decodeFields
  have h9 := andThen_keepsDomain (keepsDomain_decodeLabelsField ms)
  have h8 := andThen_keepsDomain (keepsDomain_decodeNotLocal ms)
  have h7 := andThen_keepsDomain (keepsDomain_decodeAutoRenew ms)
  have h6 := andThen_keepsDomain (keepsDomain_decodeWHOISPrivacy ms)
  have h5 := andThen_keepsDomain (keepsDomain_decodeSecurityLock ms)
  have h4 := andThen_keepsDomain (keepsDomain_decodeExpireDate ms)
  have h3 := andThen_keepsDomain (keepsDomain_decodeCreateDate ms)
  have h2 := andThen_keepsDomain (keepsDomain_decodeTLD ms)
  have h1 := andThen_keepsDomain (keepsDomain_decodeStatus ms)
  constructor
  · rw [(h9 _).1, (h8 _).1, (h7 _).1, (h6 _).1, (h5 _).1, (h4 _).1, (h3 _).1, (h2 _).1,
      (h1 _).1]
  · rw [(h9 _).2, (h8 _).2, (h7 _).2, (h6 _).2, (h5 _).2, (h4 _).2, (h3 _).2, (h2 _).2,
      (h1 _).2]

/-- A failure of the `domain` statement ends the call with the receiver as it
was. -/
theorem decodeFields_domain_fails {ms : List (String × JVal)} (m : Machine)
    (h : ∀ s, objMapIndex ms "domain" ≠ some (.str s)) :
    decodeFields ms m = decodeDomainField ms m ∧ (decodeDomainField ms m).machine = m := by
  have hd : (∃ e, decodeDomainField ms m = .error e m) ∨ decodeDomainField ms m = .panic m := by
    unfold decodeDomainField
    cases hraw : objMapIndex ms "domain" with
    | none => exact Or.inr rfl
    | some raw =>
      cases raw with
      | str s => exact absurd hraw (h s)
      | null => exact absurd rfl (objMapIndex_ne_null hraw)
      | bool b => exact Or.inl ⟨_, rfl⟩
      | num lit => exact Or.inl ⟨_, rfl⟩
      | arr xs => exact Or.inl ⟨_, rfl⟩
      | obj xs => exact Or.inl ⟨_, rfl⟩
  rcases hd with ⟨e, he⟩ | hp
  · simp [decodeFields, he, Outcome.andThen, Outcome.machine]
  · simp [decodeFields, hp, Outcome.andThen, Outcome.machine]

theorem andThen_eq_ok {o : Outcome} {step : Machine → Outcome} {m' : Machine}
    (h : o.andThen step = .ok m') : ∃ m1, o = .ok m1 ∧ step m1 = .ok m' := by
  cases o with
  | ok m1 => exact ⟨m1, rfl, h⟩
  | error e m1 => simp [Outcome.andThen] at h
  | panic m1 => simp [Outcome.andThen] at h

/-- A call that returns `nil` has completed each of its ten statements. -/
theorem decodeFields_ok_inv {ms : List (String × JVal)} {m m' : Machine}
    (h : decodeFields ms m = .ok m') :
    ∃ m1 m2 m3 m4 m5 m6 m7 m8 m9,
      decodeDomainField ms m = .ok m1 ∧ decodeStatus ms m1 = .ok m2 ∧
      decodeTLD ms m2 = .ok m3 ∧ decodeCreateDate ms m3 = .ok m4 ∧
      decodeExpireDate ms m4 = .ok m5 ∧ decodeSecurityLock ms m5 = .ok m6 ∧
      decodeWHOISPrivacy ms m6 = .ok m7 ∧ decodeAutoRenew ms m7 = .ok m8 ∧
      decodeNotLocal ms m8 = .ok m9 ∧ decodeLabelsField ms m9 = .ok m' := by
  unfold decodeFields at h
  obtain ⟨m9, h, h10⟩ := andThen_eq_ok h
  obtain ⟨m8, h, h9⟩ := andThen_eq_ok h
  obtain ⟨m7, h, h8⟩ := andThen_eq_ok h
  obtain ⟨m6, h, h7⟩ := andThen_eq_ok h
  obtain ⟨m5, h, h6⟩ := andThen_eq_ok h
  obtain ⟨m4, h, h5⟩ := andThen_eq_ok h
  obtain ⟨m3, h, h4⟩ := andThen_eq_ok h
  obtain ⟨m2, h, h3⟩ := andThen_eq_ok h
  obtain ⟨m1, h, h2⟩ := andThen_eq_ok h
  exact ⟨m1, m2, m3, m4, m5, m6, m7, m8, m9, h, h2, h3, h4, h5, h6, h7, h8, h9, h10⟩

/-- With a required key missing, the statement of its field cannot complete. -/
theorem decodeFields_ne_ok_of_absent {ms : List (String × JVal)} (m m' : Machine) (f : Field)
    (hreq : f.required = true) (habsent : objMapIndex ms f.key = none) :
    decodeFields ms m ≠ .ok m' := by
  intro h
  obtain ⟨m1, m2, m3, m4, m5, m6, m7, m8, m9, h1, h2, h3, h4, h5, h6, h7, h8, h9, _⟩ :=
    decodeFields_ok_inv h
  cases f with
  | domain => simp [decodeDomainField, Field.key] at h1 habsent; simp [habsent] at h1
  | status => simp [decodeStatus, Field.key] at h2 habsent; simp [habsent] at h2
  | tld => simp [decodeTLD, Field.key] at h3 habsent; simp [habsent] at h3
  | createDate => simp [Field.required] at hreq
  | expireDate => simp [decodeExpireDate, Field.key] at h5 habsent; simp [habsent] at h5
  | securityLock => simp [decodeSecurityLock, Field.key] at h6 habsent; simp [habsent] at h6
  | whoisPrivacy => simp [decodeWHOISPrivacy, Field.key] at h7 habsent; simp [habsent] at h7
  | autoRenew => simp [decodeAutoRenew, Field.key] at h8 habsent; simp [habsent] at h8
  | notLocal => simp [decodeNotLocal, Field.key] at h9 habsent; simp [habsent] at h9
  | labels => simp [Field.required] at hreq

/-- With a required key missing and every field before it valid, the call
panics at the dereference of the missing map entry. -/
theorem decodeFields_panics_of_absent {ms : List (String × JVal)} (m : Machine) (f : Field)
    (hreq : f.required = true) (habsent : objMapIndex ms f.key = none)
    (hearlier : ∀ g : Field, g.index < f.index → g.Valid ms) :
    ∃ m', decodeFields ms m = .panic m' := by
  cases f with
    | domain =>
      simp only [Field.key] at habsent
      simp only [decodeFields, Outcome.andThen, decodeDomainField, habsent]
      exact ⟨_, rfl⟩
    | status =>
      obtain ⟨s_domain, h_domain⟩ := hearlier .domain (by decide)
      simp only [Field.key] at habsent
      simp only [decodeFields, Outcome.andThen, decodeDomainField_str m h_domain, decodeStatus,
        habsent]
      exact ⟨_, rfl⟩
    | tld =>
      obtain ⟨s_domain, h_domain⟩ := hearlier .domain (by decide)
      obtain ⟨s_status, h_status⟩ := hearlier .status (by decide)
      simp only [Field.key] at habsent
      simp only [decodeFields, Outcome.andThen, decodeDomainField_str m h_domain,
        decodeStatus_str _ h_status, decodeTLD, habsent]
      exact ⟨_, rfl⟩
    | createDate => simp [Field.required] at hreq
    | expireDate =>
      obtain ⟨s_domain, h_domain⟩ := hearlier .domain (by decide)
      obtain ⟨s_status, h_status⟩ := hearlier .status (by decide)
      obtain ⟨s_tld, h_tld⟩ := hearlier .tld (by decide)
      obtain ⟨t_c, h_c⟩ := hearlier .createDate (by decide)
      simp only [Field.key] at habsent
      simp only [decodeFields, Outcome.andThen, decodeDomainField_str m h_domain,
        decodeStatus_str _ h_status, decodeTLD_str _ h_tld, decodeCreateDate_is _ h_c,
        decodeExpireDate, habsent]
      exact ⟨_, rfl⟩
    | securityLock =>
      obtain ⟨s_domain, h_domain⟩ := hearlier .domain (by decide)
      obtain ⟨s_status, h_status⟩ := hearlier .status (by decide)
      obtain ⟨s_tld, h_tld⟩ := hearlier .tld (by decide)
      obtain ⟨t_c, h_c⟩ := hearlier .createDate (by decide)
      obtain ⟨s_e, t_e, h_e⟩ := hearlier .expireDate (by decide)
      simp only [Field.key] at habsent
      simp only [decodeFields, Outcome.andThen, decodeDomainField_str m h_domain,
        decodeStatus_str _ h_status, decodeTLD_str _ h_tld, decodeCreateDate_is _ h_c,
        decodeExpireDate_is _ ⟨s_e, h_e⟩, decodeSecurityLock, habsent]
      exact ⟨_, rfl⟩
    | whoisPrivacy =>
      obtain ⟨s_domain, h_domain⟩ := hearlier .domain (by decide)
      obtain ⟨s_status, h_status⟩ := hearlier .status (by decide)
      obtain ⟨s_tld, h_tld⟩ := hearlier .tld (by decide)
      obtain ⟨t_c, h_c⟩ := hearlier .createDate (by decide)
      obtain ⟨s_e, t_e, h_e⟩ := hearlier .expireDate (by decide)
      obtain ⟨v_securityLock, hq_securityLock⟩ := hearlier .securityLock (by decide)
      obtain ⟨r_securityLock, hr_securityLock, hb_securityLock⟩ := quasiBool_of_quasiIs "SecurityLock response not a boolean" hq_securityLock
      simp only [Field.key] at habsent
      simp only [decodeFields, Outcome.andThen, decodeDomainField_str m h_domain,
        decodeStatus_str _ h_status, decodeTLD_str _ h_tld, decodeCreateDate_is _ h_c,
        decodeExpireDate_is _ ⟨s_e, h_e⟩, decodeSecurityLock, hr_securityLock, hb_securityLock,
        decodeWHOISPrivacy, habsent]
      exact ⟨_, rfl⟩
    | autoRenew =>
      obtain ⟨s_domain, h_domain⟩ := hearlier .domain (by decide)
      obtain ⟨s_status, h_status⟩ := hearlier .status (by decide)
      obtain ⟨s_tld, h_tld⟩ := hearlier .tld (by decide)
      obtain ⟨t_c, h_c⟩ := hearlier .createDate (by decide)
      obtain ⟨s_e, t_e, h_e⟩ := hearlier .expireDate (by decide)
      obtain ⟨v_securityLock, hq_securityLock⟩ := hearlier .securityLock (by decide)
      obtain ⟨r_securityLock, hr_securityLock, hb_securityLock⟩ := quasiBool_of_quasiIs "SecurityLock response not a boolean" hq_securityLock
      obtain ⟨v_whoisPrivacy, hq_whoisPrivacy⟩ := hearlier .whoisPrivacy (by decide)
      obtain ⟨r_whoisPrivacy, hr_whoisPrivacy, hb_whoisPrivacy⟩ := quasiBool_of_quasiIs "WhoisPrivacy response not a boolean" hq_whoisPrivacy
      simp only [Field.key] at habsent
      simp only [decodeFields, Outcome.andThen, decodeDomainField_str m h_domain,
        decodeStatus_str _ h_status, decodeTLD_str _ h_tld, decodeCreateDate_is _ h_c,
        decodeExpireDate_is _ ⟨s_e, h_e⟩, decodeSecurityLock, hr_securityLock, hb_securityLock,
        decodeWHOISPrivacy, hr_whoisPrivacy, hb_whoisPrivacy, decodeAutoRenew, habsent]
      exact ⟨_, rfl⟩
    | notLocal =>
      obtain ⟨s_domain, h_domain⟩ := hearlier .domain (by decide)
      obtain ⟨s_status, h_status⟩ := hearlier .status (by decide)
      obtain ⟨s_tld, h_tld⟩ := hearlier .tld (by decide)
      obtain ⟨t_c, h_c⟩ := hearlier .createDate (by decide)
      obtain ⟨s_e, t_e, h_e⟩ := hearlier .expireDate (by decide)
      obtain ⟨v_securityLock, hq_securityLock⟩ := hearlier .securityLock (by decide)
      obtain ⟨r_securityLock, hr_securityLock, hb_securityLock⟩ := quasiBool_of_quasiIs "SecurityLock response not a boolean" hq_securityLock
      obtain ⟨v_whoisPrivacy, hq_whoisPrivacy⟩ := hearlier .whoisPrivacy (by decide)
      obtain ⟨r_whoisPrivacy, hr_whoisPrivacy, hb_whoisPrivacy⟩ := quasiBool_of_quasiIs "WhoisPrivacy response not a boolean" hq_whoisPrivacy
      obtain ⟨v_autoRenew, hq_autoRenew⟩ := hearlier .autoRenew (by decide)
      obtain ⟨r_autoRenew, hr_autoRenew, hb_autoRenew⟩ := quasiBool_of_quasiIs "AutoRenew response not a boolean" hq_autoRenew
      simp only [Field.key] at habsent
      simp only [decodeFields, Outcome.andThen, decodeDomainField_str m h_domain,
        decodeStatus_str _ h_status, decodeTLD_str _ h_tld, decodeCreateDate_is _ h_c,
        decodeExpireDate_is _ ⟨s_e, h_e⟩, decodeSecurityLock, hr_securityLock, hb_securityLock,
        decodeWHOISPrivacy, hr_whoisPrivacy, hb_whoisPrivacy, decodeAutoRenew, hr_autoRenew,
        hb_autoRenew, decodeNotLocal, habsent]
      exact ⟨_, rfl⟩
    | labels => simp [Field.required] at hreq

/-! ## Lemmas on the order of the ten statements -/

theorem decodeFields_eq_runSteps (ms : List (String × JVal)) (m : Machine) :
    decodeFields ms m = runSteps ms Field.all (.ok m) := rfl

theorem runSteps_append (ms : List (String × JVal)) (fs gs : List Field) (o : Outcome) :
    runSteps ms (fs ++ gs) o = runSteps ms gs (runSteps ms fs o) := by
  simp [runSteps, List.foldl_append]

theorem runSteps_error (ms : List (String × JVal)) (fs : List Field) (e : GoError)
    (m : Machine) : runSteps ms fs (.error e m) = .error e m := by
  induction fs with
  | nil => rfl
  | cons g gs ih => simpa [runSteps, Outcome.andThen] using ih

theorem runSteps_panic (ms : List (String × JVal)) (fs : List Field) (m : Machine) :
    runSteps ms fs (.panic m) = .panic m := by
  induction fs with
  | nil => rfl
  | cons g gs ih => simpa [runSteps, Outcome.andThen] using ih

theorem runSteps_cons (ms : List (String × JVal)) (g : Field) (fs : List Field) (m : Machine) :
    runSteps ms (g :: fs) (.ok m) = runSteps ms fs (g.step ms m) := rfl

/-- A statement that does not complete ends the run. -/
theorem runSteps_of_not_ok (ms : List (String × JVal)) (fs : List Field) (o : Outcome)
    (h : ∀ m', o ≠ .ok m') : runSteps ms fs o = o := by
  cases o with
  | ok m => exact absurd rfl (h m)
  | error e m => exact runSteps_error ms fs e m
  | panic m => exact runSteps_panic ms fs m

theorem objMapIndex_of_agreeOn {ms1 ms2 : List (String × JVal)} {key : String}
    (h : AgreeOn ms1 ms2 key) : objMapIndex ms1 key = objMapIndex ms2 key := by
  unfold objMapIndex
  rw [h]

/-- A statement reads the object only through the map entry of its own key. -/
theorem step_congr {ms1 ms2 : List (String × JVal)} (g : Field)
    (h : objMapIndex ms1 g.key = objMapIndex ms2 g.key) : g.step ms1 = g.step ms2 := by
  funext m
  cases g <;>
    simp only [Field.key] at h <;>
    simp only [Field.step, decodeDomainField, decodeStatus, decodeTLD, decodeCreateDate,
      decodeExpireDate, decodeSecurityLock, decodeWHOISPrivacy, decodeAutoRenew, decodeNotLocal,
      decodeLabelsField, h]

theorem runSteps_congr {ms1 ms2 : List (String × JVal)} (fs : List Field)
    (h : ∀ g ∈ fs, objMapIndex ms1 g.key = objMapIndex ms2 g.key) (o : Outcome) :
    runSteps ms1 fs o = runSteps ms2 fs o := by
  induction fs generalizing o with
  | nil => rfl
  | cons g gs ih =>
    have hg := step_congr g (h g (List.mem_cons_self _ _))
    show runSteps ms1 gs (o.andThen (g.step ms1)) = runSteps ms2 gs (o.andThen (g.step ms2))
    rw [hg]
    exact ih (fun g' hg' => h g' (List.mem_cons_of_mem _ hg')) _

/-- Whether the elements of an array decode without error does not depend on
what the slice held. -/
theorem decodeLabelMember_snd (acc acc' : DomainLabel × Option GoError) (x : String × JVal)
    (h : acc.2 = acc'.2) : (decodeLabelMember acc x).2 = (decodeLabelMember acc' x).2 := by
  unfold decodeLabelMember
  cases labelFieldOf x.1 with
  | none => exact h
  | some f =>
    cases x.2 <;> simp only [h]

theorem decodeLabel_members_snd (members : List (String × JVal))
    (acc acc' : DomainLabel × Option GoError) (h : acc.2 = acc'.2) :
    (members.foldl decodeLabelMember acc).2 = (members.foldl decodeLabelMember acc').2 := by
  induction members generalizing acc acc' with
  | nil => exact h
  | cons x xs ih => exact ih _ _ (decodeLabelMember_snd acc acc' x h)

theorem decodeLabel_snd (cur cur' : DomainLabel) (saved : Option GoError) (v : JVal) :
    (decodeLabel cur saved v).2 = (decodeLabel cur' saved v).2 := by
  cases v <;> simp only [decodeLabel]
  exact decodeLabel_members_snd _ _ _ rfl

theorem decodeLabels_snd (items : List JVal) (old old' : List DomainLabel)
    (saved : Option GoError) :
    (decodeLabels items old saved).2 = (decodeLabels items old' saved).2 := by
  induction items generalizing old old' saved with
  | nil => rfl
  | cons v vs ih =>
    simp only [decodeLabels]
    rw [decodeLabel_snd (old.headD DomainLabel.zero) (old'.headD DomainLabel.zero) saved v]
    exact ih _ _ _

theorem jsonUnmarshalLabels_snd (raw : JVal) (cur cur' : Option (List DomainLabel)) :
    (jsonUnmarshalLabels raw cur).2 = (jsonUnmarshalLabels raw cur').2 := by
  cases raw <;> simp only [jsonUnmarshalLabels]
  exact decodeLabels_snd _ _ _ _

/-- The labels decode without error into one slice exactly when they do into
any other. -/
theorem labelsAre_any {ms : List (String × JVal)} {cur : Option (List DomainLabel)}
    {labels : Option (List DomainLabel)} (h : LabelsAre ms cur labels)
    (cur' : Option (List DomainLabel)) : ∃ labels', LabelsAre ms cur' labels' := by
  rcases h with ⟨habs, _⟩ | ⟨raw, hraw, hl⟩
  · exact ⟨none, Or.inl ⟨habs, rfl⟩⟩
  · refine ⟨(jsonUnmarshalLabels raw cur').1, Or.inr ⟨raw, hraw, ?_⟩⟩
    have h2 := jsonUnmarshalLabels_snd raw cur' cur
    rw [hl] at h2
    exact Prod.ext rfl h2

theorem labelsAre_unique {ms : List (String × JVal)} {cur l l' : Option (List DomainLabel)}
    (h : LabelsAre ms cur l) (h' : LabelsAre ms cur l') : l = l' := by
  rcases h with ⟨habs, hl⟩ | ⟨raw, hraw, hl⟩ <;> rcases h' with ⟨habs', hl'⟩ | ⟨raw', hraw', hl'⟩
  · rw [hl, hl']
  · rw [habs] at hraw'; simp at hraw'
  · rw [habs'] at hraw; simp at hraw
  · rw [hraw] at hraw'
    simp only [Option.some.injEq] at hraw'
    subst hraw'
    rw [hl] at hl'
    simp only [Prod.mk.injEq, and_true] at hl'
    exact hl'

/-- A value the quasi-boolean block accepts denotes the integer 0 or 1. -/
theorem intValue_of_quasiBool {raw : JVal} {msg : String} {v : Bool} (hnull : raw ≠ .null)
    (h : quasiBool raw msg = .ok v) : intValue raw = some (if v then 1 else 0) := by
  cases raw with
  | num lit =>
    rw [quasiBool_num] at h
    simp only [intValue, String.toList]
    cases hp : parseInt64 lit.data with
    | error f => rw [hp] at h; simp at h
    | ok n =>
      rw [hp] at h
      simp only at h
      by_cases h0 : n = 0
      · subst h0
        simp only [if_true, Except.ok.injEq] at h
        subst h
        rfl
      · by_cases h1 : n = 1
        · subst h1
          simp only [one_ne_zero, if_true, if_false, Except.ok.injEq] at h
          subst h
          rfl
        · simp [h0, h1] at h
  | str s =>
    rw [quasiBool_str] at h
    simp only [intValue, String.toList]
    cases hp : parseInt64 s.data with
    | error f => rw [hp] at h; cases f <;> simp at h
    | ok n =>
      rw [hp] at h
      simp only at h
      by_cases h0 : n = 0
      · subst h0
        simp only [if_true, Except.ok.injEq] at h
        subst h
        rfl
      · by_cases h1 : n = 1
        · subst h1
          simp only [one_ne_zero, if_true, if_false, Except.ok.injEq] at h
          subst h
          rfl
        · simp [h0, h1] at h
  | null => exact absurd rfl hnull
  | bool b => simp [quasiBool, jsonUnmarshalInt, jsonUnmarshalString] at h
  | arr xs => simp [quasiBool, jsonUnmarshalInt, jsonUnmarshalString] at h
  | obj xs => simp [quasiBool, jsonUnmarshalInt, jsonUnmarshalString] at h

/-- A field is valid exactly when its statement completes, on any receiver. -/
theorem step_ok_iff_valid (ms : List (String × JVal)) (g : Field) (m : Machine) :
    (∃ m', g.step ms m = .ok m') ↔ g.Valid ms := by
  cases g with
  | domain =>
    simp only [Field.step, Field.Valid, decodeDomainField]
    constructor
    · rintro ⟨m', h⟩
      cases hraw : objMapIndex ms "domain" with
      | none => rw [hraw] at h; simp at h
      | some raw =>
        rw [hraw] at h
        cases raw with
        | str s => exact ⟨s, rfl⟩
        | null => exact absurd rfl (objMapIndex_ne_null hraw)
        | bool b => simp [jsonUnmarshalString] at h
        | num lit => simp [jsonUnmarshalString] at h
        | arr xs => simp [jsonUnmarshalString] at h
        | obj xs => simp [jsonUnmarshalString] at h
    · rintro ⟨s, hs⟩
      rw [hs]
      exact ⟨_, rfl⟩
  | status =>
    simp only [Field.step, Field.Valid, decodeStatus]
    constructor
    · rintro ⟨m', h⟩
      cases hraw : objMapIndex ms "status" with
      | none => rw [hraw] at h; simp at h
      | some raw =>
        rw [hraw] at h
        cases raw with
        | str s => exact ⟨s, rfl⟩
        | null => exact absurd rfl (objMapIndex_ne_null hraw)
        | bool b => simp [jsonUnmarshalString] at h
        | num lit => simp [jsonUnmarshalString] at h
        | arr xs => simp [jsonUnmarshalString] at h
        | obj xs => simp [jsonUnmarshalString] at h
    · rintro ⟨s, hs⟩
      rw [hs]
      exact ⟨_, rfl⟩
  | tld =>
    simp only [Field.step, Field.Valid, decodeTLD]
    constructor
    · rintro ⟨m', h⟩
      cases hraw : objMapIndex ms "tld" with
      | none => rw [hraw] at h; simp at h
      | some raw =>
        rw [hraw] at h
        cases raw with
        | str s => exact ⟨s, rfl⟩
        | null => exact absurd rfl (objMapIndex_ne_null hraw)
        | bool b => simp [jsonUnmarshalString] at h
        | num lit => simp [jsonUnmarshalString] at h
        | arr xs => simp [jsonUnmarshalString] at h
        | obj xs => simp [jsonUnmarshalString] at h
    · rintro ⟨s, hs⟩
      rw [hs]
      exact ⟨_, rfl⟩
  | createDate =>
    simp only [Field.step, Field.Valid]
    constructor
    · rintro ⟨m', h⟩
      unfold decodeCreateDate at h
      cases hraw : objMapIndex ms "createDate" with
      | none => exact ⟨_, Or.inl ⟨hraw, rfl⟩⟩
      | some raw =>
        rw [hraw] at h
        cases raw with
        | str s =>
          simp only [jsonUnmarshalString] at h
          cases ht : timeParse s with
          | error e => rw [ht] at h; simp at h
          | ok t => exact ⟨t, Or.inr ⟨s, hraw, ht⟩⟩
        | null => exact absurd rfl (objMapIndex_ne_null hraw)
        | bool b => simp [jsonUnmarshalString] at h
        | num lit => simp [jsonUnmarshalString] at h
        | arr xs => simp [jsonUnmarshalString] at h
        | obj xs => simp [jsonUnmarshalString] at h
    · rintro ⟨t, ht⟩
      exact ⟨_, decodeCreateDate_is m ht⟩
  | expireDate =>
    simp only [Field.step, Field.Valid]
    constructor
    · rintro ⟨m', h⟩
      unfold decodeExpireDate at h
      cases hraw : objMapIndex ms "expireDate" with
      | none => rw [hraw] at h; simp at h
      | some raw =>
        rw [hraw] at h
        cases raw with
        | str s =>
          simp only [jsonUnmarshalString] at h
          cases ht : timeParse s with
          | error e => rw [ht] at h; simp at h
          | ok t => exact ⟨s, t, rfl, ht⟩
        | null => exact absurd rfl (objMapIndex_ne_null hraw)
        | bool b => simp [jsonUnmarshalString] at h
        | num lit => simp [jsonUnmarshalString] at h
        | arr xs => simp [jsonUnmarshalString] at h
        | obj xs => simp [jsonUnmarshalString] at h
    · rintro ⟨s, t, ht⟩
      exact ⟨_, decodeExpireDate_is m ⟨s, ht⟩⟩
  | securityLock =>
    simp only [Field.step, Field.Valid]
    constructor
    · rintro ⟨m', h⟩
      unfold decodeSecurityLock at h
      cases hraw : objMapIndex ms "securityLock" with
      | none => rw [hraw] at h; simp at h
      | some raw =>
        rw [hraw] at h
        cases hq : quasiBool raw "SecurityLock response not a boolean" with
        | error e => simp [hq] at h
        | ok v => exact ⟨v, raw, hraw, intValue_of_quasiBool (objMapIndex_ne_null hraw) hq⟩
    · rintro ⟨v, hv⟩
      obtain ⟨raw, hraw, hq⟩ := quasiBool_of_quasiIs "SecurityLock response not a boolean" hv
      unfold decodeSecurityLock
      rw [hraw]
      simp only [hq]
      exact ⟨_, rfl⟩
  | whoisPrivacy =>
    simp only [Field.step, Field.Valid]
    constructor
    · rintro ⟨m', h⟩
      unfold decodeWHOISPrivacy at h
      cases hraw : objMapIndex ms "whoisPrivacy" with
      | none => rw [hraw] at h; simp at h
      | some raw =>
        rw [hraw] at h
        cases hq : quasiBool raw "WhoisPrivacy response not a boolean" with
        | error e => simp [hq] at h
        | ok v => exact ⟨v, raw, hraw, intValue_of_quasiBool (objMapIndex_ne_null hraw) hq⟩
    · rintro ⟨v, hv⟩
      obtain ⟨raw, hraw, hq⟩ := quasiBool_of_quasiIs "WhoisPrivacy response not a boolean" hv
      unfold decodeWHOISPrivacy
      rw [hraw]
      simp only [hq]
      exact ⟨_, rfl⟩
  | autoRenew =>
    simp only [Field.step, Field.Valid]
    constructor
    · rintro ⟨m', h⟩
      unfold decodeAutoRenew at h
      cases hraw : objMapIndex ms "autoRenew" with
      | none => rw [hraw] at h; simp at h
      | some raw =>
        rw [hraw] at h
        cases hq : quasiBool raw "AutoRenew response not a boolean" with
        | error e => simp [hq] at h
        | ok v => exact ⟨v, raw, hraw, intValue_of_quasiBool (objMapIndex_ne_null hraw) hq⟩
    · rintro ⟨v, hv⟩
      obtain ⟨raw, hraw, hq⟩ := quasiBool_of_quasiIs "AutoRenew response not a boolean" hv
      unfold decodeAutoRenew
      rw [hraw]
      simp only [hq]
      exact ⟨_, rfl⟩
  | notLocal =>
    simp only [Field.step, Field.Valid]
    constructor
    · rintro ⟨m', h⟩
      unfold decodeNotLocal at h
      cases hraw : objMapIndex ms "notLocal" with
      | none => rw [hraw] at h; simp at h
      | some raw =>
        rw [hraw] at h
        cases hq : quasiBool raw "NotLocal response not a boolean" with
        | error e => simp [hq] at h
        | ok v => exact ⟨v, raw, hraw, intValue_of_quasiBool (objMapIndex_ne_null hraw) hq⟩
    · rintro ⟨v, hv⟩
      obtain ⟨raw, hraw, hq⟩ := quasiBool_of_quasiIs "NotLocal response not a boolean" hv
      unfold decodeNotLocal
      rw [hraw]
      simp only [hq]
      exact ⟨_, rfl⟩
  | labels =>
    simp only [Field.step, Field.Valid]
    constructor
    · rintro ⟨m', h⟩
      unfold decodeLabelsField at h
      cases hraw : objMapIndex ms "labels" with
      | none => exact ⟨none, Or.inl ⟨hraw, rfl⟩⟩
      | some raw =>
        rw [hraw] at h
        have h2 := jsonUnmarshalLabels_snd raw m.d.Labels none
        cases hr : jsonUnmarshalLabels raw m.d.Labels with
        | mk l e =>
          simp only [hr] at h h2
          cases e with
          | some e => simp at h
          | none =>
            exact ⟨(jsonUnmarshalLabels raw none).1, Or.inr ⟨raw, hraw, Prod.ext rfl h2.symm⟩⟩
    · rintro ⟨l, hl⟩
      obtain ⟨l', hl'⟩ := labelsAre_any hl m.d.Labels
      exact ⟨_, decodeLabelsField_are m hl'⟩

theorem runSteps_valid {ms : List (String × JVal)} (fs : List Field)
    (h : ∀ g ∈ fs, g.Valid ms) (m : Machine) : ∃ m', runSteps ms fs (.ok m) = .ok m' := by
  induction fs generalizing m with
  | nil => exact ⟨m, rfl⟩
  | cons g gs ih =>
    obtain ⟨m1, hm1⟩ := (step_ok_iff_valid ms g m).2 (h g (List.mem_cons_self _ _))
    rw [runSteps_cons, hm1]
    exact ih (fun g' hg' => h g' (List.mem_cons_of_mem _ hg')) m1

theorem runSteps_ok_inv {ms : List (String × JVal)} (fs : List Field) (m m' : Machine)
    (h : runSteps ms fs (.ok m) = .ok m') : ∀ g ∈ fs, g.Valid ms := by
  induction fs generalizing m with
  | nil => intro g hg; simp at hg
  | cons g gs ih =>
    rw [runSteps_cons] at h
    cases hstep : g.step ms m with
    | ok m1 =>
      rw [hstep] at h
      intro g' hg'
      rcases List.mem_cons.1 hg' with rfl | hmem
      · exact (step_ok_iff_valid ms g' m).1 ⟨m1, hstep⟩
      · exact ih m1 h g' hmem
    | error e m1 => rw [hstep, runSteps_error] at h; simp at h
    | panic m1 => rw [hstep, runSteps_panic] at h; simp at h

theorem field_mem_all (g : Field) : g ∈ Field.all := by cases g <;> decide

/-- The call returns `nil` exactly when each of the ten fields is valid. -/
theorem decodeFields_ok_iff_valid (ms : List (String × JVal)) (m : Machine) :
    (∃ m', decodeFields ms m = .ok m') ↔ ∀ g : Field, g.Valid ms := by
  rw [decodeFields_eq_runSteps]
  constructor
  · rintro ⟨m', h⟩ g
    exact runSteps_ok_inv Field.all m m' h g (field_mem_all g)
  · intro h
    exact runSteps_valid Field.all (fun g _ => h g) m

theorem field_all_split (f : Field) :
    Field.all = Field.all.take f.index ++ f :: Field.all.drop (f.index + 1) := by
  cases f <;> rfl

theorem index_lt_of_mem_take (f g : Field) (h : g ∈ Field.all.take f.index) :
    g.index < f.index := by
  revert h
  cases f <;> cases g <;> decide

theorem step_present_not_panic {ms : List (String × JVal)} {g : Field} {raw : JVal}
    (h : objMapIndex ms g.key = some raw) (m m' : Machine) : g.step ms m ≠ .panic m' := by
  cases g <;> simp only [Field.key] at h <;>
    simp only [Field.step, decodeDomainField, decodeStatus, decodeTLD, decodeCreateDate,
      decodeExpireDate, decodeSecurityLock, decodeWHOISPrivacy, decodeAutoRenew, decodeNotLocal,
      decodeLabelsField, h] <;>
    repeat' split <;> simp

theorem step_absent {ms : List (String × JVal)} {g : Field}
    (h : objMapIndex ms g.key = none) (m : Machine) :
    (g.required = true → g.step ms m = .panic m) ∧ (g.required = false → g.Valid ms) := by
  cases g <;> simp only [Field.key] at h <;>
    simp only [Field.step, decodeDomainField, decodeStatus, decodeTLD, decodeCreateDate,
      decodeExpireDate, decodeSecurityLock, decodeWHOISPrivacy, decodeAutoRenew, decodeNotLocal,
      decodeLabelsField, h, Field.required, Field.Valid] <;> simp
  · exact ⟨_, Or.inl ⟨h, rfl⟩⟩
  · exact ⟨_, Or.inl ⟨h, rfl⟩⟩

/-- The run up to and including the first invalid field: the fields before it
complete, its own statement does not, and that is how the call ends. -/
theorem decodeFields_first_invalid {ms : List (String × JVal)} (m : Machine) (f : Field)
    (hearlier : ∀ g : Field, g.index < f.index → g.Valid ms) (hinvalid : ¬ f.Valid ms) :
    ∃ mf, runSteps ms (Field.all.take f.index) (.ok m) = .ok mf ∧
      decodeFields ms m = f.step ms mf ∧ ∀ m', f.step ms mf ≠ .ok m' := by
  obtain ⟨mf, hmf⟩ := runSteps_valid (Field.all.take f.index)
    (fun g hg => hearlier g (index_lt_of_mem_take f g hg)) m
  have hnot : ∀ m', f.step ms mf ≠ .ok m' := fun m' h =>
    hinvalid ((step_ok_iff_valid ms f mf).1 ⟨m', h⟩)
  refine ⟨mf, hmf, ?_, hnot⟩
  rw [decodeFields_eq_runSteps, field_all_split f, runSteps_append, hmf, runSteps_cons]
  exact runSteps_of_not_ok ms _ _ hnot

theorem valid_of_index_lt_securityLock {ms : List (String × JVal)} {dom st tld : String}
    {create expire : Time} (hp : PlainFields ms dom st tld expire) (hc : CreateDateIs ms create)
    (g : Field) (hg : g.index < Field.securityLock.index) : g.Valid ms := by
  cases g with
  | domain => exact ⟨dom, hp.domain⟩
  | status => exact ⟨st, hp.status⟩
  | tld => exact ⟨tld, hp.tld⟩
  | createDate => exact ⟨create, hc⟩
  | expireDate =>
    obtain ⟨s, hs, ht⟩ := hp.expireDate
    exact ⟨s, expire, hs, ht⟩
  | securityLock => exact absurd hg (by decide)
  | whoisPrivacy => exact absurd hg (by decide)
  | autoRenew => exact absurd hg (by decide)
  | notLocal => exact absurd hg (by decide)
  | labels => exact absurd hg (by decide)

/-- An input the call accepts is the text of a JSON object. -/
theorem object_of_unmarshal_ok {m m' : Machine} {b : String}
    (h : Domain.UnmarshalJSON m b = .ok m') : ∃ ms, parseJSON b = some (.obj ms) := by
  unfold Domain.UnmarshalJSON jsonUnmarshalObjMap at h
  cases hp : parseJSON b with
  | none => rw [hp] at h; simp at h
  | some v =>
    rw [hp] at h
    cases v with
    | obj ms => exact ⟨ms, rfl⟩
    | null =>
      have hpanic : decodeFields [] m = .panic m := rfl
      simp only [hpanic] at h
      exact absurd h (by simp)
    | bool v => simp at h
    | num v => simp at h
    | str v => simp at h
    | arr v => simp at h

/-- What a call that returns `nil` has stored: every field but `Labels` is
read off the object, and `Labels` is decoded into what the receiver held. -/
theorem decodeFields_ok_values {ms : List (String × JVal)} {m r : Machine}
    (h : decodeFields ms m = .ok r) :
    ∃ dom st tld create expire v1 v2 v3 v4,
      PlainFields ms dom st tld expire ∧ CreateDateIs ms create ∧ QuasiFields ms v1 v2 v3 v4 ∧
      ∀ n : Machine, ∃ labels, LabelsAre ms n.d.Labels labels ∧
        decodeFields ms n = .ok
          { d := { Domain := dom, Status := st, TLD := tld, CreateDate := create,
                   ExpireDate := expire, SecurityLock := v1, WHOISPrivacy := v2,
                   AutoRenew := v3, NotLocal := v4, Labels := labels },
            stdout := n.stdout ++ dom ++ "\n" } := by
  have hv := (decodeFields_ok_iff_valid ms m).1 ⟨r, h⟩
  obtain ⟨dom, hdom⟩ := hv .domain
  obtain ⟨st, hst⟩ := hv .status
  obtain ⟨tld, htld⟩ := hv .tld
  obtain ⟨create, hc⟩ := hv .createDate
  obtain ⟨es, expire, hes, het⟩ := hv .expireDate
  obtain ⟨v1, h1⟩ := hv .securityLock
  obtain ⟨v2, h2⟩ := hv .whoisPrivacy
  obtain ⟨v3, h3⟩ := hv .autoRenew
  obtain ⟨v4, h4⟩ := hv .notLocal
  obtain ⟨l0, hl0⟩ := hv .labels
  have hp : PlainFields ms dom st tld expire := ⟨hdom, hst, htld, ⟨es, hes, het⟩⟩
  have hq : QuasiFields ms v1 v2 v3 v4 := ⟨h1, h2, h3, h4⟩
  refine ⟨dom, st, tld, create, expire, v1, v2, v3, v4, hp, hc, hq, fun n => ?_⟩
  obtain ⟨l, hl⟩ := labelsAre_any hl0 n.d.Labels
  exact ⟨l, hl, decodeFields_valid n hp hc hq hl⟩

/-! ## Lemmas on `strconv.Atoi` -/

theorem parseSeconds_error_shape {whole : String} {v : List Char} {e : GoError}
    (h : parseSeconds whole v = .error e) :
    ∃ layoutElem valueElem message, e = .parseError layout whole layoutElem valueElem message := by
  unfold parseSeconds at h
  repeat' split at h
  all_goals first
    | (simp only [Except.error.injEq, newParseError] at h; exact ⟨_, _, _, h.symm⟩)
    | (simp at h)

/-- An error of `time.Parse` is a `*time.ParseError` that carries the layout
and the value it was given. -/
theorem timeParse_error_shape {s : String} {e : GoError} (h : timeParse s = .error e) :
    ∃ layoutElem valueElem message, e = .parseError layout s layoutElem valueElem message := by
  unfold timeParse at h
  simp only at h
  repeat' split at h
  all_goals first
    | (simp only [Except.error.injEq, newParseError] at h; exact ⟨_, _, _, h.symm⟩)
    | (rename_i hs; simp only [Except.error.injEq] at h; subst h; exact parseSeconds_error_shape hs)
    | (simp at h)

theorem digitChar_of_isDigit {c : Char} (h : isDigit c = true) :
    c.toNat - 0x30 < 10 ∧ digitChar (c.toNat - 0x30) = c := by
  simp only [isDigit, Bool.and_eq_true, decide_eq_true_eq] at h
  refine ⟨by omega, ?_⟩
  have h2 : 0x30 + (c.toNat - 0x30) = c.toNat := by omega
  rw [digitChar, h2]
  exact (char_eq_ofNat_of_toNat rfl).symm

theorem getnum_fixed_inv {v r : List Char} {n : Nat} (h : getnum v true = some (n, r)) :
    n < 100 ∧ v = twoDigits n ++ r := by
  unfold getnum at h
  cases v with
  | nil => simp at h
  | cons c0 s1 =>
    simp only at h
    by_cases h0 : isDigit c0 = true
    · simp only [h0, if_true] at h
      cases s1 with
      | nil => simp at h
      | cons c1 s2 =>
        simp only at h
        by_cases h1 : isDigit c1 = true
        · simp only [h1, if_true, Option.some.injEq, Prod.mk.injEq] at h
          obtain ⟨hn, hr⟩ := h
          obtain ⟨ha, hca⟩ := digitChar_of_isDigit h0
          obtain ⟨hb, hcb⟩ := digitChar_of_isDigit h1
          subst hr
          refine ⟨by omega, ?_⟩
          have e1 : n / 10 = c0.toNat - 0x30 := by omega
          have e2 : n % 10 = c1.toNat - 0x30 := by omega
          simp only [twoDigits, e1, e2, hca, hcb, List.cons_append, List.nil_append]
        · simp [h1] at h
    · simp [h0] at h

theorem getnum_free_inv {v r : List Char} {n : Nat} (h : getnum v false = some (n, r)) :
    (n < 100 ∧ v = twoDigits n ++ r) ∨
      (n < 10 ∧ v = digitChar n :: r ∧ ∀ c r', r = c :: r' → isDigit c = false) := by
  unfold getnum at h
  cases v with
  | nil => simp at h
  | cons c0 s1 =>
    simp only at h
    by_cases h0 : isDigit c0 = true
    · simp only [h0, if_true] at h
      obtain ⟨ha, hca⟩ := digitChar_of_isDigit h0
      cases s1 with
      | nil =>
        simp only [Bool.false_eq_true, if_false, Option.some.injEq, Prod.mk.injEq] at h
        obtain ⟨hn, hr⟩ := h
        subst hr
        subst hn
        exact Or.inr ⟨ha, by rw [hca], fun c r' hc => by simp at hc⟩
      | cons c1 s2 =>
        simp only at h
        by_cases h1 : isDigit c1 = true
        · simp only [h1, if_true, Option.some.injEq, Prod.mk.injEq] at h
          obtain ⟨hn, hr⟩ := h
          obtain ⟨hb, hcb⟩ := digitChar_of_isDigit h1
          subst hr
          refine Or.inl ⟨by omega, ?_⟩
          have e1 : n / 10 = c0.toNat - 0x30 := by omega
          have e2 : n % 10 = c1.toNat - 0x30 := by omega
          simp only [twoDigits, e1, e2, hca, hcb, List.cons_append, List.nil_append]
        · simp only [h1, Bool.false_eq_true, if_false, Option.some.injEq, Prod.mk.injEq] at h
          obtain ⟨hn, hr⟩ := h
          subst hr
          subst hn
          refine Or.inr ⟨ha, by rw [hca], fun c r' hc => ?_⟩
          simp only [List.cons.injEq] at hc
          rw [← hc.1]
          simpa using h1
    · simp [h0] at h

theorem skipLit_char_inv {v r : List Char} {lit : Char} (hlit : lit ≠ ' ')
    (h : skipLit v lit = .ok r) : v = lit :: r := by
  unfold skipLit at h
  simp only [hlit, if_false] at h
  cases v with
  | nil => simp at h
  | cons c cs =>
    simp only at h
    by_cases hc : c = lit
    · simp only [hc, if_true, Except.ok.injEq] at h
      rw [hc, h]
    · simp [hc] at h

theorem cutspace_spec (v : List Char) :
    ∃ k, v = List.replicate k ' ' ++ cutspace v ∧ ∀ r', cutspace v ≠ ' ' :: r' := by
  induction v with
  | nil => exact ⟨0, rfl, fun r' h => by simp [cutspace] at h⟩
  | cons c cs ih =>
    by_cases hc : c = ' '
    · obtain ⟨k, hk, hno⟩ := ih
      refine ⟨k + 1, ?_, ?_⟩
      · simp only [cutspace, hc, if_true, List.replicate_succ, List.cons_append]
        rw [← hk]
      · simpa only [cutspace, hc, if_true] using hno
    · refine ⟨0, ?_, ?_⟩
      · simp [cutspace, hc]
      · intro r' h
        simp only [cutspace, hc, if_false, List.cons.injEq] at h
        exact h.1.elim

theorem skipLit_space_inv {v r : List Char} (h : skipLit v ' ' = .ok r) :
    (v = [] ∧ r = []) ∨
      ∃ k, v = List.replicate (k + 1) ' ' ++ r ∧ ∀ r', r ≠ ' ' :: r' := by
  unfold skipLit at h
  simp only [if_true] at h
  cases v with
  | nil =>
    simp only [Except.ok.injEq] at h
    exact Or.inl ⟨rfl, h.symm⟩
  | cons c cs =>
    simp only at h
    by_cases hc : c = ' '
    · simp only [hc, ne_eq, not_true_eq_false, if_false, Except.ok.injEq] at h
      obtain ⟨k, hk, hno⟩ := cutspace_spec cs
      have hcut : cutspace (' ' :: cs) = cutspace cs := by simp [cutspace]
      rw [hcut] at h
      subst h
      refine Or.inr ⟨k, ?_, hno⟩
      rw [hc, List.replicate_succ, List.cons_append, ← hk]
    · simp [hc] at h

theorem spanDigits_spec (l : List Char) :
    l = (spanDigits l).1 ++ (spanDigits l).2 ∧ (spanDigits l).1.all isDigit = true := by
  induction l with
  | nil => exact ⟨rfl, rfl⟩
  | cons c cs ih =>
    by_cases hc : isDigit c = true
    · simp only [spanDigits, hc, if_true, List.cons_append, List.all_cons, Bool.true_and]
      exact ⟨by rw [← ih.1], ih.2⟩
    · simp [spanDigits, hc]

theorem spanDigits_drop (l : List Char) :
    l.drop (spanDigits l).1.length = (spanDigits l).2 := by
  induction l with
  | nil => rfl
  | cons c cs ih =>
    by_cases hc : isDigit c = true
    · simp [spanDigits, hc, ih]
    · simp [spanDigits, hc]

theorem spanDigits_of_all {l : List Char} (h : l.all isDigit = true) : spanDigits l = (l, []) := by
  induction l with
  | nil => rfl
  | cons c cs ih =>
    simp only [List.all_cons, Bool.and_eq_true] at h
    simp only [spanDigits, h.1, if_true, ih h.2]

theorem fourDigits_of_digits {a b c d : Char} (ha : isDigit a = true) (hb : isDigit b = true)
    (hc : isDigit c = true) (hd : isDigit d = true) :
    digitsValue [a, b, c, d] < 10000 ∧ fourDigits (digitsValue [a, b, c, d]) = [a, b, c, d] := by
  obtain ⟨ha1, ha2⟩ := digitChar_of_isDigit ha
  obtain ⟨hb1, hb2⟩ := digitChar_of_isDigit hb
  obtain ⟨hc1, hc2⟩ := digitChar_of_isDigit hc
  obtain ⟨hd1, hd2⟩ := digitChar_of_isDigit hd
  have hv : digitsValue [a, b, c, d]
      = (((0 * 10 + (a.toNat - 0x30)) * 10 + (b.toNat - 0x30)) * 10 + (c.toNat - 0x30)) * 10
        + (d.toNat - 0x30) := rfl
  refine ⟨by omega, ?_⟩
  have e1 : digitsValue [a, b, c, d] / 1000 = a.toNat - 0x30 := by omega
  have e2 : digitsValue [a, b, c, d] / 100 % 10 = b.toNat - 0x30 := by omega
  have e3 : digitsValue [a, b, c, d] / 10 % 10 = c.toNat - 0x30 := by omega
  have e4 : digitsValue [a, b, c, d] % 10 = d.toNat - 0x30 := by omega
  simp only [fourDigits, e1, e2, e3, e4, ha2, hb2, hc2, hd2]

theorem timeParse_year_inv {v0 : List Char}
    (h : ¬ (v0.length < 4 ∨ (v0.take 4).all isDigit = false)) :
    digitsValue (v0.take 4) < 10000 ∧ v0 = fourDigits (digitsValue (v0.take 4)) ++ v0.drop 4 := by
  match v0, h with
  | [], h => simp at h
  | [_], h => simp at h
  | [_, _], h => simp at h
  | [_, _, _], h => simp at h
  | a :: b :: c :: d :: rest, h =>
    have hall : ¬ ((List.take 4 (a :: b :: c :: d :: rest)).all isDigit = false) :=
      fun hh => h (Or.inr hh)
    simp only [List.take_succ_cons, List.take_zero, Bool.not_eq_false, List.all_cons,
      List.all_nil, Bool.and_true, Bool.and_eq_true] at hall
    obtain ⟨ha, hb, hc, hd⟩ := hall
    obtain ⟨hlt, hfour⟩ := fourDigits_of_digits ha hb hc hd
    simp only [List.take_succ_cons, List.take_zero, List.drop_succ_cons, List.drop_zero]
    exact ⟨hlt, by rw [hfour]; rfl⟩

theorem parseSeconds_inv {whole : String} {v : List Char} {sec nsec : Nat}
    (h : parseSeconds whole v = .ok (sec, nsec, [])) :
    ∃ frac, sec < 60 ∧ v = twoDigits sec ++ frac ∧ (frac = [] ∨ IsFraction frac) ∧
      nsec = parseNanoseconds frac frac.length := by
  unfold parseSeconds at h
  cases hg : getnum v true with
  | none => simp [hg] at h
  | some p =>
    obtain ⟨n, v'⟩ := p
    obtain ⟨_, hv⟩ := getnum_fixed_inv hg
    simp only [hg] at h
    by_cases hr : 60 ≤ n
    · simp [hr] at h
    · simp only [hr, if_false] at h
      match v', h, hv with
      | [], h, hv =>
        simp only [Except.ok.injEq, Prod.mk.injEq, and_true] at h
        exact ⟨[], by omega, by rw [hv, h.1], Or.inl rfl, by rw [← h.2]; rfl⟩
      | [p], h, hv => simp at h
      | p :: d :: r, h, hv =>
        simp only at h
        by_cases hcond : (p = '.' ∨ p = ',') ∧ isDigit d = true
        · simp only [hcond, and_self, if_true, List.drop_succ_cons, List.drop_zero,
            Except.ok.injEq, Prod.mk.injEq] at h
          obtain ⟨hsec, hnsec, hdrop⟩ := h
          obtain ⟨hsplit, hall⟩ := spanDigits_spec (d :: r)
          have hdrop' : (d :: r).drop (spanDigits (d :: r)).1.length = [] := by
            have : (1 + (spanDigits (d :: r)).1.length) = (spanDigits (d :: r)).1.length + 1 := by
              omega
            rw [this, List.drop_succ_cons] at hdrop
            exact hdrop
          have h2 : (spanDigits (d :: r)).2 = [] := by
            rw [← spanDigits_drop (d :: r)]
            exact hdrop'
          have hdigits : (d :: r).all isDigit = true := by
            rw [hsplit, h2, List.append_nil]
            exact hall
          have hspan : (spanDigits (d :: r)).1 = d :: r := by
            rw [spanDigits_of_all hdigits]
          refine ⟨p :: d :: r, by omega, by rw [hv, hsec], Or.inr ⟨p, d :: r, rfl, hcond.1,
            by simp, hdigits⟩, ?_⟩
          rw [← hnsec, hspan]
          simp only [List.length_cons]
          congr 1
          omega
        · simp [hcond] at h

/-- What `time.Parse` accepts at the layout has the lenient shape. -/
theorem timeParse_ok_inv {s : String} {t : Time} (h : timeParse s = .ok t) :
    AcceptedDateText s t := by
  unfold timeParse at h
  simp only [String.toList] at h
  by_cases hy : s.data.length < 4 ∨ (s.data.take 4).all isDigit = false
  · rw [if_pos hy] at h
    exact absurd h (by simp)
  rw [if_neg hy] at h
  obtain ⟨hyear, e0⟩ := timeParse_year_inv hy
  cases h1 : skipLit (s.data.drop 4) '-' with
  | error v => simp [h1] at h
  | ok v1 =>
    simp only [h1] at h
    have e1 := skipLit_char_inv (by decide) h1
    cases h2 : getnum v1 true with
    | none => simp [h2] at h
    | some p2 =>
      obtain ⟨month, v2⟩ := p2
      simp only [h2] at h
      obtain ⟨_, e2⟩ := getnum_fixed_inv h2
      by_cases hm : month = 0 ∨ 12 < month
      · simp [hm] at h
      simp only [hm, if_false] at h
      cases h3 : skipLit v2 '-' with
      | error v => simp [h3] at h
      | ok v3 =>
        simp only [h3] at h
        have e3 := skipLit_char_inv (by decide) h3
        cases h4 : getnum v3 true with
        | none => simp [h4] at h
        | some p4 =>
          obtain ⟨day, v4⟩ := p4
          simp only [h4] at h
          obtain ⟨_, e4⟩ := getnum_fixed_inv h4
          cases h5 : skipLit v4 ' ' with
          | error v => simp [h5] at h
          | ok v5 =>
            simp only [h5] at h
            cases h6 : getnum v5 false with
            | none => simp [h6] at h
            | some p6 =>
              obtain ⟨hour, v6⟩ := p6
              simp only [h6] at h
              by_cases hh : 24 ≤ hour
              · simp [hh] at h
              simp only [hh, if_false] at h
              cases h7 : skipLit v6 ':' with
              | error v => simp [h7] at h
              | ok v7 =>
                simp only [h7] at h
                have e7 := skipLit_char_inv (by decide) h7
                cases h8 : getnum v7 true with
                | none => simp [h8] at h
                | some p8 =>
                  obtain ⟨min, v8⟩ := p8
                  simp only [h8] at h
                  obtain ⟨_, e8⟩ := getnum_fixed_inv h8
                  by_cases hmi : 60 ≤ min
                  · simp [hmi] at h
                  simp only [hmi, if_false] at h
                  cases h9 : skipLit v8 ':' with
                  | error v => simp [h9] at h
                  | ok v9 =>
                    simp only [h9] at h
                    have e9 := skipLit_char_inv (by decide) h9
                    cases h10 : parseSeconds s v9 with
                    | error e => simp [h10] at h
                    | ok q =>
                      obtain ⟨sec, nsec, v10⟩ := q
                      simp only [h10] at h
                      by_cases hrest : v10 = []
                      · subst hrest
                        simp only [ne_eq, not_true_eq_false, if_false] at h
                        by_cases hd : day < 1 ∨ daysIn month (digitsValue (s.data.take 4)) < day
                        · rw [if_pos hd] at h
                          exact absurd h (by simp)
                        simp only [hd, if_false, Except.ok.injEq] at h
                        obtain ⟨frac, hsec, e10, hfrac, hns⟩ := parseSeconds_inv h10
                        have hspace : ∃ k, v4 = List.replicate (k + 1) ' ' ++ v5 := by
                          rcases skipLit_space_inv h5 with ⟨_, hv5⟩ | ⟨k, hk, _⟩
                          · rw [hv5] at h6
                            simp [getnum] at h6
                          · exact ⟨k, hk⟩
                        obtain ⟨k, e5⟩ := hspace
                        have hhour : ∃ ht, IsHourText hour ht ∧ v5 = ht ++ v6 := by
                          rcases getnum_free_inv h6 with ⟨_, hv⟩ | ⟨hlt, hv, _⟩
                          · exact ⟨twoDigits hour, Or.inl rfl, hv⟩
                          · exact ⟨[digitChar hour], Or.inr ⟨hlt, rfl⟩, hv⟩
                        obtain ⟨ht, hht, e6⟩ := hhour
                        refine ⟨digitsValue (s.data.take 4), month, day, hour, min, sec, k, ht,
                          frac, ⟨hyear, by omega, by omega, by omega, by omega, hsec⟩, hht, hfrac,
                          ?_, ?_⟩
                        · apply String.ext
                          simp only [dateTimeText]
                          rw [← e10, ← e9, ← e8, ← e7, ← e6, ← e5, ← e4, ← e3, ← e2, ← e1]
                          exact e0
                        · rw [← h, hns]
                      · simp [hrest] at h

theorem cutspace_of_not_space {text : List Char} (h : ∀ r', text ≠ ' ' :: r') :
    cutspace text = text := by
  cases text with
  | nil => rfl
  | cons c cs =>
    have hc : c ≠ ' ' := fun hc => h cs (by rw [hc])
    simp [cutspace, hc]

theorem cutspace_replicate (k : Nat) {text : List Char} (h : ∀ r', text ≠ ' ' :: r') :
    cutspace (List.replicate k ' ' ++ text) = text := by
  induction k with
  | zero => simpa using cutspace_of_not_space h
  | succ k ih => simpa [List.replicate_succ, cutspace] using ih

theorem skipLit_spaces (k : Nat) {text : List Char} (h : ∀ r', text ≠ ' ' :: r') :
    skipLit (List.replicate (k + 1) ' ' ++ text) ' ' = .ok text := by
  have hc := cutspace_replicate (k + 1) h
  simp only [List.replicate_succ, List.cons_append] at hc ⊢
  simp only [skipLit, if_true, ne_eq, not_true_eq_false, if_false, hc]

theorem hourText_first {hour : Nat} {ht : List Char} (hh : hour < 24) (h : IsHourText hour ht)
    (rest : List Char) :
    getnum (ht ++ ':' :: rest) false = some (hour, ':' :: rest) ∧
      ∀ r', ht ++ ':' :: rest ≠ ' ' :: r' := by
  rcases h with h | ⟨hlt, h⟩
  · subst h
    refine ⟨getnum_twoDigits (by omega) _ _, fun r' hr => ?_⟩
    simp only [twoDigits, List.cons_append, List.cons.injEq] at hr
    exact digitChar_ne_space (show hour / 10 < 10 by omega) hr.1
  · subst h
    refine ⟨?_, fun r' hr => ?_⟩
    · have hcolon : isDigit ':' = false := by decide
      simp [getnum, isDigit_digitChar hlt, toNat_digitChar hlt, hcolon]
    · simp only [List.cons_append, List.nil_append, List.cons.injEq] at hr
      exact digitChar_ne_space hlt hr.1

theorem parseSeconds_frac (whole : String) {sec : Nat} {frac : List Char} (hs : sec < 60)
    (hf : frac = [] ∨ IsFraction frac) :
    parseSeconds whole (twoDigits sec ++ frac)
      = .ok (sec, parseNanoseconds frac frac.length, []) := by
  have hg := getnum_twoDigits (show sec < 100 by omega) frac true
  rcases hf with hf | ⟨p, ds, hf, hp, hne, hall⟩
  · subst hf
    simp only [parseSeconds, hg, Nat.not_le.mpr hs, if_false]
    rfl
  · subst hf
    cases ds with
    | nil => exact absurd rfl hne
    | cons d r =>
      have hd : isDigit d = true := by
        simp only [List.all_cons, Bool.and_eq_true] at hall
        exact hall.1
      simp only [parseSeconds, hg, Nat.not_le.mpr hs, if_false, hp, hd, and_self, if_true,
        List.drop_succ_cons, List.drop_zero, spanDigits_of_all hall, List.length_cons]
      have hlen : 1 + (r.length + 1) = r.length + 1 + 1 := by omega
      rw [hlen]
      simp

/-- Every text of the lenient shape is accepted by `time.Parse` at the layout
and denotes the instant of its fields. -/
theorem timeParse_dateTimeText {year month day hour min sec spaces : Nat}
    {hourText frac : List Char} (h : ValidDateTime year month day hour min sec)
    (hht : IsHourText hour hourText) (hfrac : frac = [] ∨ IsFraction frac) :
    timeParse (dateTimeText year month day spaces hourText min sec frac)
      = .ok (Date year month day hour min sec (parseNanoseconds frac frac.length)) := by
  obtain ⟨hy, ⟨hm1, hm2⟩, ⟨hd1, hd2⟩, hh, hmi, hs⟩ := h
  have hd3 : day < 100 := by
    have : daysIn month year ≤ 31 := by
      unfold daysIn
      split
      · omega
      · interval_cases month <;> simp [daysBefore]
    omega
  have hlen : (fourDigits year).length = 4 := rfl
  have htake : ∀ rest : List Char, (fourDigits year ++ rest).take 4 = fourDigits year := by
    intro rest; rfl
  have hdrop : ∀ rest : List Char, (fourDigits year ++ rest).drop 4 = rest := by
    intro rest; rfl
  have hskipDash : ∀ rest : List Char, skipLit ('-' :: rest) '-' = .ok rest := by
    intro rest; rfl
  have hskipColon : ∀ rest : List Char, skipLit (':' :: rest) ':' = .ok rest := by
    intro rest; rfl
  have hlen2 : ∀ n : Nat, (twoDigits n).length = 2 := fun _ => rfl
  have hmonth : ¬ (month = 0 ∨ 12 < month) := by omega
  have hday : ¬ (day < 1 ∨ daysIn month year < day) := by omega
  have hhour := hourText_first hh hht (twoDigits min ++ ':' :: (twoDigits sec ++ frac))
  simp only [timeParse, dateTimeText, String.toList, htake, hdrop,
    all_isDigit_fourDigits hy, digitsValue_fourDigits hy, List.length_append, hlen, hlen2,
    List.length_cons, hskipDash, hskipColon, getnum_twoDigits (show month < 100 by omega),
    getnum_twoDigits hd3, skipLit_spaces spaces hhour.2, hhour.1,
    getnum_twoDigits (show min < 100 by omega),
    parseSeconds_frac _ hs hfrac, hmonth, hday, Nat.not_le.mpr hh, Nat.not_le.mpr hmi,
    if_false, ne_eq, not_true_eq_false]
  simp

/-- The date strings `time.Parse` accepts at the layout are exactly those of
the lenient shape. -/
theorem timeParse_ok_iff (s : String) (t : Time) :
    timeParse s = .ok t ↔ AcceptedDateText s t := by
  constructor
  · exact timeParse_ok_inv
  · rintro ⟨year, month, day, hour, min, sec, spaces, hourText, frac, hv, hht, hfrac, hs, ht⟩
    rw [hs, ht]
    exact timeParse_dateTimeText hv hht hfrac

/-- A text of the lenient shape up to its seconds, with anything behind them,
is accepted exactly when what is behind them is nothing or a fractional
second. -/
theorem timeParse_suffix_iff {year month day hour min sec spaces : Nat}
    {hourText : List Char} (h : ValidDateTime year month day hour min sec)
    (hht : IsHourText hour hourText) (suffix : List Char) :
    (∃ t, timeParse (dateTimeText year month day spaces hourText min sec suffix) = .ok t) ↔
      (suffix = [] ∨ IsFraction suffix) := by
  constructor
  · rintro ⟨t, ht⟩
    by_contra hno
    obtain ⟨hy, ⟨hm1, hm2⟩, ⟨hd1, hd2⟩, hh, hmi, hs⟩ := h
    have hd3 : day < 100 := by
      have : daysIn month year ≤ 31 := by
        unfold daysIn
        split
        · omega
        · interval_cases month <;> simp [daysBefore]
      omega
    have hlen : (fourDigits year).length = 4 := rfl
    have htake : ∀ rest : List Char, (fourDigits year ++ rest).take 4 = fourDigits year := by
      intro rest; rfl
    have hdrop : ∀ rest : List Char, (fourDigits year ++ rest).drop 4 = rest := by
      intro rest; rfl
    have hskipDash : ∀ rest : List Char, skipLit ('-' :: rest) '-' = .ok rest := by
      intro rest; rfl
    have hskipColon : ∀ rest : List Char, skipLit (':' :: rest) ':' = .ok rest := by
      intro rest; rfl
    have hlen2 : ∀ n : Nat, (twoDigits n).length = 2 := fun _ => rfl
    have hmonth : ¬ (month = 0 ∨ 12 < month) := by omega
    have hhour := hourText_first hh hht (twoDigits min ++ ':' :: (twoDigits sec ++ suffix))
    simp only [timeParse, dateTimeText, String.toList, htake, hdrop,
      all_isDigit_fourDigits hy, digitsValue_fourDigits hy, List.length_append, hlen, hlen2,
      List.length_cons, hskipDash, hskipColon, getnum_twoDigits (show month < 100 by omega),
      getnum_twoDigits hd3, skipLit_spaces spaces hhour.2, hhour.1,
      getnum_twoDigits (show min < 100 by omega), hmonth, Nat.not_le.mpr hh,
      Nat.not_le.mpr hmi, if_false] at ht
    cases hp : parseSeconds
        { data := fourDigits year ++ '-' :: (twoDigits month ++ '-' :: (twoDigits day ++
          (List.replicate (spaces + 1) ' ' ++ (hourText ++ ':' :: (twoDigits min ++ ':' ::
          (twoDigits sec ++ suffix)))))) } (twoDigits sec ++ suffix) with
    | error e => simp [hp] at ht
    | ok q =>
      obtain ⟨sec', nsec, v10⟩ := q
      by_cases hrest : v10 = []
      · subst hrest
        obtain ⟨frac, _, hv, hfrac, _⟩ := parseSeconds_inv hp
        have hg := getnum_twoDigits (show sec < 100 by omega) suffix true
        have hsec : sec' = sec := by
          unfold parseSeconds at hp
          simp only [hg, Nat.not_le.mpr hs, if_false] at hp
          split at hp <;> (try split at hp) <;>
            simp only [Except.ok.injEq, Prod.mk.injEq] at hp <;> exact hp.1.symm
        subst hsec
        exact hno ((List.append_cancel_left hv) ▸ hfrac)
      · simp [hp, hrest] at ht
  · intro hs
    exact ⟨_, timeParse_dateTimeText h hht hs⟩

theorem date_step_error {ms : List (String × JVal)} {date : Field} {s : String} {e : GoError}
    (hdate : date = .createDate ∨ date = .expireDate)
    (hraw : objMapIndex ms date.key = some (.str s)) (hbad : timeParse s = .error e)
    (m : Machine) : ∃ m', date.step ms m = .error e m' := by
  rcases hdate with rfl | rfl
  · simp only [Field.key] at hraw
    simp only [Field.step, decodeCreateDate, hraw, jsonUnmarshalString, hbad]
    exact ⟨_, rfl⟩
  · simp only [Field.key] at hraw
    simp only [Field.step, decodeExpireDate, hraw, jsonUnmarshalString, hbad]
    exact ⟨_, rfl⟩

theorem date_valid_iff {ms : List (String × JVal)} {date : Field} {s : String}
    (hdate : date = .createDate ∨ date = .expireDate)
    (hraw : objMapIndex ms date.key = some (.str s)) :
    date.Valid ms ↔ ∃ t, timeParse s = .ok t := by
  rcases hdate with rfl | rfl
  · simp only [Field.key] at hraw
    simp only [Field.Valid, CreateDateIs, hraw, Option.some.injEq, JVal.str.injEq]
    constructor
    · rintro ⟨t, ⟨h, _⟩ | ⟨s', hs', ht⟩⟩
      · simp at h
      · exact ⟨t, hs' ▸ ht⟩
    · rintro ⟨t, ht⟩
      exact ⟨t, Or.inr ⟨s, rfl, ht⟩⟩
  · simp only [Field.key] at hraw
    simp only [Field.Valid, hraw, Option.some.injEq, JVal.str.injEq]
    constructor
    · rintro ⟨s', t, hs', ht⟩
      exact ⟨t, hs' ▸ ht⟩
    · rintro ⟨t, ht⟩
      exact ⟨s, t, rfl, ht⟩

/-! ## Claims -/

set_option maxRecDepth 100000 in
/-- C1, counterexample: `sampleLabelsNumber` and `sampleCreateDateNumber` have
every required field valid and the four quasi-booleans written as `"1"`, 1, 0
and `"0"`, yet the call returns an error, because the optional `labels`,
respectively `createDate`, is the number 5. With `labels` the four booleans
have been decoded by then; with `createDate` the call ends before them. -/
theorem quasi_booleans_valid_optional_field_malformed :
    parseJSON sampleLabelsNumber = some (.obj sampleLabelsNumberMembers) ∧
    parseJSON sampleCreateDateNumber = some (.obj sampleCreateDateNumberMembers) ∧
    (∀ ms ∈ [sampleLabelsNumberMembers, sampleCreateDateNumberMembers],
      PlainFields ms "example.com" "ACTIVE" "com" ⟨1641092645, 0, .UTC⟩ ∧
      objMapIndex ms "securityLock" = some (quasiEncoding true true) ∧
      objMapIndex ms "whoisPrivacy" = some (quasiEncoding true false) ∧
      objMapIndex ms "autoRenew" = some (quasiEncoding false false) ∧
      objMapIndex ms "notLocal" = some (quasiEncoding false true)) ∧
    (∃ e m', Domain.UnmarshalJSON freshMachine sampleLabelsNumber = .error e m' ∧
      m'.d.SecurityLock = true ∧ m'.d.WHOISPrivacy = true ∧ m'.d.AutoRenew = false ∧
      m'.d.NotLocal = false) ∧
    (∃ e m', Domain.UnmarshalJSON freshMachine sampleCreateDateNumber = .error e m' ∧
      m'.d.SecurityLock = false ∧ m'.d.WHOISPrivacy = false) := by
  refine ⟨rfl, rfl, ?_, ⟨_, _, rfl, rfl, rfl, rfl, rfl⟩, ⟨_, _, rfl, rfl, rfl⟩⟩
  intro ms hms
  simp only [List.mem_cons, List.mem_singleton, List.not_mem_nil, or_false] at hms
  rcases hms with rfl | rfl
  · exact ⟨⟨rfl, rfl, rfl, ⟨"2022-01-02 03:04:05", rfl, rfl⟩⟩, rfl, rfl, rfl, rfl⟩
  · exact ⟨⟨rfl, rfl, rfl, ⟨"2022-01-02 03:04:05", rfl, rfl⟩⟩, rfl, rfl, rfl, rfl⟩

/-- C1 (amended): in a resource object whose other fields are valid, the
required ones and also the optional `createDate` and `labels` when they are
present, each of the four quasi-boolean fields may be written as the JSON
integer `0`/`1` or as the JSON string `"0"`/`"1"`, independently of the other
three; `UnmarshalJSON` succeeds and each of `SecurityLock`, `WHOISPrivacy`,
`AutoRenew`, `NotLocal` is true exactly when its own field was written as 1. -/
theorem quasi_booleans_decode_independently (m : Machine) (b : String)
    (ms : List (String × JVal)) (dom st tld : String) (create expire : Time)
    (labels : Option (List DomainLabel)) (v1 v2 v3 v4 s1 s2 s3 s4 : Bool)
    (hb : parseJSON b = some (.obj ms))
    (hp : PlainFields ms dom st tld expire) (hc : CreateDateIs ms create)
    (hl : LabelsAre ms m.d.Labels labels)
    (h1 : objMapIndex ms "securityLock" = some (quasiEncoding v1 s1))
    (h2 : objMapIndex ms "whoisPrivacy" = some (quasiEncoding v2 s2))
    (h3 : objMapIndex ms "autoRenew" = some (quasiEncoding v3 s3))
    (h4 : objMapIndex ms "notLocal" = some (quasiEncoding v4 s4)) :
    ∃ m', Domain.UnmarshalJSON m b = .ok m' ∧ m'.d.SecurityLock = v1 ∧
      m'.d.WHOISPrivacy = v2 ∧ m'.d.AutoRenew = v3 ∧ m'.d.NotLocal = v4 := by
  have h := decodeFields_ok m hp hc h1 (quasiBool_encoding _ _ _) h2 (quasiBool_encoding _ _ _)
    h3 (quasiBool_encoding _ _ _) h4 (quasiBool_encoding _ _ _) hl
  rw [unmarshal_of_object m hb, h]
  exact ⟨_, rfl, rfl, rfl, rfl, rfl⟩

set_option maxRecDepth 100000 in
/-- C1 at `sampleMixed`: `securityLock` is the string `"1"`, `whoisPrivacy` the
integer 1, `autoRenew` the integer 0 and `notLocal` the string `"0"`. -/
theorem quasi_booleans_decode_independently_witness :
    parseJSON sampleMixed = some (.obj sampleMixedMembers) ∧
    ∃ m', Domain.UnmarshalJSON freshMachine sampleMixed = .ok m' ∧ m'.d.SecurityLock = true ∧
      m'.d.WHOISPrivacy = true ∧ m'.d.AutoRenew = false ∧ m'.d.NotLocal = false :=
  ⟨rfl, quasi_booleans_decode_independently freshMachine sampleMixed sampleMixedMembers
    "example.com" "ACTIVE" "com" ⟨1609556645, 0, .UTC⟩ ⟨1641092645, 0, .UTC⟩
    (some [⟨"1", "prod", "#ff0000"⟩]) true true false false true false false true rfl
    ⟨rfl, rfl, rfl, ⟨"2022-01-02 03:04:05", rfl, rfl⟩⟩
    (Or.inr ⟨"2021-01-02 03:04:05", rfl, rfl⟩) (Or.inr ⟨_, rfl, rfl⟩) rfl rfl rfl rfl⟩

set_option maxRecDepth 100000 in
/-- C2, counterexample: with `securityLock` written as the string `"true"` the
call returns the error of `strconv.Atoi`, whose message
`strconv.Atoi: parsing "true": invalid syntax` does not name the field. -/
theorem quasi_boolean_error_without_field_name :
    ∃ e m', Domain.UnmarshalJSON freshMachine sampleLockTrue = .error e m' ∧
      e.Error = some "strconv.Atoi: parsing \"true\": invalid syntax" ∧
      e.names "securityLock" = false :=
  ⟨.numError "Atoi" "true" "invalid syntax", _, rfl, rfl, rfl⟩

/-- C2 (amended): for each of the four quasi-boolean fields, when the fields
decoded before it are valid and its raw value is present, not `null` and not
an accepted encoding of 0 or 1, `UnmarshalJSON` returns an error. When the
value denotes an integer outside {0,1} (a JSON integer that fits an `int`, or
a string that `strconv.Atoi` parses), that error is the field's own
"... response not a boolean", which names the field. Otherwise it is the
error the library returned: that of `strconv.Atoi` for a string, and the type
error of `json.Unmarshal` into a string for any other value. -/
theorem quasi_boolean_rejected (m : Machine) (b : String) (ms : List (String × JVal))
    (dom st tld : String) (create expire : Time) (f : QuasiField) (raw : JVal)
    (hb : parseJSON b = some (.obj ms))
    (hp : PlainFields ms dom st tld expire) (hc : CreateDateIs ms create)
    (hearlier : ∀ g : QuasiField, g.index < f.index →
      ∃ r, objMapIndex ms g.key = some r ∧ (intValue r = some 0 ∨ intValue r = some 1))
    (hraw : objMapIndex ms f.key = some raw)
    (h0 : intValue raw ≠ some 0) (h1 : intValue raw ≠ some 1) :
    ∃ e m', Domain.UnmarshalJSON m b = .error e m' ∧
      (∀ n, intValue raw = some n → e = .errorString f.message ∧ e.names f.key = true) ∧
      (intValue raw = none →
        (∀ s, raw = .str s →
          e = .numError "Atoi" s "invalid syntax" ∨
            e = .numError "Atoi" s "value out of range") ∧
        ((∀ s, raw ≠ .str s) → e = .unmarshalTypeError (kindName raw) "string" "" "")) := by
  obtain ⟨e, he, hn, hother⟩ :=
    quasiBool_rejects f.message (objMapIndex_ne_null hraw) h0 h1
  have hnames : (GoError.errorString f.message).names f.key = true := by cases f <;> rfl
  have key : ∃ m', decodeFields ms m = .error e m' := by
    cases f with
    | securityLock =>
      simp only [QuasiField.key, QuasiField.message] at hraw he
      simp only [decodeFields, decodeDomainField_str m hp.domain, Outcome.andThen,
        decodeStatus_str _ hp.status, decodeTLD_str _ hp.tld, decodeCreateDate_is _ hc,
        decodeExpireDate_is _ hp.expireDate, decodeSecurityLock, hraw, he]
      exact ⟨_, rfl⟩
    | whoisPrivacy =>
      obtain ⟨r0, hr0, hv0⟩ := hearlier .securityLock (by decide)
      obtain ⟨v0, hq0⟩ := quasiBool_accepts "SecurityLock response not a boolean" hv0
      simp only [QuasiField.key, QuasiField.message] at hraw he hr0
      simp only [decodeFields, decodeDomainField_str m hp.domain, Outcome.andThen,
        decodeStatus_str _ hp.status, decodeTLD_str _ hp.tld, decodeCreateDate_is _ hc,
        decodeExpireDate_is _ hp.expireDate, decodeSecurityLock, hr0, hq0,
        decodeWHOISPrivacy, hraw, he]
      exact ⟨_, rfl⟩
    | autoRenew =>
      obtain ⟨r0, hr0, hv0⟩ := hearlier .securityLock (by decide)
      obtain ⟨v0, hq0⟩ := quasiBool_accepts "SecurityLock response not a boolean" hv0
      obtain ⟨r1, hr1, hv1⟩ := hearlier .whoisPrivacy (by decide)
      obtain ⟨v1, hq1⟩ := quasiBool_accepts "WhoisPrivacy response not a boolean" hv1
      simp only [QuasiField.key, QuasiField.message] at hraw he hr0 hr1
      simp only [decodeFields, decodeDomainField_str m hp.domain, Outcome.andThen,
        decodeStatus_str _ hp.status, decodeTLD_str _ hp.tld, decodeCreateDate_is _ hc,
        decodeExpireDate_is _ hp.expireDate, decodeSecurityLock, hr0, hq0,
        decodeWHOISPrivacy, hr1, hq1, decodeAutoRenew, hraw, he]
      exact ⟨_, rfl⟩
    | notLocal =>
      obtain ⟨r0, hr0, hv0⟩ := hearlier .securityLock (by decide)
      obtain ⟨v0, hq0⟩ := quasiBool_accepts "SecurityLock response not a boolean" hv0
      obtain ⟨r1, hr1, hv1⟩ := hearlier .whoisPrivacy (by decide)
      obtain ⟨v1, hq1⟩ := quasiBool_accepts "WhoisPrivacy response not a boolean" hv1
      obtain ⟨r2, hr2, hv2⟩ := hearlier .autoRenew (by decide)
      obtain ⟨v2, hq2⟩ := quasiBool_accepts "AutoRenew response not a boolean" hv2
      simp only [QuasiField.key, QuasiField.message] at hraw he hr0 hr1 hr2
      simp only [decodeFields, decodeDomainField_str m hp.domain, Outcome.andThen,
        decodeStatus_str _ hp.status, decodeTLD_str _ hp.tld, decodeCreateDate_is _ hc,
        decodeExpireDate_is _ hp.expireDate, decodeSecurityLock, hr0, hq0,
        decodeWHOISPrivacy, hr1, hq1, decodeAutoRenew, hr2, hq2, decodeNotLocal, hraw, he]
      exact ⟨_, rfl⟩
  obtain ⟨m', hm'⟩ := key
  refine ⟨e, m', ?_, fun n h => ?_, hother⟩
  · rw [unmarshal_of_object m hb, hm']
  · rw [hn n h]
    exact ⟨rfl, hnames⟩

set_option maxRecDepth 100000 in
/-- C2 (amended) at `sampleRenewTwo`: `autoRenew` is the string `"2"`, the two
quasi-booleans before it are valid, and the error is
"AutoRenew response not a boolean". -/
theorem quasi_boolean_rejected_witness :
    parseJSON sampleRenewTwo = some (.obj sampleRenewTwoMembers) ∧
    intValue (.str "2") = some 2 ∧
    ∃ e m', Domain.UnmarshalJSON freshMachine sampleRenewTwo = .error e m' ∧
      e = .errorString "AutoRenew response not a boolean" ∧ e.names "autoRenew" = true :=
  have h := quasi_boolean_rejected freshMachine sampleRenewTwo sampleRenewTwoMembers
    "example.com" "ACTIVE" "com" ⟨1609556645, 0, .UTC⟩ ⟨1641092645, 0, .UTC⟩ .autoRenew
    (.str "2") rfl ⟨rfl, rfl, rfl, ⟨"2022-01-02 03:04:05", rfl, rfl⟩⟩
    (Or.inr ⟨"2021-01-02 03:04:05", rfl, rfl⟩)
    (fun g hg => by
      cases g with
      | securityLock => exact ⟨.num "1", rfl, Or.inr rfl⟩
      | whoisPrivacy => exact ⟨.str "0", rfl, Or.inl rfl⟩
      | autoRenew => exact absurd hg (by decide)
      | notLocal => exact absurd hg (by decide))
    rfl (by decide) (by decide)
  ⟨rfl, rfl, h.elim fun e he => he.elim fun m' hm => ⟨e, m', hm.1, hm.2.1 2 rfl⟩⟩

/-- C3 (code bug): on every JSON object that lacks one of the eight required
keys the call never returns `nil`, but it does not return a decode error for
the missing field either: the source dereferences the nil map entry, so when
the fields decoded before the missing one are valid the call panics. -/
theorem missing_required_field_panics (m : Machine) (b : String) (ms : List (String × JVal))
    (f : Field) (hb : parseJSON b = some (.obj ms)) (hreq : f.required = true)
    (habsent : ∀ v, (f.key, v) ∉ ms) :
    (∀ m', Domain.UnmarshalJSON m b ≠ .ok m') ∧
    ((∀ g : Field, g.index < f.index → g.Valid ms) →
      ∃ m', Domain.UnmarshalJSON m b = .panic m') := by
  rw [unmarshal_of_object m hb]
  exact ⟨fun m' => decodeFields_ne_ok_of_absent m m' f hreq (objMapIndex_absent habsent),
    decodeFields_panics_of_absent m f hreq (objMapIndex_absent habsent)⟩

set_option maxRecDepth 100000 in
/-- C3 at `sampleNoDomain`, which panics before anything is written, and at
`sampleNoExpireDate`, which panics after four fields have been written. -/
theorem missing_required_field_panics_witness :
    Domain.UnmarshalJSON freshMachine sampleNoDomain = .panic freshMachine ∧
    (∃ m', Domain.UnmarshalJSON freshMachine sampleNoDomain = .panic m') ∧
    Domain.UnmarshalJSON freshMachine sampleNoExpireDate = .panic
      ⟨⟨"example.com", "ACTIVE", "com", ⟨1609556645, 0, .UTC⟩, Time.zero, false, false, false,
        false, none⟩, "example.com\n"⟩ ∧
    (∃ m', Domain.UnmarshalJSON freshMachine sampleNoExpireDate = .panic m') :=
  ⟨rfl,
   (missing_required_field_panics freshMachine sampleNoDomain sampleNoDomainMembers .domain
      rfl rfl (by intro v hv; simp [sampleNoDomainMembers, Field.key] at hv)).2
      (fun g hg => absurd hg (by cases g <;> decide)),
   rfl,
   (missing_required_field_panics freshMachine sampleNoExpireDate sampleNoExpireDateMembers
      .expireDate rfl rfl
      (by intro v hv; simp [sampleNoExpireDateMembers, Field.key] at hv)).2
      (fun g hg => by
        cases g with
        | domain => exact ⟨"example.com", rfl⟩
        | status => exact ⟨"ACTIVE", rfl⟩
        | tld => exact ⟨"com", rfl⟩
        | createDate => exact ⟨_, Or.inr ⟨"2021-01-02 03:04:05", rfl, rfl⟩⟩
        | expireDate => exact absurd hg (by decide)
        | securityLock => exact absurd hg (by decide)
        | whoisPrivacy => exact absurd hg (by decide)
        | autoRenew => exact absurd hg (by decide)
        | notLocal => exact absurd hg (by decide)
        | labels => exact absurd hg (by decide))⟩

/-- C4 (code bug): a payload that encodes to the object with no keys (an empty
struct or map) has keys disjoint from the credentials, yet for every
credential pair the bytes `MarshalJSON` returns for it do not parse as JSON at
all; for the pair `key`, `secret` they are
`{"apikey":"key","secretapikey":"secret",   }`. -/
theorem empty_payload_not_json (apiKey secretAPIKey : String) :
    (∃ out, authRequest.MarshalJSON ⟨apiKey, secretAPIKey, some ⟨.ok "\x7b\x7d"⟩⟩ = .ok out ∧
      parseJSON out = none ∧ genericObject out = none) ∧
    authRequest.MarshalJSON ⟨"key", "secret", some ⟨.ok "\x7b\x7d"⟩⟩
      = .ok "\x7b\"apikey\":\"key\",\"secretapikey\":\"secret\",   \x7d" := by
  refine ⟨⟨_, marshalJSON_splice apiKey secretAPIKey "\x7b\x7d" '\x7b' ['\x7d'] rfl, ?_⟩, rfl⟩
  have hnone : parseJSON (String.mk (splicedText apiKey secretAPIKey ['\x7d'])) = none := by
    have hlen := splicedText_length apiKey secretAPIKey ['\x7d']
    obtain ⟨f, hf⟩ : ∃ f, 2 * (splicedText apiKey secretAPIKey ['\x7d']).length + 2 = f + 4 :=
      ⟨2 * (splicedText apiKey secretAPIKey ['\x7d']).length - 2, by omega⟩
    have hm : parseMembers (f + 1) 1 ['\x7d'] = none := by
      rw [parseMembers, skipSpace_of_not_isSpace (by rfl)]
      rfl
    unfold parseJSON
    simp only [String.length, String.toList, hf, parseValue_splicedText, hm, Option.map_none']
  exact ⟨hnone, by simp only [genericObject, hnone]⟩

/-- C5 (code bug): for every credential pair a nil payload gives exactly the
credential encoding, but a payload that encodes to the empty object gives the
credential encoding with its closing brace replaced by `,   }`, which is a
different text (and, by C4, not JSON). -/
theorem empty_payload_changes_encoding (apiKey secretAPIKey : String) :
    authRequest.MarshalJSON ⟨apiKey, secretAPIKey, none⟩
      = .ok (jsonMarshalClone apiKey secretAPIKey) ∧
    authRequest.MarshalJSON ⟨apiKey, secretAPIKey, some ⟨.ok "\x7b\x7d"⟩⟩
      = .ok (String.mk (jsonMarshalClone apiKey secretAPIKey).toList.dropLast ++ ",   "
          ++ "\x7d") ∧
    authRequest.MarshalJSON ⟨apiKey, secretAPIKey, some ⟨.ok "\x7b\x7d"⟩⟩
      ≠ .ok (jsonMarshalClone apiKey secretAPIKey) := by
  have h := marshalJSON_splice apiKey secretAPIKey "\x7b\x7d" '\x7b' ['\x7d'] rfl
  refine ⟨rfl, rfl, ?_⟩
  rw [h]
  intro heq
  have hlen := splicedText_length apiKey secretAPIKey ['\x7d']
  simp only [MarshalOutcome.ok.injEq] at heq
  have hlen' := congrArg String.length heq
  simp only [String.length] at hlen hlen'
  simp only [List.length_singleton] at hlen
  omega

set_option linter.unusedVariables false in
/-- C6: for every credential pair and every payload whose encoding is a JSON
object holding a member under `apikey` or `secretapikey`, `MarshalJSON`
returns bytes (no error, no panic), and these bytes, decoded as a generic
object, map the colliding key to the payload's value. The payload is given by
the bytes `json.Marshal` returns for it, which start with the opening brace. -/
theorem colliding_key_payload_wins (apiKey secretAPIKey embedded : String)
    (rest : List Char) (ms : List (String × JVal)) (key : String) (v : JVal)
    (hdata : embedded.toList = '\x7b' :: rest)
    (hparse : parseJSON embedded = some (.obj ms))
    (hkey : key = "apikey" ∨ key = "secretapikey")
    (hv : lastValue ms key = some v) :
    ∃ out obj, authRequest.MarshalJSON ⟨apiKey, secretAPIKey, some ⟨.ok embedded⟩⟩ = .ok out ∧
      genericObject out = some obj ∧ obj key = some v := by
  have hne : ms ≠ [] := by
    rintro rfl
    simp [lastValue] at hv
  refine ⟨String.mk (splicedText apiKey secretAPIKey rest),
    lastValue (("apikey", .str apiKey) :: ("secretapikey", .str secretAPIKey) :: ms),
    marshalJSON_splice apiKey secretAPIKey embedded _ rest hdata, ?_, ?_⟩
  · unfold genericObject
    rw [parseJSON_splicedText apiKey secretAPIKey embedded rest ms hdata hparse hne]
  · exact lastValue_cons_of_some _ (lastValue_cons_of_some _ hv)

set_option maxRecDepth 100000 in
/-- C6 at `sampleColliding`, whose member `apikey` is `"override"`. -/
theorem colliding_key_payload_wins_witness :
    authRequest.MarshalJSON ⟨"key", "secret", some ⟨.ok sampleColliding⟩⟩
      = .ok ("\x7b\"apikey\":\"key\",\"secretapikey\":\"secret\",   "
          ++ "\"name\":\"www\",\"apikey\":\"override\"\x7d") ∧
    ∃ out obj, authRequest.MarshalJSON ⟨"key", "secret", some ⟨.ok sampleColliding⟩⟩ = .ok out ∧
      genericObject out = some obj ∧ obj "apikey" = some (.str "override") :=
  ⟨rfl, colliding_key_payload_wins "key" "secret" sampleColliding _
    [("name", .str "www"), ("apikey", .str "override")] "apikey" (.str "override")
    rfl rfl (Or.inl rfl) rfl⟩

/-- C7: on every resource object that has every required field valid but no
`createDate` key, `UnmarshalJSON` succeeds, `CreateDate` is the Unix epoch
(0 seconds, 0 nanoseconds, as `time.Unix(0, 0)` gives it) and every other
field holds its decoded value. -/
theorem missing_createDate_gives_epoch (m : Machine) (b : String)
    (ms : List (String × JVal)) (dom st tld : String) (expire : Time)
    (labels : Option (List DomainLabel)) (v1 v2 v3 v4 : Bool)
    (hb : parseJSON b = some (.obj ms))
    (hp : PlainFields ms dom st tld expire) (hq : QuasiFields ms v1 v2 v3 v4)
    (hl : LabelsAre ms m.d.Labels labels) (habsent : ∀ v, ("createDate", v) ∉ ms) :
    Domain.UnmarshalJSON m b = .ok
      { d := { Domain := dom, Status := st, TLD := tld, CreateDate := ⟨0, 0, .Local⟩,
               ExpireDate := expire, SecurityLock := v1, WHOISPrivacy := v2,
               AutoRenew := v3, NotLocal := v4, Labels := labels },
        stdout := m.stdout ++ dom ++ "\n" } := by
  rw [unmarshal_of_object m hb]
  exact decodeFields_valid m hp (Or.inl ⟨objMapIndex_absent habsent, rfl⟩) hq hl

set_option maxRecDepth 100000 in
/-- C7 at `sampleMinimal`. -/
theorem missing_createDate_gives_epoch_witness :
    parseJSON sampleMinimal = some (.obj sampleMinimalMembers) ∧
    (∀ v, ("createDate", v) ∉ sampleMinimalMembers) ∧
    Domain.UnmarshalJSON freshMachine sampleMinimal = .ok
      { d := { Domain := "example.com", Status := "ACTIVE", TLD := "com",
               CreateDate := ⟨0, 0, .Local⟩, ExpireDate := ⟨1641092645, 0, .UTC⟩,
               SecurityLock := true, WHOISPrivacy := true, AutoRenew := false,
               NotLocal := false, Labels := none },
        stdout := "example.com\n" } :=
  have habsent : ∀ v, ("createDate", v) ∉ sampleMinimalMembers := by
    intro v hv
    simp [sampleMinimalMembers] at hv
  ⟨rfl, habsent,
    missing_createDate_gives_epoch freshMachine sampleMinimal sampleMinimalMembers
      "example.com" "ACTIVE" "com" ⟨1641092645, 0, .UTC⟩ none true true false false rfl
      ⟨rfl, rfl, rfl, ⟨"2022-01-02 03:04:05", rfl, rfl⟩⟩
      ⟨⟨_, rfl, rfl⟩, ⟨_, rfl, rfl⟩, ⟨_, rfl, rfl⟩, ⟨_, rfl, rfl⟩⟩
      (Or.inl ⟨rfl, rfl⟩) habsent⟩

/-- C8: on every resource object whose other fields are valid, if there is no
`labels` key the call succeeds and `Labels` is the nil slice; if `labels` is
an array of objects with the three string members `id`, `title`, `color`, the
call succeeds and `Labels` holds exactly those triples, in the order of the
array, whatever the receiver held before. -/
theorem labels_absent_or_listed (m : Machine) (b : String) (ms : List (String × JVal))
    (dom st tld : String) (create expire : Time) (v1 v2 v3 v4 : Bool)
    (hb : parseJSON b = some (.obj ms))
    (hp : PlainFields ms dom st tld expire) (hc : CreateDateIs ms create)
    (hq : QuasiFields ms v1 v2 v3 v4) :
    ((∀ v, ("labels", v) ∉ ms) →
      Domain.UnmarshalJSON m b = .ok
        { d := { Domain := dom, Status := st, TLD := tld, CreateDate := create,
                 ExpireDate := expire, SecurityLock := v1, WHOISPrivacy := v2,
                 AutoRenew := v3, NotLocal := v4, Labels := none },
          stdout := m.stdout ++ dom ++ "\n" }) ∧
    (∀ (objs : List JVal) (ls : List DomainLabel),
      objMapIndex ms "labels" = some (.arr objs) → List.Forall₂ IsLabelObject objs ls →
      Domain.UnmarshalJSON m b = .ok
        { d := { Domain := dom, Status := st, TLD := tld, CreateDate := create,
                 ExpireDate := expire, SecurityLock := v1, WHOISPrivacy := v2,
                 AutoRenew := v3, NotLocal := v4, Labels := some ls },
          stdout := m.stdout ++ dom ++ "\n" }) := by
  rw [unmarshal_of_object m hb]
  exact ⟨fun habsent => decodeFields_valid m hp hc hq (Or.inl ⟨objMapIndex_absent habsent, rfl⟩),
    fun objs ls hraw hobjs => decodeFields_valid m hp hc hq (labelsAre_of_forall₂ _ hraw hobjs)⟩

set_option maxRecDepth 100000 in
/-- C8 at `sampleMinimal`, which has no `labels`, and at `sampleTwoLabels`,
decoded into a receiver that already holds a label. -/
theorem labels_absent_or_listed_witness :
    (Domain.UnmarshalJSON freshMachine sampleMinimal = .ok
      { d := { Domain := "example.com", Status := "ACTIVE", TLD := "com",
               CreateDate := ⟨0, 0, .Local⟩, ExpireDate := ⟨1641092645, 0, .UTC⟩,
               SecurityLock := true, WHOISPrivacy := true, AutoRenew := false,
               NotLocal := false, Labels := none },
        stdout := "example.com\n" }) ∧
    (Domain.UnmarshalJSON
        { freshMachine with d := { freshMachine.d with Labels := some [⟨"9", "old", "#000"⟩] } }
        sampleTwoLabels = .ok
      { d := { Domain := "example.org", Status := "ACTIVE", TLD := "org",
               CreateDate := ⟨0, 0, .Local⟩, ExpireDate := ⟨1641092645, 0, .UTC⟩,
               SecurityLock := false, WHOISPrivacy := true, AutoRenew := true,
               NotLocal := false,
               Labels := some [⟨"1", "prod", "#ff0000"⟩, ⟨"2", "dev", "#00ff00"⟩] },
        stdout := "example.org\n" }) :=
  ⟨(labels_absent_or_listed freshMachine sampleMinimal sampleMinimalMembers
      "example.com" "ACTIVE" "com" ⟨0, 0, .Local⟩ ⟨1641092645, 0, .UTC⟩ true true false false
      rfl ⟨rfl, rfl, rfl, ⟨"2022-01-02 03:04:05", rfl, rfl⟩⟩ (Or.inl ⟨rfl, rfl⟩)
      ⟨⟨_, rfl, rfl⟩, ⟨_, rfl, rfl⟩, ⟨_, rfl, rfl⟩, ⟨_, rfl, rfl⟩⟩).1
      (by intro v hv; simp [sampleMinimalMembers] at hv),
   (labels_absent_or_listed _ sampleTwoLabels sampleTwoLabelsMembers
      "example.org" "ACTIVE" "org" ⟨0, 0, .Local⟩ ⟨1641092645, 0, .UTC⟩ false true true false
      rfl ⟨rfl, rfl, rfl, ⟨"2022-01-02 03:04:05", rfl, rfl⟩⟩ (Or.inl ⟨rfl, rfl⟩)
      ⟨⟨_, rfl, rfl⟩, ⟨_, rfl, rfl⟩, ⟨_, rfl, rfl⟩, ⟨_, rfl, rfl⟩⟩).2
      sampleTwoLabelsObjects [⟨"1", "prod", "#ff0000"⟩, ⟨"2", "dev", "#00ff00"⟩] rfl
      (.cons ⟨_, rfl, rfl, by simp, by simp, by simp⟩
        (.cons ⟨_, rfl, rfl, by simp, by simp, by simp⟩ .nil))⟩

/-- C9: on every complete, well-formed resource object (`domain`, `status`, `tld`
strings; `createDate`, `expireDate` strings `YYYY-MM-DD HH:MM:SS` of valid
calendar date-times; the four quasi-booleans the JSON integers 0 or 1;
`labels` an array of label objects) `UnmarshalJSON` succeeds and every field
of the record equals the input: the three strings verbatim, each date the UTC
instant `time.Date` gives for the six numbers of its string, each boolean true
exactly for 1, the labels in order. -/
theorem complete_object_decodes (m : Machine) (b : String) (ms : List (String × JVal))
    (dom st tld : String) (cy cmo cd ch cmi cs ey emo ed eh emi es : Nat)
    (v1 v2 v3 v4 : Bool) (objs : List JVal) (ls : List DomainLabel)
    (hb : parseJSON b = some (.obj ms))
    (hdom : objMapIndex ms "domain" = some (.str dom))
    (hst : objMapIndex ms "status" = some (.str st))
    (htld : objMapIndex ms "tld" = some (.str tld))
    (hcreate : objMapIndex ms "createDate" = some (.str (formatDateTime cy cmo cd ch cmi cs)))
    (hcvalid : ValidDateTime cy cmo cd ch cmi cs)
    (hexpire : objMapIndex ms "expireDate" = some (.str (formatDateTime ey emo ed eh emi es)))
    (hevalid : ValidDateTime ey emo ed eh emi es)
    (h1 : objMapIndex ms "securityLock" = some (quasiEncoding v1 false))
    (h2 : objMapIndex ms "whoisPrivacy" = some (quasiEncoding v2 false))
    (h3 : objMapIndex ms "autoRenew" = some (quasiEncoding v3 false))
    (h4 : objMapIndex ms "notLocal" = some (quasiEncoding v4 false))
    (hlabels : objMapIndex ms "labels" = some (.arr objs))
    (hobjs : List.Forall₂ IsLabelObject objs ls) :
    Domain.UnmarshalJSON m b = .ok
      { d := { Domain := dom, Status := st, TLD := tld,
               CreateDate := Date cy cmo cd ch cmi cs 0,
               ExpireDate := Date ey emo ed eh emi es 0,
               SecurityLock := v1, WHOISPrivacy := v2, AutoRenew := v3, NotLocal := v4,
               Labels := some ls },
        stdout := m.stdout ++ dom ++ "\n" } := by
  rw [unmarshal_of_object m hb]
  exact decodeFields_ok m
    ⟨hdom, hst, htld, ⟨_, hexpire, timeParse_formatDateTime hevalid⟩⟩
    (Or.inr ⟨_, hcreate, timeParse_formatDateTime hcvalid⟩)
    h1 (quasiBool_encoding _ _ _) h2 (quasiBool_encoding _ _ _)
    h3 (quasiBool_encoding _ _ _) h4 (quasiBool_encoding _ _ _)
    (labelsAre_of_forall₂ _ hlabels hobjs)

set_option maxRecDepth 100000 in
/-- C9 at `sampleComplete`: `createDate` is `"2021-01-02 03:04:05"`, which is
second 1609556645 of the Unix era, and `expireDate` falls on a leap day. -/
theorem complete_object_decodes_witness :
    parseJSON sampleComplete = some (.obj sampleCompleteMembers) ∧
    formatDateTime 2021 1 2 3 4 5 = "2021-01-02 03:04:05" ∧
    Date 2021 1 2 3 4 5 0 = ⟨1609556645, 0, .UTC⟩ ∧
    Domain.UnmarshalJSON freshMachine sampleComplete = .ok
      { d := { Domain := "example.com", Status := "ACTIVE", TLD := "com",
               CreateDate := ⟨1609556645, 0, .UTC⟩, ExpireDate := ⟨1709251199, 0, .UTC⟩,
               SecurityLock := true, WHOISPrivacy := false, AutoRenew := true,
               NotLocal := false,
               Labels := some [⟨"1", "prod", "#ff0000"⟩, ⟨"2", "dev", "#00ff00"⟩] },
        stdout := "example.com\n" } :=
  ⟨rfl, rfl, rfl,
    complete_object_decodes freshMachine sampleComplete sampleCompleteMembers
      "example.com" "ACTIVE" "com" 2021 1 2 3 4 5 2024 2 29 23 59 59 true false true false
      sampleCompleteObjects [⟨"1", "prod", "#ff0000"⟩, ⟨"2", "dev", "#00ff00"⟩]
      rfl rfl rfl rfl rfl
      ⟨by decide, by decide, by decide, by decide, by decide, by decide⟩
      rfl ⟨by decide, by decide, by decide, by decide, by decide, by decide⟩
      rfl rfl rfl rfl rfl
      (.cons ⟨_, rfl, rfl, by simp, by simp, by simp⟩
        (.cons ⟨_, rfl, rfl, by simp, by simp, by simp⟩ .nil))⟩

set_option maxRecDepth 100000 in
/-- C10, counterexample: `sampleBadTLD` fails at `tld`, and the error comes
back with `domain` and `status` already written into the zero receiver. -/
theorem failed_decode_leaves_fields_written :
    ∃ e m', Domain.UnmarshalJSON freshMachine sampleBadTLD = .error e m' ∧
      m'.d.Domain = "example.com" ∧ m'.d.Status = "ACTIVE" ∧ m'.d ≠ freshMachine.d :=
  ⟨.unmarshalTypeError "number" "string" "" "", _, rfl, rfl, rfl, by decide⟩

/-- C10 (amended): for every input on which `UnmarshalJSON` returns an error,
the receiver is left exactly as it was when the failure comes before any field
is assigned, that is when the input is not the text of a JSON object or its
`domain` is not a string; when `domain` is a string the failure is at a later
field and the receiver is not restored: `Domain` holds the decoded string
(and it has been printed). -/
theorem failed_decode_receiver (m : Machine) (b : String) (e : GoError) (m' : Machine)
    (h : Domain.UnmarshalJSON m b = .error e m') :
    ((∀ ms, parseJSON b ≠ some (.obj ms)) → m' = m) ∧
    (∀ ms, parseJSON b = some (.obj ms) →
      ((∀ s, objMapIndex ms "domain" ≠ some (.str s)) → m' = m) ∧
      (∀ s, objMapIndex ms "domain" = some (.str s) →
        m'.d.Domain = s ∧ m'.stdout = m.stdout ++ s ++ "\n")) := by
  constructor
  · intro hno
    unfold Domain.UnmarshalJSON jsonUnmarshalObjMap at h
    cases hp : parseJSON b with
    | none =>
      rw [hp] at h
      simp only [Outcome.error.injEq] at h
      exact h.2.symm
    | some v =>
      rw [hp] at h
      cases v with
      | obj ms => exact absurd hp (hno ms)
      | null =>
        have hpanic : decodeFields [] m = .panic m := rfl
        simp only [hpanic] at h
        exact absurd h (by simp)
      | bool v => simp only [Outcome.error.injEq] at h; exact h.2.symm
      | num v => simp only [Outcome.error.injEq] at h; exact h.2.symm
      | str v => simp only [Outcome.error.injEq] at h; exact h.2.symm
      | arr v => simp only [Outcome.error.injEq] at h; exact h.2.symm
  · intro ms hb
    rw [unmarshal_of_object m hb] at h
    have hm : (decodeFields ms m).machine = m' := by rw [h]; rfl
    constructor
    · intro hno
      obtain ⟨h1, h2⟩ := decodeFields_domain_fails m hno
      rw [← hm, h1, h2]
    · intro s hs
      have hd := decodeFields_domain ms m
      rw [hm, decodeDomainField_str m hs] at hd
      exact hd

set_option maxRecDepth 100000 in
/-- C10 (amended) at a truncated text, which leaves the receiver alone, and at
`sampleBadTLD`, which leaves `domain` written. -/
theorem failed_decode_receiver_witness :
    Domain.UnmarshalJSON freshMachine "[1" = .error .jsonSyntaxError freshMachine ∧
    Domain.UnmarshalJSON freshMachine sampleBadTLD
      = .error (.unmarshalTypeError "number" "string" "" "") sampleBadTLDAfter ∧
    sampleBadTLDAfter.d.Domain = "example.com" ∧ sampleBadTLDAfter.stdout = "example.com\n" :=
  have hfirst : freshMachine = freshMachine :=
    (failed_decode_receiver freshMachine "[1" .jsonSyntaxError freshMachine rfl).1
      (fun ms hms => by
        have hnone : parseJSON "[1" = none := rfl
        rw [hnone] at hms
        exact absurd hms (by simp))
  ⟨hfirst ▸ rfl, rfl,
   ((failed_decode_receiver freshMachine sampleBadTLD _ sampleBadTLDAfter rfl).2
     sampleBadTLDMembers rfl).2 "example.com" rfl⟩

set_option maxRecDepth 100000 in
/-- C11, counterexample: with `createDate` written as `"2021-13-40 99:99:99"`
the call returns the error of `time.Parse`, whose message
`parsing time "2021-13-40 99:99:99": month out of range` names neither
`createDate` nor `expireDate`. -/
theorem bad_date_error_without_field_name :
    ∃ e m', Domain.UnmarshalJSON freshMachine sampleBadCreateDate = .error e m' ∧
      e.Error = some "parsing time \"2021-13-40 99:99:99\": month out of range" ∧
      e.names "createDate" = false ∧ e.names "expireDate" = false :=
  ⟨sampleBadDateError, _, rfl, rfl, rfl, rfl⟩

/-- C11 (amended): in a resource object whose fields before the date field
are valid, a `createDate` or `expireDate` that is a JSON string `time.Parse`
rejects at the layout makes `UnmarshalJSON` return an error. The error is the
one `time.Parse` returned, a `*time.ParseError` that carries the layout and the
date string and nothing about the field: the same string gives the same error
in `createDate` and in `expireDate`. -/
theorem bad_date_rejected (m : Machine) (b : String) (ms : List (String × JVal)) (date : Field)
    (s : String) (e : GoError) (hb : parseJSON b = some (.obj ms))
    (hdate : date = .createDate ∨ date = .expireDate)
    (hraw : objMapIndex ms date.key = some (.str s))
    (hearlier : ∀ g : Field, g.index < date.index → g.Valid ms)
    (hbad : timeParse s = .error e) :
    (∃ m', Domain.UnmarshalJSON m b = .error e m') ∧
    ∃ layoutElem valueElem message, e = .parseError layout s layoutElem valueElem message := by
  have hinvalid : ¬ date.Valid ms := by
    rw [date_valid_iff hdate hraw]
    rintro ⟨t, ht⟩
    rw [ht] at hbad
    exact absurd hbad (by simp)
  obtain ⟨mf, _, hrun, _⟩ := decodeFields_first_invalid m date hearlier hinvalid
  rw [unmarshal_of_object m hb, hrun]
  exact ⟨date_step_error hdate hraw hbad mf, timeParse_error_shape hbad⟩

set_option maxRecDepth 100000 in
/-- C11 (amended) at `sampleBadExpireDate`: the error is the one
`sampleBadCreateDate` gives for the same string in `createDate`. -/
theorem bad_date_rejected_witness :
    parseJSON sampleBadExpireDate = some (.obj sampleBadExpireDateMembers) ∧
    timeParse "2021-13-40 99:99:99" = .error sampleBadDateError ∧
    (∃ m', Domain.UnmarshalJSON freshMachine sampleBadExpireDate
      = .error sampleBadDateError m') ∧
    (∃ m', Domain.UnmarshalJSON freshMachine sampleBadCreateDate
      = .error sampleBadDateError m') :=
  ⟨rfl, rfl,
   (bad_date_rejected freshMachine sampleBadExpireDate sampleBadExpireDateMembers .expireDate
      "2021-13-40 99:99:99" sampleBadDateError rfl (Or.inr rfl) rfl
      (fun g hg => by
        cases g with
        | domain => exact ⟨"example.com", rfl⟩
        | status => exact ⟨"ACTIVE", rfl⟩
        | tld => exact ⟨"com", rfl⟩
        | createDate => exact ⟨_, Or.inr ⟨"2021-01-02 03:04:05", rfl, rfl⟩⟩
        | expireDate => exact absurd hg (by decide)
        | securityLock => exact absurd hg (by decide)
        | whoisPrivacy => exact absurd hg (by decide)
        | autoRenew => exact absurd hg (by decide)
        | notLocal => exact absurd hg (by decide)
        | labels => exact absurd hg (by decide))
      rfl).1,
   ⟨_, rfl⟩⟩

set_option maxRecDepth 100000 in
/-- C12, counterexample: `sampleFraction`, whose `createDate` is
`"2021-01-02 03:04:05.123"`, is accepted; the fraction is kept as 123000000
nanoseconds. Its `expireDate` `"2022-01-02  3:04:05,5"` is accepted too. -/
theorem fractional_second_accepted :
    Domain.UnmarshalJSON freshMachine sampleFraction = .ok
      { d := { Domain := "example.com", Status := "ACTIVE", TLD := "com",
               CreateDate := ⟨1609556645, 123000000, .UTC⟩,
               ExpireDate := ⟨1641092645, 500000000, .UTC⟩,
               SecurityLock := true, WHOISPrivacy := true, AutoRenew := false,
               NotLocal := false, Labels := none },
        stdout := "example.com\n" } := rfl

/-- C12 (amended): in a resource object whose other fields are valid, a date
string in `createDate` or `expireDate` is accepted exactly when it has the
lenient shape `time.Parse` reads at the layout: four-digit year, `-`,
two-digit month, `-`, two-digit day, one or more spaces, an hour of one or two
digits, `:`, two-digit minute, `:`, two-digit second, all in range, and then
nothing or a fractional second (a period or comma and one or more digits).
On success the field holds the instant of these fields, the fraction as
nanoseconds. Whatever else follows the seconds, such as a zone, makes the
call fail. -/
theorem date_string_accepted_iff (m : Machine) (b : String) (ms : List (String × JVal))
    (date : Field) (s : String) (hb : parseJSON b = some (.obj ms))
    (hdate : date = .createDate ∨ date = .expireDate)
    (hraw : objMapIndex ms date.key = some (.str s))
    (hothers : ∀ g : Field, g ≠ date → g.Valid ms) :
    ((∃ m', Domain.UnmarshalJSON m b = .ok m') ↔ ∃ t, AcceptedDateText s t) ∧
    (∀ m', Domain.UnmarshalJSON m b = .ok m' →
      AcceptedDateText s (if date = .createDate then m'.d.CreateDate else m'.d.ExpireDate)) ∧
    (∀ (year month day hour min sec spaces : Nat) (hourText suffix : List Char),
      ValidDateTime year month day hour min sec → IsHourText hour hourText →
      s = dateTimeText year month day spaces hourText min sec suffix →
      ((∃ m', Domain.UnmarshalJSON m b = .ok m') ↔ (suffix = [] ∨ IsFraction suffix))) := by
  have hok : (∃ m', Domain.UnmarshalJSON m b = .ok m') ↔ ∃ t, timeParse s = .ok t := by
    rw [unmarshal_of_object m hb, decodeFields_ok_iff_valid, ← date_valid_iff hdate hraw]
    constructor
    · intro h
      exact h date
    · intro h g
      by_cases hg : g = date
      · rw [hg]
        exact h
      · exact hothers g hg
  refine ⟨?_, fun m' hm' => ?_, ?_⟩
  · rw [hok]
    constructor
    · rintro ⟨t, ht⟩
      exact ⟨t, (timeParse_ok_iff s t).1 ht⟩
    · rintro ⟨t, ht⟩
      exact ⟨t, (timeParse_ok_iff s t).2 ht⟩
  · rw [unmarshal_of_object m hb] at hm'
    obtain ⟨dom, st, tld, create, expire, v1, v2, v3, v4, hp, hc, _, hall⟩ :=
      decodeFields_ok_values hm'
    obtain ⟨l, _, hr⟩ := hall m
    rw [hr] at hm'
    simp only [Outcome.ok.injEq] at hm'
    subst hm'
    rcases hdate with rfl | rfl
    · simp only [Field.key] at hraw
      simp only [if_true]
      rcases hc with ⟨hnone, _⟩ | ⟨s', hs', ht⟩
      · rw [hnone] at hraw
        simp at hraw
      · rw [hraw] at hs'
        simp only [Option.some.injEq, JVal.str.injEq] at hs'
        subst hs'
        exact (timeParse_ok_iff _ _).1 ht
    · simp only [Field.key] at hraw
      have hne : ¬ (Field.expireDate = Field.createDate) := by decide
      simp only [hne, if_false]
      obtain ⟨s', hs', ht⟩ := hp.expireDate
      rw [hraw] at hs'
      simp only [Option.some.injEq, JVal.str.injEq] at hs'
      subst hs'
      exact (timeParse_ok_iff _ _).1 ht
  · intro year month day hour min sec spaces hourText suffix hv hht hs
    rw [hok, hs]
    exact timeParse_suffix_iff hv hht suffix

set_option maxRecDepth 100000 in
/-- C12 (amended) at `sampleFraction`, whose `createDate` has the lenient
shape, and at `sampleZone`, whose `expireDate` `"2022-01-02 03:04:05Z"` is
rejected with `extra text: "Z"`. -/
theorem date_string_accepted_iff_witness :
    ((∃ m', Domain.UnmarshalJSON freshMachine sampleFraction = .ok m') ↔
      ∃ t, AcceptedDateText "2021-01-02 03:04:05.123" t) ∧
    "2022-01-02 03:04:05Z" = dateTimeText 2022 1 2 0 (twoDigits 3) 4 5 ['Z'] ∧
    (¬ ∃ m', Domain.UnmarshalJSON freshMachine sampleZone = .ok m') ∧
    (∃ m', Domain.UnmarshalJSON freshMachine sampleZone = .error
      (.parseError "2006-01-02 15:04:05" "2022-01-02 03:04:05Z" "" "Z" ": extra text: \"Z\"")
      m') :=
  have hothers : ∀ (ms : List (String × JVal)) (date : Field),
      (∀ g : Field, g ≠ date → g.Valid ms) → ∀ g : Field, g ≠ date → g.Valid ms :=
    fun _ _ h => h
  ⟨(date_string_accepted_iff freshMachine sampleFraction sampleFractionMembers .createDate
      "2021-01-02 03:04:05.123" rfl (Or.inl rfl) rfl
      (hothers _ _ (fun g hg => by
        cases g with
        | domain => exact ⟨"example.com", rfl⟩
        | status => exact ⟨"ACTIVE", rfl⟩
        | tld => exact ⟨"com", rfl⟩
        | createDate => exact absurd rfl hg
        | expireDate => exact ⟨"2022-01-02  3:04:05,5", _, rfl, rfl⟩
        | securityLock => exact ⟨true, _, rfl, rfl⟩
        | whoisPrivacy => exact ⟨true, _, rfl, rfl⟩
        | autoRenew => exact ⟨false, _, rfl, rfl⟩
        | notLocal => exact ⟨false, _, rfl, rfl⟩
        | labels => exact ⟨none, Or.inl ⟨rfl, rfl⟩⟩))).1,
   rfl,
   fun hacc =>
     (((date_string_accepted_iff freshMachine sampleZone sampleZoneMembers .expireDate
        "2022-01-02 03:04:05Z" rfl (Or.inr rfl) rfl
        (hothers _ _ (fun g hg => by
          cases g with
          | domain => exact ⟨"example.com", rfl⟩
          | status => exact ⟨"ACTIVE", rfl⟩
          | tld => exact ⟨"com", rfl⟩
          | createDate => exact ⟨_, Or.inl ⟨rfl, rfl⟩⟩
          | expireDate => exact absurd rfl hg
          | securityLock => exact ⟨true, _, rfl, rfl⟩
          | whoisPrivacy => exact ⟨true, _, rfl, rfl⟩
          | autoRenew => exact ⟨false, _, rfl, rfl⟩
          | notLocal => exact ⟨false, _, rfl, rfl⟩
          | labels => exact ⟨none, Or.inl ⟨rfl, rfl⟩⟩))).2.2 2022 1 2 3 4 5 0 (twoDigits 3) ['Z']
        ⟨by decide, by decide, by decide, by decide, by decide, by decide⟩ (Or.inl rfl) rfl).1
        hacc).elim (fun h => absurd h (by simp))
      (fun ⟨p, ds, h, hp, _, _⟩ => by
        simp only [List.cons.injEq] at h
        rcases hp with hp | hp <;> rw [hp] at h <;> exact absurd h.1 (by decide)),
   ⟨_, rfl⟩⟩

/-- C13 (code bug): the call does write to standard output. On every JSON object
whose `domain` is a string the call prints that string and a newline (the
`fmt.Println(d.Domain)` of line 131), whether it then succeeds or fails, so
standard output is not what it was before the call. On any other input it
leaves standard output alone. -/
theorem unmarshal_prints_domain (m : Machine) (b : String) :
    (∀ ms s, parseJSON b = some (.obj ms) → objMapIndex ms "domain" = some (.str s) →
      (Domain.UnmarshalJSON m b).machine.stdout = m.stdout ++ s ++ "\n" ∧
      (Domain.UnmarshalJSON m b).machine.stdout ≠ m.stdout) ∧
    ((∀ ms s, parseJSON b = some (.obj ms) → objMapIndex ms "domain" ≠ some (.str s)) →
      (Domain.UnmarshalJSON m b).machine.stdout = m.stdout) := by
  constructor
  · intro ms s hb hdom
    have hout : (Domain.UnmarshalJSON m b).machine.stdout = m.stdout ++ s ++ "\n" := by
      rw [unmarshal_of_object m hb, (decodeFields_domain ms m).2, decodeDomainField_str m hdom]
      rfl
    refine ⟨hout, fun heq => ?_⟩
    rw [hout] at heq
    have hlen := congrArg String.length heq
    simp only [String.length_append] at hlen
    have h1 : ("\n" : String).length = 1 := rfl
    omega
  · intro hno
    cases hp : parseJSON b with
    | none => simp only [Domain.UnmarshalJSON, jsonUnmarshalObjMap, hp, Outcome.machine]
    | some v =>
      cases v with
      | obj ms =>
        obtain ⟨h1, h2⟩ := decodeFields_domain_fails m (fun s => hno ms s hp)
        rw [unmarshal_of_object m hp, h1, h2]
      | null =>
        have hpanic : decodeFields [] m = .panic m := rfl
        simp only [Domain.UnmarshalJSON, jsonUnmarshalObjMap, hp, hpanic, Outcome.machine]
      | bool v => simp only [Domain.UnmarshalJSON, jsonUnmarshalObjMap, hp, Outcome.machine]
      | num v => simp only [Domain.UnmarshalJSON, jsonUnmarshalObjMap, hp, Outcome.machine]
      | str v => simp only [Domain.UnmarshalJSON, jsonUnmarshalObjMap, hp, Outcome.machine]
      | arr v => simp only [Domain.UnmarshalJSON, jsonUnmarshalObjMap, hp, Outcome.machine]

set_option maxRecDepth 100000 in
/-- C13 at `sampleComplete`: the call prints `example.com` and a newline. -/
theorem unmarshal_prints_domain_witness :
    (Domain.UnmarshalJSON freshMachine sampleComplete).machine.stdout = "example.com\n" ∧
    (Domain.UnmarshalJSON freshMachine sampleComplete).machine.stdout ≠ freshMachine.stdout :=
  (unmarshal_prints_domain freshMachine sampleComplete).1 sampleCompleteMembers "example.com"
    rfl rfl

set_option maxRecDepth 100000 in
/-- C14 (code bug): for every credential pair and every payload whose encoding
is a JSON object with at least one member, the spliced bytes decode to the very
mapping the map-merge reference gives (credentials and payload decoded apart,
the payload winning on a collision). For the payload that encodes to the
object with no members the two differ: the reference gives the credentials,
the spliced bytes do not parse. The payload is given by the bytes
`json.Marshal` returns for it, which start with the opening brace. -/
theorem splice_matches_map_merge_unless_empty (apiKey secretAPIKey : String) :
    (∀ (embedded : String) (rest : List Char) (ms : List (String × JVal)),
      embedded.toList = '\x7b' :: rest → parseJSON embedded = some (.obj ms) → ms ≠ [] →
      ∃ out obj,
        authRequest.MarshalJSON ⟨apiKey, secretAPIKey, some ⟨.ok embedded⟩⟩ = .ok out ∧
        genericObject out = some obj ∧
        mapMergeReference (jsonMarshalClone apiKey secretAPIKey) embedded = some obj) ∧
    (∃ out ref,
      authRequest.MarshalJSON ⟨apiKey, secretAPIKey, some ⟨.ok "\x7b\x7d"⟩⟩ = .ok out ∧
      genericObject out = none ∧
      mapMergeReference (jsonMarshalClone apiKey secretAPIKey) "\x7b\x7d" = some ref ∧
      ref "apikey" = some (.str apiKey)) := by
  have hcreds : genericObject (jsonMarshalClone apiKey secretAPIKey)
      = some (lastValue [("apikey", .str apiKey), ("secretapikey", .str secretAPIKey)]) := by
    simp only [genericObject, parseJSON_jsonMarshalClone]
  constructor
  · intro embedded rest ms hdata hparse hne
    refine ⟨String.mk (splicedText apiKey secretAPIKey rest),
      lastValue (("apikey", .str apiKey) :: ("secretapikey", .str secretAPIKey) :: ms),
      marshalJSON_splice apiKey secretAPIKey embedded _ rest hdata, ?_, ?_⟩
    · unfold genericObject
      rw [parseJSON_splicedText apiKey secretAPIKey embedded rest ms hdata hparse hne]
    · have hpay : genericObject embedded = some (lastValue ms) := by
        simp only [genericObject, hparse]
      simp only [mapMergeReference, hcreds, hpay, Option.some.injEq]
      funext key
      exact (lastValue_append [("apikey", .str apiKey), ("secretapikey", .str secretAPIKey)]
        ms key).symm
  · have hpay : genericObject "\x7b\x7d" = some (lastValue []) := rfl
    refine ⟨_, fun key => (lastValue [] key).or
      (lastValue [("apikey", .str apiKey), ("secretapikey", .str secretAPIKey)] key),
      marshalJSON_splice apiKey secretAPIKey "\x7b\x7d" '\x7b' ['\x7d'] rfl, ?_, ?_, ?_⟩
    · simp only [genericObject, parseJSON_splicedText_empty]
    · simp only [mapMergeReference, hcreds, hpay]
    · have h1 : ("apikey" : String) ≠ "secretapikey" := by decide
      simp [lastValue, h1]

set_option maxRecDepth 100000 in
/-- C14 at `samplePayload`, whose keys `domain` and `ttl` join the credentials. -/
theorem splice_matches_map_merge_unless_empty_witness :
    ∃ out obj,
      authRequest.MarshalJSON ⟨"key", "secret", some ⟨.ok samplePayload⟩⟩ = .ok out ∧
      genericObject out = some obj ∧
      mapMergeReference (jsonMarshalClone "key" "secret") samplePayload = some obj ∧
      out = "\x7b\"apikey\":\"key\",\"secretapikey\":\"secret\",   "
        ++ "\"domain\":\"example.com\",\"ttl\":600\x7d" ∧
      obj "apikey" = some (.str "key") ∧ obj "ttl" = some (.num "600") ∧ obj "name" = none := by
  obtain ⟨out, obj, hm, hg, hr⟩ :=
    (splice_matches_map_merge_unless_empty "key" "secret").1 samplePayload _
      [("domain", .str "example.com"), ("ttl", .num "600")] rfl rfl (by simp)
  have hout : authRequest.MarshalJSON ⟨"key", "secret", some ⟨.ok samplePayload⟩⟩
      = .ok ("\x7b\"apikey\":\"key\",\"secretapikey\":\"secret\",   "
        ++ "\"domain\":\"example.com\",\"ttl\":600\x7d") := rfl
  rw [hout] at hm
  simp only [MarshalOutcome.ok.injEq] at hm
  subst hm
  have hobj : genericObject ("\x7b\"apikey\":\"key\",\"secretapikey\":\"secret\",   "
        ++ "\"domain\":\"example.com\",\"ttl\":600\x7d")
      = some (lastValue [("apikey", .str "key"), ("secretapikey", .str "secret"),
          ("domain", .str "example.com"), ("ttl", .num "600")]) := rfl
  rw [hobj] at hg
  simp only [Option.some.injEq] at hg
  subst hg
  exact ⟨_, _, hout, hobj, hr, rfl, rfl, rfl, rfl⟩

/-- C15: two JSON objects that agree on the ten known keys are decoded alike,
whatever else they hold: from the same receiver the two calls end the same
way, with the same error or with the same `Domain` value (and, when both lack a
required key, with the same panic). -/
theorem unknown_keys_ignored (m : Machine) (b1 b2 : String) (ms1 ms2 : List (String × JVal))
    (hb1 : parseJSON b1 = some (.obj ms1)) (hb2 : parseJSON b2 = some (.obj ms2))
    (hagree : ∀ f : Field, AgreeOn ms1 ms2 f.key) :
    Domain.UnmarshalJSON m b1 = Domain.UnmarshalJSON m b2 := by
  rw [unmarshal_of_object m hb1, unmarshal_of_object m hb2, decodeFields_eq_runSteps,
    decodeFields_eq_runSteps]
  exact runSteps_congr Field.all (fun g _ => objMapIndex_of_agreeOn (hagree g)) _

set_option maxRecDepth 100000 in
/-- C15 at `sampleComplete` and `sampleCompleteExtra`, which holds the same ten
fields in another order among members under `note`, `extra` and `Domain`. -/
theorem unknown_keys_ignored_witness :
    parseJSON sampleCompleteExtra = some (.obj sampleCompleteExtraMembers) ∧
    Domain.UnmarshalJSON freshMachine sampleComplete
      = Domain.UnmarshalJSON freshMachine sampleCompleteExtra :=
  ⟨rfl, unknown_keys_ignored freshMachine sampleComplete sampleCompleteExtra
    sampleCompleteMembers sampleCompleteExtraMembers rfl rfl (fun f => by cases f <;> rfl)⟩

/-- C17 (code bug): the ten fields are decoded in a fixed order and the first
invalid one decides how the call ends: two objects that agree on the fields up
to and including their first invalid field end the same way, whatever their
later fields hold, namely as the statement of that field ends. When the field
holds a value the call returns an error; when it is a required field that is
missing or `null` the call panics instead of returning the field's error. -/
theorem first_invalid_field_decides (m : Machine) (b1 b2 : String)
    (ms1 ms2 : List (String × JVal)) (f : Field)
    (hb1 : parseJSON b1 = some (.obj ms1)) (hb2 : parseJSON b2 = some (.obj ms2))
    (hearlier : ∀ g : Field, g.index < f.index → g.Valid ms1) (hinvalid : ¬ f.Valid ms1)
    (hagree : ∀ g : Field, g.index ≤ f.index → AgreeOn ms1 ms2 g.key) :
    Domain.UnmarshalJSON m b2 = Domain.UnmarshalJSON m b1 ∧
    (∃ mf, Domain.UnmarshalJSON m b1 = f.step ms1 mf) ∧
    (∀ raw, objMapIndex ms1 f.key = some raw →
      ∃ e m', Domain.UnmarshalJSON m b1 = .error e m') ∧
    (objMapIndex ms1 f.key = none → ∃ m', Domain.UnmarshalJSON m b1 = .panic m') := by
  have hidx : ∀ g : Field, g.index ≤ f.index → objMapIndex ms1 g.key = objMapIndex ms2 g.key :=
    fun g hg => objMapIndex_of_agreeOn (hagree g hg)
  obtain ⟨mf, hmf, hrun, hnot⟩ := decodeFields_first_invalid m f hearlier hinvalid
  have hearlier2 : ∀ g : Field, g.index < f.index → g.Valid ms2 := by
    intro g hg
    have h1 := (step_ok_iff_valid ms1 g m).2 (hearlier g hg)
    rw [step_congr g (hidx g (Nat.le_of_lt hg))] at h1
    exact (step_ok_iff_valid ms2 g m).1 h1
  have hinvalid2 : ¬ f.Valid ms2 := by
    intro hv
    have h2 := (step_ok_iff_valid ms2 f m).2 hv
    rw [← step_congr f (hidx f (Nat.le_refl _))] at h2
    exact hinvalid ((step_ok_iff_valid ms1 f m).1 h2)
  obtain ⟨mf2, hmf2, hrun2, _⟩ := decodeFields_first_invalid m f hearlier2 hinvalid2
  have hsame : mf2 = mf := by
    have hc := runSteps_congr (Field.all.take f.index)
      (fun g hg => hidx g (Nat.le_of_lt (index_lt_of_mem_take f g hg))) (.ok m)
    rw [hmf, hmf2] at hc
    simp only [Outcome.ok.injEq] at hc
    exact hc.symm
  rw [unmarshal_of_object m hb1, unmarshal_of_object m hb2, hrun, hrun2, hsame,
    step_congr f (hidx f (Nat.le_refl _))]
  refine ⟨rfl, ⟨mf, rfl⟩, fun raw hraw => ?_, fun hnone => ?_⟩
  · rw [← step_congr f (hidx f (Nat.le_refl _))]
    cases hstep : f.step ms1 mf with
    | ok m' => exact absurd hstep (hnot m')
    | error e m' => exact ⟨e, m', rfl⟩
    | panic m' => exact absurd hstep (step_present_not_panic hraw mf m')
  · rw [← step_congr f (hidx f (Nat.le_refl _))]
    cases hreq : f.required with
    | true => exact ⟨mf, (step_absent hnone mf).1 hreq⟩
    | false => exact absurd ((step_absent hnone mf).2 hreq) hinvalid

set_option maxRecDepth 100000 in
/-- C17 at `sampleTwoInvalid` (`securityLock` and `autoRenew` both 2) and
`sampleTwoInvalidLater` (other later fields): both return
"SecurityLock response not a boolean"; and at `sampleNullLock`
(`securityLock` null, `autoRenew` 2), which panics. -/
theorem first_invalid_field_decides_witness :
    (Domain.UnmarshalJSON freshMachine sampleTwoInvalidLater
        = Domain.UnmarshalJSON freshMachine sampleTwoInvalid ∧
      Domain.UnmarshalJSON freshMachine sampleTwoInvalid
        = .error (.errorString "SecurityLock response not a boolean") sampleBeforeLock) ∧
    (∃ m', Domain.UnmarshalJSON freshMachine sampleNullLock = .panic m') :=
  have hvalid : ∀ ms : List (String × JVal),
      PlainFields ms "example.com" "ACTIVE" "com" ⟨1641092645, 0, .UTC⟩ →
      CreateDateIs ms ⟨1609556645, 0, .UTC⟩ →
      ∀ g : Field, g.index < Field.securityLock.index → g.Valid ms :=
    fun ms hp hc => valid_of_index_lt_securityLock hp hc
  ⟨⟨(first_invalid_field_decides freshMachine sampleTwoInvalid sampleTwoInvalidLater
      sampleTwoInvalidMembers sampleTwoInvalidLaterMembers .securityLock rfl rfl
      (hvalid _ ⟨rfl, rfl, rfl, ⟨"2022-01-02 03:04:05", rfl, rfl⟩⟩
        (Or.inr ⟨"2021-01-02 03:04:05", rfl, rfl⟩))
      (by
        rintro ⟨v, raw, hraw, hv⟩
        have hr : raw = .num "2" := by
          have h2 : objMapIndex sampleTwoInvalidMembers "securityLock" = some (.num "2") := rfl
          rw [h2] at hraw
          exact (Option.some.inj hraw).symm
        subst hr
        cases v <;> exact absurd hv (by decide))
      (fun g hg => by
        revert hg
        cases g <;> first | exact fun _ => rfl | exact fun hg => absurd hg (by decide))).1,
    rfl⟩,
   (first_invalid_field_decides freshMachine sampleNullLock sampleNullLock
      sampleNullLockMembers sampleNullLockMembers .securityLock rfl rfl
      (hvalid _ ⟨rfl, rfl, rfl, ⟨"2022-01-02 03:04:05", rfl, rfl⟩⟩
        (Or.inr ⟨"2021-01-02 03:04:05", rfl, rfl⟩))
      (by
        rintro ⟨v, raw, hraw, hv⟩
        have h2 : objMapIndex sampleNullLockMembers "securityLock" = none := rfl
        rw [h2] at hraw
        exact absurd hraw (by simp))
      (fun g _ => rfl)).2.2.2 rfl⟩

set_option maxRecDepth 100000 in
/-- C18 (code bug): on success every field but `Labels` is a function of the
input alone, an absent `createDate` gives the epoch and an absent `labels` the nil
slice whatever the receiver held, and `Labels` is the same for receivers that
held the same labels. But a `labels` array is decoded into the elements the
receiver already holds: `sampleLabelID`, whose only label has just an `id`,
gives the label `1` with empty title and color from the zero receiver, and
with the old title and color from `usedMachine`. -/
theorem decoded_labels_depend_on_receiver :
    (∀ (m1 m2 : Machine) (b : String) (r1 : Machine), Domain.UnmarshalJSON m1 b = .ok r1 →
      ∃ ms r2, parseJSON b = some (.obj ms) ∧ Domain.UnmarshalJSON m2 b = .ok r2 ∧
        { r2.d with Labels := r1.d.Labels } = r1.d ∧
        (m1.d.Labels = m2.d.Labels → r2.d = r1.d) ∧
        (objMapIndex ms "createDate" = none → r1.d.CreateDate = ⟨0, 0, .Local⟩) ∧
        (objMapIndex ms "labels" = none → r1.d.Labels = none)) ∧
    Domain.UnmarshalJSON freshMachine sampleLabelID = .ok
      { d := { Domain := "example.com", Status := "ACTIVE", TLD := "com",
               CreateDate := ⟨0, 0, .Local⟩, ExpireDate := ⟨1641092645, 0, .UTC⟩,
               SecurityLock := true, WHOISPrivacy := true, AutoRenew := false,
               NotLocal := false, Labels := some [⟨"1", "", ""⟩] },
        stdout := "example.com\n" } ∧
    Domain.UnmarshalJSON usedMachine sampleLabelID = .ok
      { d := { Domain := "example.com", Status := "ACTIVE", TLD := "com",
               CreateDate := ⟨0, 0, .Local⟩, ExpireDate := ⟨1641092645, 0, .UTC⟩,
               SecurityLock := true, WHOISPrivacy := true, AutoRenew := false,
               NotLocal := false, Labels := some [⟨"1", "old", "#000"⟩] },
        stdout := "example.com\n" } := by
  refine ⟨fun m1 m2 b r1 h => ?_, rfl, rfl⟩
  obtain ⟨ms, hb⟩ := object_of_unmarshal_ok h
  rw [unmarshal_of_object m1 hb] at h
  obtain ⟨dom, st, tld, create, expire, v1, v2, v3, v4, hp, hc, hq, hall⟩ :=
    decodeFields_ok_values h
  obtain ⟨l1, hl1, hr1⟩ := hall m1
  obtain ⟨l2, hl2, hr2⟩ := hall m2
  rw [hr1] at h
  simp only [Outcome.ok.injEq] at h
  subst h
  refine ⟨ms, ⟨⟨dom, st, tld, create, expire, v1, v2, v3, v4, l2⟩, m2.stdout ++ dom ++ "\n"⟩, hb,
    ?_, rfl, fun hsame => ?_, fun hnone => ?_, fun hnone => ?_⟩
  · rw [unmarshal_of_object m2 hb, hr2]
  · rw [hsame] at hl1
    rw [labelsAre_unique hl1 hl2]
  · rcases hc with ⟨_, hcreate⟩ | ⟨s, hs, _⟩
    · rw [hcreate]; rfl
    · rw [hnone] at hs; simp at hs
  · rcases hl1 with ⟨_, hl⟩ | ⟨raw, hraw, _⟩
    · exact hl
    · rw [hnone] at hraw; simp at hraw

end Porkbun

